import Mathlib

/-!
# A verification development for the list lexer (`lexer/lexer.go`)

The lexer is Rob Pike's state-function scanner specialised to nested,
comma-separated lists of bare symbols.  The embedding below follows the Go
source function by function.

* A Go `string` is a sequence of bytes: `List Nat`, each entry a byte value.
* `int` fields (`start`, `pos`, `width`) are `Int`; every offset is bounded by
  the length of the input, so no wrap-around can occur.
* A `rune` is an `Int` (`eof = -1` is not a valid code point).
* Sending on the channel `items` appends to the list `items`.
* A Go run-time panic (slice bounds out of range) is the outcome `Result.panic`.
* Loops are given an iteration budget; `Result.fuel` is the outcome of a loop
  whose budget ran out.  The theorems show that neither outcome ever occurs.
-/

namespace Lexer

/-! ## Outcomes -/

/-- Outcome of running a piece of the program. -/
inductive Result (α : Type) where
  | ok (a : α) : Result α
  | panic : Result α
  | fuel : Result α
deriving DecidableEq

/-- Sequencing of outcomes: the first failure stops the computation. -/
def Result.bind {α β : Type} (x : Result α) (f : α → Result β) : Result β :=
  match x with
  | .ok a => f a
  | .panic => .panic
  | .fuel => .fuel

instance : Monad Result where
  pure := Result.ok
  bind := Result.bind

/-! ## The parts of the Go standard library the lexer calls -/

/-- Bytes of an ASCII string literal of the source. -/
def bytes (s : String) : List Nat := s.data.map Char.toNat

/-- Constant `utf8.RuneError`. -/
def RuneError : Int := 0xFFFD

/-- Table `first` of package `utf8`: the class of a leading byte. -/
def first (b : Nat) : Nat :=
  if b < 0x80 then 0xF0
  else if b < 0xC2 then 0xF1
  else if b < 0xE0 then 0x02
  else if b = 0xE0 then 0x13
  else if b < 0xED then 0x03
  else if b = 0xED then 0x23
  else if b < 0xF0 then 0x03
  else if b = 0xF0 then 0x34
  else if b < 0xF4 then 0x04
  else if b = 0xF4 then 0x44
  else 0xF1

/-- Table `acceptRanges` of package `utf8`: bounds on the second byte. -/
def acceptRanges (i : Nat) : Nat × Nat :=
  match i with
  | 0 => (0x80, 0xBF)
  | 1 => (0xA0, 0xBF)
  | 2 => (0x80, 0x9F)
  | 3 => (0x90, 0xBF)
  | 4 => (0x80, 0x8F)
  | _ => (0, 0)

/-- Function `utf8.DecodeRuneInString`: the first rune of `s` and its width in
bytes; `(RuneError, 0)` on the empty string, `(RuneError, 1)` on an invalid
encoding. -/
def DecodeRuneInString (s : List Nat) : Int × Nat :=
  match s with
  | [] => (RuneError, 0)
  | s0 :: _ =>
    let x := first s0
    if x ≥ 0xF0 then
      if x = 0xF0 then ((s0 : Int), 1) else (RuneError, 1)
    else
      let sz := x % 8
      let accept := acceptRanges (x / 16)
      if s.length < sz then (RuneError, 1)
      else
        let s1 := s.getD 1 0
        if s1 < accept.1 ∨ accept.2 < s1 then (RuneError, 1)
        else if sz ≤ 2 then (((s0 % 32 * 64 + s1 % 64 : Nat) : Int), 2)
        else
          let s2 := s.getD 2 0
          if s2 < 0x80 ∨ 0xBF < s2 then (RuneError, 1)
          else if sz ≤ 3 then
            (((s0 % 16 * 4096 + s1 % 64 * 64 + s2 % 64 : Nat) : Int), 3)
          else
            let s3 := s.getD 3 0
            if s3 < 0x80 ∨ 0xBF < s3 then (RuneError, 1)
            else
              (((s0 % 8 * 262144 + s1 % 64 * 4096 + s2 % 64 * 64 + s3 % 64 : Nat) : Int), 4)

/-- Function `strings.IndexByte`: index of the first byte `c` of `s`, or `-1`. -/
def IndexByteString (s : List Nat) (c : Nat) : Int :=
  match s with
  | [] => -1
  | b :: t =>
    if b = c then 0
    else
      let i := IndexByteString t c
      if i < 0 then -1 else i + 1

/-- Function `strings.HasPrefix`. -/
def startsWith (s sub : List Nat) : Bool :=
  match s, sub with
  | _, [] => true
  | [], _ :: _ => false
  | b :: t, c :: u => b = c && startsWith t u

/-- Function `strings.Index`: index of the first occurrence of `sub` in `s`, or `-1`. -/
def Index (s sub : List Nat) : Int :=
  match s with
  | [] => if sub = [] then 0 else -1
  | b :: t =>
    if startsWith (b :: t) sub then 0
    else
      let i := Index t sub
      if i < 0 then -1 else i + 1

/-- The loop `for i, r := range s` of `strings.IndexRune` in the case
`r == utf8.RuneError`: byte index of the first rune of `s` that decodes to
`RuneError`, or `-1`.  `skip` counts the bytes of the current rune still to be
passed over, `i` is the byte index of the head of `s`. -/
def rangeRuneError (s : List Nat) (skip i : Nat) : Int :=
  match s with
  | [] => -1
  | b :: t =>
    match skip with
    | k + 1 => rangeRuneError t k (i + 1)
    | 0 =>
      let d := DecodeRuneInString (b :: t)
      if d.1 = RuneError then (i : Int) else rangeRuneError t (d.2 - 1) (i + 1)

/-- Function `utf8.ValidRune`. -/
def ValidRune (r : Int) : Bool :=
  if 0 ≤ r ∧ r < 0xD800 then true
  else if 0xDFFF < r ∧ r ≤ 0x10FFFF then true
  else false

/-- Conversion `string(r)` for a valid rune `r`: its UTF-8 encoding. -/
def encodeRune (r : Nat) : List Nat :=
  if r < 0x80 then [r]
  else if r < 0x800 then [0xC0 + r / 64, 0x80 + r % 64]
  else if r < 0x10000 then [0xE0 + r / 4096, 0x80 + r / 64 % 64, 0x80 + r % 64]
  else [0xF0 + r / 262144, 0x80 + r / 4096 % 64, 0x80 + r / 64 % 64, 0x80 + r % 64]

/-- Function `strings.IndexRune`: byte index of the first occurrence of the
rune `r` in `s`, or `-1`. -/
def IndexRune (s : List Nat) (r : Int) : Int :=
  if 0 ≤ r ∧ r < 0x80 then IndexByteString s r.toNat
  else if r = RuneError then rangeRuneError s 0 0
  else if ValidRune r = false then -1
  else Index s (encodeRune r.toNat)

/-! ## Data model (`lexer.go`, lines 13-58) -/

/-- Go type `itemType`. -/
inductive itemType where
  | itemError
  | itemLeftBracket
  | itemRightBracket
  | itemComma
  | itemSymbol
  | itemEOF
deriving DecidableEq

/-- Go struct `item`. -/
structure item where
  typ : itemType
  val : List Nat
deriving DecidableEq

/-- Constant `eof`. -/
def eof : Int := -1

/-- The primitive operations on the cursor and on the channel. -/
inductive Op where
  | next
  | backup
  | ignore
  | emit
  | errorf
deriving DecidableEq

/-- Cursor of the lexer right after a primitive operation. -/
structure Event where
  op : Op
  start : Int
  pos : Int
  width : Int
deriving DecidableEq

/-- Go struct `lexer`.  `items` holds what has been sent on the channel so far.
`trace` is a ghost field (not in the Go struct, read by no operation): the
history of the cursor, one entry per primitive operation executed. -/
structure lexer where
  name : List Nat
  input : List Nat
  start : Int
  pos : Int
  width : Int
  items : List item
  trace : List Event
deriving DecidableEq

/-- Go type `stateFn`: the four state functions; `nil` is `none : Option stateFn`. -/
inductive stateFn where
  | lexText
  | lexSymbol
  | lexInsideList
  | lexAfterList
deriving DecidableEq

/-! ## Cursor primitives (`lexer.go`, lines 85-167) -/

/-- Ghost bookkeeping: record the cursor after operation `o`. -/
def lexer.log (l : lexer) (o : Op) : lexer :=
  { l with trace := l.trace ++ [Event.mk o l.start l.pos l.width] }

/-- Slice expression `s[a:b]`; `none` when Go panics on the bounds. -/
def slice (s : List Nat) (a b : Int) : Option (List Nat) :=
  if 0 ≤ a ∧ a ≤ b ∧ b ≤ s.length then some ((s.drop a.toNat).take (b - a).toNat)
  else none

/-- Method `emit`: send `item{t, input[start:pos]}`, then `start = pos`. -/
def lexer.emit (l : lexer) (t : itemType) : Result lexer :=
  match slice l.input l.start l.pos with
  | none => .panic
  | some v => .ok (({ l with items := l.items ++ [item.mk t v], start := l.pos }).log .emit)

/-- Method `next`: consume the next rune, `eof` at the end of the input. -/
def lexer.next (l : lexer) : Result (Int × lexer) :=
  if l.pos ≥ l.input.length then
    .ok (eof, ({ l with width := 0 }).log .next)
  else
    match slice l.input l.pos l.input.length with
    | none => .panic
    | some rest =>
      let d := DecodeRuneInString rest
      .ok (d.1, ({ l with width := d.2, pos := l.pos + d.2 }).log .next)

/-- Method `ignore`. -/
def lexer.ignore (l : lexer) : lexer :=
  ({ l with start := l.pos }).log .ignore

/-- Method `backup`: step back over the rune read by the last `next`. -/
def lexer.backup (l : lexer) : lexer :=
  ({ l with pos := l.pos - l.width }).log .backup

/-- Method `peek`. -/
def lexer.peek (l : lexer) : Result (Int × lexer) := do
  let (runeVal, l) ← l.next
  pure (runeVal, l.backup)

/-- Method `consume`. -/
def lexer.consume (l : lexer) (valid : List Nat) : Result (Bool × lexer) := do
  let (r, l) ← l.next
  if IndexRune valid r ≥ 0 then pure (true, l)
  else pure (false, l.backup)

/-- The loop `for strings.IndexRune(valid, l.next()) >= 0 {}` of `consumeMany`,
run for at most `n` iterations. -/
def consumeLoop (valid : List Nat) (n : Nat) (l : lexer) : Result lexer :=
  match n with
  | 0 => .fuel
  | k + 1 =>
    match l.next with
    | .ok (r, l1) => if IndexRune valid r ≥ 0 then consumeLoop valid k l1 else .ok l1
    | .panic => .panic
    | .fuel => .fuel

/-- Method `consumeMany`.  Every iteration but the last one consumes at least
one byte, so `len(input) + 1` iterations are always enough. -/
def lexer.consumeMany (l : lexer) (valid : List Nat) : Result lexer := do
  let l ← consumeLoop valid (l.input.length + 1) l
  pure l.backup

/-- Method `consumeWS`. -/
def lexer.consumeWS (l : lexer) : Result lexer := do
  let l ← l.consumeMany (bytes " \t\r\n")
  pure l.ignore

/-- Method `errorf`, called with a format without verbs and no arguments:
send the error item and return the `nil` state. -/
def lexer.errorf (l : lexer) (format : List Nat) : Option stateFn × lexer :=
  (none, ({ l with items := l.items ++ [item.mk .itemError format] }).log .errorf)

/-- Function `isSymbolRune`. -/
def isSymbolRune (r : Int) : Bool :=
  0 ≤ IndexRune (bytes "0123456789abcdefghijklmnopqrstuvwxyzABCDEFGHIJKLMNOPQRSTUVWXYZ") r

/-! ## State functions (`lexer.go`, lines 91-103 and 179-238) -/

/-- State function `lexText`, the entry point. -/
def lexText (l : lexer) : Result (Option stateFn × lexer) := do
  let (r, l) ← l.next
  if r = 91 then
    let l ← l.emit .itemLeftBracket
    pure (some .lexInsideList, l)
  else if r = eof then
    let l ← l.emit .itemEOF
    pure (none, l)
  else
    pure (l.errorf (bytes "unexpected initial symbol"))

/-- State function `lexSymbol`. -/
def lexSymbol (l : lexer) : Result (Option stateFn × lexer) := do
  let chars := bytes "0123456789abcdefghijklmnopqrstuvwxyzABCDEFGHIJKLMNOPQRSTUVWXYZ"
  let l ← l.consumeMany chars
  let l ← if l.pos > l.start then l.emit .itemSymbol else pure l
  let l ← l.consumeWS
  let (r, l) ← l.next
  if r = 44 then
    let l ← l.emit .itemComma
    pure (some .lexInsideList, l)
  else if r = 93 then
    let l ← l.emit .itemRightBracket
    pure (some .lexAfterList, l)
  else
    pure (l.errorf (bytes "unexpected rune"))

/-- State function `lexInsideList`. -/
def lexInsideList (l : lexer) : Result (Option stateFn × lexer) := do
  let l ← l.consumeWS
  let (r, l) ← l.next
  if isSymbolRune r then
    pure (some .lexSymbol, l.backup)
  else if r = 91 then
    let l ← l.emit .itemLeftBracket
    pure (some .lexInsideList, l)
  else if r = 93 then
    let l ← l.emit .itemRightBracket
    pure (some .lexAfterList, l)
  else if r = eof then
    pure (l.errorf (bytes "unclosed list"))
  else
    pure (l.errorf (bytes "unexpected rune"))

/-- State function `lexAfterList`. -/
def lexAfterList (l : lexer) : Result (Option stateFn × lexer) := do
  let l ← l.consumeWS
  let (r, l) ← l.next
  if r = 44 then
    let l ← l.emit .itemComma
    pure (some .lexInsideList, l)
  else if r = 93 then
    let l ← l.emit .itemRightBracket
    pure (some .lexAfterList, l)
  else if r = eof then
    let l ← l.emit .itemEOF
    pure (none, l)
  else
    pure (l.errorf (bytes "unexpected rune"))

/-- Calling a value of type `stateFn`. -/
def stateFn.call (s : stateFn) (l : lexer) : Result (Option stateFn × lexer) :=
  match s with
  | .lexText => Lexer.lexText l
  | .lexSymbol => Lexer.lexSymbol l
  | .lexInsideList => Lexer.lexInsideList l
  | .lexAfterList => Lexer.lexAfterList l

/-! ## The run loop and the entry point (`lexer.go`, lines 61-82) -/

/-- The loop `for state := ...; state != nil; { state = state(l) }` of `run`,
run for at most `n` calls of a state function. -/
def runLoop (n : Nat) (state : Option stateFn) (l : lexer) : Result lexer :=
  match state with
  | none => .ok l
  | some s =>
    match n with
    | 0 => .fuel
    | k + 1 =>
      match s.call l with
      | .ok (state1, l1) => runLoop k state1 l1
      | .panic => .panic
      | .fuel => .fuel

/-- Method `run`, started in state `lexText`.  The budget of
`2 * len(input) + 2` calls is shown below never to run out. -/
def lexer.run (l : lexer) : Result lexer :=
  runLoop (2 * l.input.length + 2) (some .lexText) l

/-- The lexer that `Lex` initialises. -/
def lexer.init (name input : List Nat) : lexer :=
  ⟨name, input, 0, 0, 0, [], []⟩

/-- Function `Lex`: the state of the lexer when the goroutine `run` has
finished.  Its field `items` is the stream received over the channel. -/
def Lex (name input : List Nat) : Result lexer :=
  (lexer.init name input).run

/-- The token stream of `Lex(name, input)`. -/
def LexItems (name input : List Nat) : Result (List item) :=
  match Lex name input with
  | .ok l => .ok l.items
  | .panic => .panic
  | .fuel => .fuel

/-! ## Byte classes -/

/-- The white-space set of `consumeWS`. -/
def wsBytes : List Nat := bytes " \t\r\n"

/-- The symbol alphabet of `lexSymbol` and `isSymbolRune`. -/
def symBytes : List Nat :=
  bytes "0123456789abcdefghijklmnopqrstuvwxyzABCDEFGHIJKLMNOPQRSTUVWXYZ"

/-- Byte `b` is a space, tab, carriage return or newline. -/
def isWS (b : Nat) : Bool := decide (b ∈ wsBytes)

/-- Byte `b` is an ASCII letter or digit. -/
def isSym (b : Nat) : Bool := decide (b ∈ symBytes)

/-! ## Invariants of the cursor -/

/-- Cursor and history are sound: `0 ≤ start ≤ pos ≤ len(input)` now and
after every primitive operation executed so far, and `start` never decreased. -/
def Good (l : lexer) : Prop :=
  0 ≤ l.start ∧ l.start ≤ l.pos ∧ l.pos ≤ (l.input.length : Int) ∧
  (∀ e ∈ l.trace, 0 ≤ e.start ∧ e.start ≤ e.pos ∧ e.pos ≤ (l.input.length : Int) ∧
    e.start ≤ l.start) ∧
  l.trace.Pairwise (fun a b => a.start ≤ b.start)

/-- What a `next` at a position whose remaining input is `rest` returns: the
rune `r` and the width `w`. -/
def RuneView (rest : List Nat) (r : Int) (w : Nat) : Prop :=
  match rest with
  | [] => r = eof ∧ w = 0
  | b :: _ => (b < 128 ∧ r = (b : Int) ∧ w = 1) ∨ (128 ≤ b ∧ 128 ≤ r ∧ 1 ≤ w)

/-! ## Functional reading of the state machine

Between two calls of state functions the lexer stands at a token boundary
(`start = pos`), so a call is determined by the remaining input
`input[pos:]`.  `specStep` and `specRun` describe the calls and the loop as
functions of the remaining input; the lexer is shown below to refine them. -/

/-- The error item with message `msg`. -/
def errItem (msg : String) : item := ⟨.itemError, bytes msg⟩

/-- The `Symbol` item of `lexSymbol` for the run `sym` of symbol bytes: none
when the run is empty (the guard `pos > start`). -/
def symbolItems (sym : List Nat) : List item :=
  if sym = [] then [] else [⟨.itemSymbol, sym⟩]

/-- Functional reading of one call of a state function on the remaining input
`rest` (cursor at a token boundary, `start = pos`): the state returned, the
number of bytes consumed (when the `nil` state is returned: the bytes consumed
before the rune that ends the scan), and the items sent. -/
def specStep (s : stateFn) (rest : List Nat) : Option stateFn × Nat × List item :=
  match s with
  | .lexText =>
    match rest with
    | [] => (none, 0, [⟨.itemEOF, []⟩])
    | b :: _ =>
      if b = 91 then (some .lexInsideList, 1, [⟨.itemLeftBracket, [91]⟩])
      else (none, 0, [errItem "unexpected initial symbol"])
  | .lexInsideList =>
    let w := (rest.takeWhile isWS).length
    match rest.dropWhile isWS with
    | [] => (none, w, [errItem "unclosed list"])
    | b :: _ =>
      if isSym b then (some .lexSymbol, w, [])
      else if b = 91 then (some .lexInsideList, w + 1, [⟨.itemLeftBracket, [91]⟩])
      else if b = 93 then (some .lexAfterList, w + 1, [⟨.itemRightBracket, [93]⟩])
      else (none, w, [errItem "unexpected rune"])
  | .lexSymbol =>
    let sym := rest.takeWhile isSym
    let rest1 := rest.dropWhile isSym
    let w := (rest1.takeWhile isWS).length
    let symItems : List item := symbolItems sym
    match rest1.dropWhile isWS with
    | [] => (none, sym.length + w, symItems ++ [errItem "unexpected rune"])
    | b :: _ =>
      if b = 44 then (some .lexInsideList, sym.length + w + 1, symItems ++ [⟨.itemComma, [44]⟩])
      else if b = 93 then
        (some .lexAfterList, sym.length + w + 1, symItems ++ [⟨.itemRightBracket, [93]⟩])
      else (none, sym.length + w, symItems ++ [errItem "unexpected rune"])
  | .lexAfterList =>
    let w := (rest.takeWhile isWS).length
    match rest.dropWhile isWS with
    | [] => (none, w, [⟨.itemEOF, []⟩])
    | b :: _ =>
      if b = 44 then (some .lexInsideList, w + 1, [⟨.itemComma, [44]⟩])
      else if b = 93 then (some .lexAfterList, w + 1, [⟨.itemRightBracket, [93]⟩])
      else (none, w, [errItem "unexpected rune"])

/-- Functional reading of the run loop: the items sent by at most `n` calls of
state functions starting in `state` on the remaining input `rest`; `none` when
`n` calls do not reach the `nil` state. -/
def specRun (n : Nat) (state : Option stateFn) (rest : List Nat) : Option (List item) :=
  match state with
  | none => some []
  | some s =>
    match n with
    | 0 => none
    | k + 1 =>
      match specRun k (specStep s rest).1 (rest.drop (specStep s rest).2.1) with
      | some more => some ((specStep s rest).2.2 ++ more)
      | none => none

/-- What a call of a state function from a token boundary at offset `p` must
produce, given its functional reading `out`. -/
def StepPost (l : lexer) (p : Nat) (out : Option stateFn × Nat × List item)
    (res : Result (Option stateFn × lexer)) : Prop :=
  ∃ l1, res = .ok (out.1, l1) ∧ l1.input = l.input ∧ l1.name = l.name ∧
    l1.items = l.items ++ out.2.2 ∧ Good l1 ∧
    (out.1 ≠ none → l1.start = ((p + out.2.1 : Nat) : Int) ∧
      l1.pos = ((p + out.2.1 : Nat) : Int)) ∧
    ((p + out.2.1 : Nat) : Int) ≤ l1.pos

/-- The second half of `lexSymbol`: white space, then a comma or a closing
bracket. -/
def lexSymbolTail (l : lexer) : Result (Option stateFn × lexer) := do
  let l ← l.consumeWS
  let (r, l) ← l.next
  if r = 44 then
    let l ← l.emit .itemComma
    pure (some .lexInsideList, l)
  else if r = 93 then
    let l ← l.emit .itemRightBracket
    pure (some .lexAfterList, l)
  else
    pure (l.errorf (bytes "unexpected rune"))

/-- Functional reading of `Lex`: the token stream of an input. -/
def specLex (input : List Nat) : List item :=
  (specRun (2 * input.length + 2) (some .lexText) input).getD []

/-- Termination measure of the run loop: twice the number of bytes left, plus
one when the state is not `lexSymbol`. -/
def measure (s : stateFn) (rest : List Nat) : Nat :=
  2 * rest.length + (if s = .lexSymbol then 0 else 1)

/-! ## Reachable states -/

/-- The pairs (state about to be called, lexer) that the loop of `run` goes
through when started by `Lex name input`; the state `none` is the `nil` state
that ends the loop. -/
inductive Reachable (name input : List Nat) : Option stateFn → lexer → Prop where
  | init : Reachable name input (some .lexText) (lexer.init name input)
  | step {s : stateFn} {l : lexer} {s1 : Option stateFn} {l1 : lexer} :
      Reachable name input (some s) l → s.call l = .ok (s1, l1) →
      Reachable name input s1 l1

/-- A token boundary: the cursor is sound, no lexeme is pending, and the
`lexSymbol` state is only entered in front of a symbol byte. -/
def Boundary (input : List Nat) (s : stateFn) (l : lexer) : Prop :=
  l.input = input ∧ Good l ∧ l.start = l.pos ∧
    (s = .lexSymbol → ∃ b t, input.drop l.pos.toNat = b :: t ∧ isSym b = true)

/-! ## Properties of streams -/

/-- The item ends the stream: it is `EndOfInput` or `Error`. -/
def item.isFinal (t : item) : Bool :=
  decide (t.typ = .itemEOF ∨ t.typ = .itemError)

/-- Byte `b` may occur in a well-formed input: a symbol byte, white space, a
bracket or a comma. -/
def isAllowed (b : Nat) : Bool :=
  isSym b || isWS b || decide (b = 91) || decide (b = 93) || decide (b = 44)

/-- The lexer right after `lexText` has read a leading `[` of `input`: the
cursor stands behind the bracket and `LeftBracket` has been sent. -/
def afterOpen (input : List Nat) : lexer :=
  { name := [], input := input, start := 1, pos := 1, width := 1,
    items := [⟨.itemLeftBracket, [91]⟩],
    trace := [⟨.next, 0, 1, 1⟩, ⟨.emit, 1, 1, 1⟩] }

/-! ## The grammar of well-formed inputs -/

mutual
/-- A value of the list notation (`value := symbol | list`). -/
inductive Value where
  | symbol (text : List Nat) : Value
  | list (items : Items) : Value
/-- The values between the brackets of a list (`items? `). -/
inductive Items where
  | nil : Items
  | cons (head : Value) (tail : Items) : Items
end

mutual
/-- The terminals of a value, in order: `[` is byte 91, `]` byte 93, `,` byte 44. -/
def Value.terminals : Value → List item
  | .symbol text => [⟨.itemSymbol, text⟩]
  | .list items => ⟨.itemLeftBracket, [91]⟩ :: (items.terminals ++ [⟨.itemRightBracket, [93]⟩])
/-- The terminals of comma-separated values, in order. -/
def Items.terminals : Items → List item
  | .nil => []
  | .cons v .nil => v.terminals
  | .cons v (.cons w r) => v.terminals ++ ⟨.itemComma, [44]⟩ :: (Items.cons w r).terminals
end

mutual
/-- Every symbol of the value is a non-empty run of ASCII letters and digits
(`symbol := [A-Za-z0-9]+`). -/
def Value.wellFormed : Value → Bool
  | .symbol text => !text.isEmpty && text.all isSym
  | .list items => items.wellFormed
/-- Every symbol of the values is well-formed. -/
def Items.wellFormed : Items → Bool
  | .nil => true
  | .cons v r => v.wellFormed && r.wellFormed
end

/-- Concatenation of the texts of `toks`, each preceded by the next white-space
run of `wss` (an empty run when `wss` is used up). -/
def glueRest : List item → List (List Nat) → List Nat
  | [], _ => []
  | t :: ts, wss => wss.headD [] ++ (t.val ++ glueRest ts wss.tail)

/-- The input spelled by the terminals `toks` with the white-space runs `wss`
between them: no white space before the first terminal. -/
def glue : List item → List (List Nat) → List Nat
  | [], _ => []
  | t :: ts, wss => t.val ++ glueRest ts wss

/-- The sequences of terminals that the state machine reads to the end,
starting in state `lexInsideList` or `lexAfterList`. -/
inductive Accepts : stateFn → List item → Prop where
  | done : Accepts .lexAfterList []
  | enter {ts : List item} : Accepts .lexInsideList ts →
      Accepts .lexInsideList (⟨.itemLeftBracket, [91]⟩ :: ts)
  | leave {ts : List item} : Accepts .lexAfterList ts →
      Accepts .lexInsideList (⟨.itemRightBracket, [93]⟩ :: ts)
  | symComma {c : Nat} {s : List Nat} {rest : List item} :
      (∀ b ∈ c :: s, isSym b = true) → Accepts .lexInsideList rest →
      Accepts .lexInsideList (⟨.itemSymbol, c :: s⟩ :: ⟨.itemComma, [44]⟩ :: rest)
  | symLeave {c : Nat} {s : List Nat} {rest : List item} :
      (∀ b ∈ c :: s, isSym b = true) → Accepts .lexAfterList rest →
      Accepts .lexInsideList (⟨.itemSymbol, c :: s⟩ :: ⟨.itemRightBracket, [93]⟩ :: rest)
  | comma {ts : List item} : Accepts .lexInsideList ts →
      Accepts .lexAfterList (⟨.itemComma, [44]⟩ :: ts)
  | close {ts : List item} : Accepts .lexAfterList ts →
      Accepts .lexAfterList (⟨.itemRightBracket, [93]⟩ :: ts)

/-- What may follow a value: a comma and more values, or a closing bracket. -/
def Follows (k : List item) : Prop :=
  (∃ k1, k = ⟨.itemComma, [44]⟩ :: k1 ∧ Accepts .lexInsideList k1) ∨
  (∃ k1, k = ⟨.itemRightBracket, [93]⟩ :: k1 ∧ Accepts .lexAfterList k1)

/-! ## Further notions for the primitives and the histories -/

/-- The bytes of `input` from offset `p` up to offset `q` are a sequence of
runes, as `next` reads them, that all belong to the set `valid`. -/
inductive Consumed (valid input : List Nat) : Nat → Nat → Prop where
  | stop (p : Nat) : Consumed valid input p p
  | read {p q : Nat} : p < input.length →
      IndexRune valid (DecodeRuneInString (input.drop p)).1 ≥ 0 →
      Consumed valid input (p + (DecodeRuneInString (input.drop p)).2) q →
      Consumed valid input p q

/-- The lexer on `input` (which starts with `[` and a symbol byte) when the
state `lexSymbol` is entered for the first time: `lexText` has sent
`LeftBracket`, and `lexInsideList` has looked at the symbol byte and backed
up. -/
def beforeSymbol (input : List Nat) : lexer :=
  { name := [], input := input, start := 1, pos := 1, width := 1,
    items := [⟨.itemLeftBracket, [91]⟩],
    trace := [⟨.next, 0, 1, 1⟩, ⟨.emit, 1, 1, 1⟩, ⟨.next, 1, 2, 1⟩, ⟨.backup, 1, 1, 1⟩,
      ⟨.ignore, 1, 1, 1⟩, ⟨.next, 1, 2, 1⟩, ⟨.backup, 1, 1, 1⟩] }

/-- Concatenation of the texts of the items, in order. -/
def texts : List item → List Nat
  | [] => []
  | t :: ts => t.val ++ texts ts

/-- The input with every space, tab, carriage return and newline removed. -/
def stripWS (input : List Nat) : List Nat :=
  input.filter (fun b => !isWS b)

/-- In the history `tr`, every `backup` comes right after a `next`, and it
moves `pos` back by the width which that `next` recorded (and changes neither
`start` nor `width`). -/
def BackupsFollowNext (tr : List Event) : Prop :=
  ∀ (before : List Event) (e : Event) (after : List Event), tr = before ++ e :: after →
    e.op = .backup →
    ∃ (earlier : List Event) (n : Event), before = earlier ++ [n] ∧ n.op = .next ∧
      e.pos = n.pos - n.width ∧ e.start = n.start ∧ e.width = n.width

/-- The last primitive operation executed was a `next`, and the cursor is as
that `next` left it. -/
def LastNext (l : lexer) : Prop :=
  ∃ earlier, l.trace = earlier ++ [⟨.next, l.start, l.pos, l.width⟩]

/-! ## Facts about the library functions -/

@[simp] theorem Result.ok_bind {α β : Type} (a : α) (f : α → Result β) :
    (Result.ok a >>= f) = f a := rfl

@[simp] theorem Result.pure_eq {α : Type} (a : α) : (pure a : Result α) = Result.ok a := rfl

theorem wsBytes_eq : wsBytes = [32, 9, 13, 10] := by decide

theorem symBytes_lt : ∀ b ∈ symBytes, b < 128 := by decide

theorem wsBytes_lt : ∀ b ∈ wsBytes, b < 128 := by decide

theorem isSym_iff (b : Nat) :
    isSym b = true ↔ (48 ≤ b ∧ b ≤ 57) ∨ (97 ≤ b ∧ b ≤ 122) ∨ (65 ≤ b ∧ b ≤ 90) := by
  constructor
  · intro h
    have h1 : b ∈ symBytes := by simpa [isSym] using h
    have h2 : ∀ c ∈ symBytes, (48 ≤ c ∧ c ≤ 57) ∨ (97 ≤ c ∧ c ≤ 122) ∨ (65 ≤ c ∧ c ≤ 90) := by
      decide
    exact h2 b h1
  · intro h
    have h2 : ∀ c < 128, ((48 ≤ c ∧ c ≤ 57) ∨ (97 ≤ c ∧ c ≤ 122) ∨ (65 ≤ c ∧ c ≤ 90)) →
        isSym c = true := by decide
    exact h2 b (by omega) h

theorem isWS_iff (b : Nat) : isWS b = true ↔ b = 32 ∨ b = 9 ∨ b = 13 ∨ b = 10 := by
  simp [isWS, wsBytes_eq]

theorem decode_ascii (b : Nat) (t : List Nat) (h : b < 128) :
    DecodeRuneInString (b :: t) = ((b : Int), 1) := by
  simp [DecodeRuneInString, first, h]

theorem first_cases (b : Nat) (h : 128 ≤ b) :
    first b = 0xF1 ∨ (first b = 0x02 ∧ 0xC2 ≤ b ∧ b < 0xE0) ∨ (first b = 0x13 ∧ b = 0xE0) ∨
      (first b = 0x03 ∧ 0xE1 ≤ b ∧ b < 0xF0) ∨ (first b = 0x23 ∧ b = 0xED) ∨
      (first b = 0x34 ∧ b = 0xF0) ∨ (first b = 0x04 ∧ 0xF1 ≤ b ∧ b < 0xF4) ∨
      (first b = 0x44 ∧ b = 0xF4) := by
  by_cases h1 : b < 0xC2
  · left; (unfold first; split_ifs <;> omega)
  by_cases h2 : b < 0xE0
  · right; left; refine ⟨?_, by omega, h2⟩; (unfold first; split_ifs <;> omega)
  by_cases h3 : b = 0xE0
  · right; right; left; subst h3; exact ⟨by decide, rfl⟩
  by_cases h4 : b = 0xED
  · right; right; right; right; left; subst h4; exact ⟨by decide, rfl⟩
  by_cases h5 : b < 0xF0
  · right; right; right; left; refine ⟨?_, by omega, h5⟩; (unfold first; split_ifs <;> omega)
  by_cases h6 : b = 0xF0
  · right; right; right; right; right; left; subst h6; exact ⟨by decide, rfl⟩
  by_cases h7 : b < 0xF4
  · right; right; right; right; right; right; left; refine ⟨?_, by omega, h7⟩; (unfold first; split_ifs <;> omega)
  by_cases h8 : b = 0xF4
  · right; right; right; right; right; right; right; subst h8; exact ⟨by decide, rfl⟩
  left; (unfold first; split_ifs <;> omega)

theorem decode_nonascii (b : Nat) (t : List Nat) (h : 128 ≤ b) :
    128 ≤ (DecodeRuneInString (b :: t)).1 ∧ 1 ≤ (DecodeRuneInString (b :: t)).2 ∧
      (DecodeRuneInString (b :: t)).2 ≤ (b :: t).length := by
  rcases first_cases b h with hf | ⟨hf, hb⟩ | ⟨hf, hb⟩ | ⟨hf, hb⟩ | ⟨hf, hb⟩ | ⟨hf, hb⟩ |
    ⟨hf, hb⟩ | ⟨hf, hb⟩
  all_goals
    simp only [DecodeRuneInString, hf]
    norm_num [acceptRanges, RuneError]
    try (split_ifs <;> simp <;> omega)

theorem IndexByteString_ge (s : List Nat) (c : Nat) : -1 ≤ IndexByteString s c := by
  induction s with
  | nil => simp [IndexByteString]
  | cons b t ih =>
    simp only [IndexByteString]
    split_ifs <;> omega

theorem IndexByteString_nonneg_iff (s : List Nat) (c : Nat) :
    0 ≤ IndexByteString s c ↔ c ∈ s := by
  induction s with
  | nil => simp [IndexByteString]
  | cons b t ih =>
    simp only [IndexByteString, List.mem_cons]
    split_ifs with h1 h2
    · simp [h1]
    · constructor
      · intro h; omega
      · rintro (h | h)
        · exact absurd h.symm h1
        · have := ih.mpr h; omega
    · constructor
      · intro _; right; exact ih.mp (by omega)
      · intro _; omega

theorem rangeRuneError_ascii (s : List Nat) (i : Nat) (h : ∀ b ∈ s, b < 128) :
    rangeRuneError s 0 i = -1 := by
  induction s generalizing i with
  | nil => simp [rangeRuneError]
  | cons b t ih =>
    have hb : b < 128 := h b (by simp)
    have ht : ∀ c ∈ t, c < 128 := fun c hc => h c (by simp [hc])
    simp only [rangeRuneError, decode_ascii b t hb]
    have : ((b : Int) = RuneError) = False := by
      simp only [RuneError, eq_iff_iff, iff_false]; omega
    simp only [this, if_false]
    exact ih (i + 1) ht

theorem startsWith_cons_false (s u : List Nat) (c : Nat) (h : c ∉ s) :
    startsWith s (c :: u) = false := by
  cases s with
  | nil => simp [startsWith]
  | cons b t =>
    have : b ≠ c := fun e => h (by simp [e])
    simp [startsWith, this]

theorem Index_not_mem (s u : List Nat) (c : Nat) (h : c ∉ s) : Index s (c :: u) = -1 := by
  induction s with
  | nil => simp [Index]
  | cons b t ih =>
    have ht : c ∉ t := fun e => h (by simp [e])
    simp [Index, startsWith_cons_false _ u c h, ih ht]

theorem encodeRune_head (r : Nat) (h : 128 ≤ r) :
    ∃ c u, encodeRune r = c :: u ∧ 128 ≤ c := by
  unfold encodeRune
  split_ifs
  · omega
  · exact ⟨_, _, rfl, by omega⟩
  · exact ⟨_, _, rfl, by omega⟩
  · exact ⟨_, _, rfl, by omega⟩

/-- On a set of ASCII bytes, `IndexRune` finds exactly the runes that are
members of the set. -/
theorem IndexRune_ascii (s : List Nat) (h : ∀ b ∈ s, b < 128) (r : Int) :
    0 ≤ IndexRune s r ↔ 0 ≤ r ∧ r < 128 ∧ r.toNat ∈ s := by
  unfold IndexRune
  split_ifs with h1 h2 h3
  · rw [IndexByteString_nonneg_iff]; simp [h1.1, h1.2]
  · rw [rangeRuneError_ascii s 0 h]
    constructor
    · intro h; omega
    · rintro ⟨ha, hb, _⟩; exact absurd (And.intro ha hb) h1
  · constructor
    · intro h; omega
    · rintro ⟨ha, hb, _⟩; exact absurd (And.intro ha hb) h1
  · have hv : 0 ≤ r := by
      by_contra hn
      exact h3 (by unfold ValidRune; rw [if_neg (by omega), if_neg (by omega)])
    obtain ⟨c, u, he, hc⟩ := encodeRune_head r.toNat (by omega)
    have hcs : c ∉ s := fun hm => by have := h c hm; omega
    rw [he, Index_not_mem s u c hcs]
    constructor
    · intro h; omega
    · rintro ⟨ha, hb, _⟩; exact absurd (And.intro ha hb) h1

theorem IndexRune_ws (r : Int) :
    (IndexRune wsBytes r ≥ 0) ↔ ∃ b : Nat, r = b ∧ isWS b = true := by
  rw [ge_iff_le, IndexRune_ascii _ wsBytes_lt]
  constructor
  · rintro ⟨h1, _, h3⟩
    exact ⟨r.toNat, by omega, by simpa [isWS] using h3⟩
  · rintro ⟨b, rfl, hb⟩
    have hm : b ∈ wsBytes := by simpa [isWS] using hb
    have := wsBytes_lt b hm
    refine ⟨by omega, by omega, by simpa using hm⟩

theorem IndexRune_sym (r : Int) :
    (IndexRune symBytes r ≥ 0) ↔ ∃ b : Nat, r = b ∧ isSym b = true := by
  rw [ge_iff_le, IndexRune_ascii _ symBytes_lt]
  constructor
  · rintro ⟨h1, _, h3⟩
    exact ⟨r.toNat, by omega, by simpa [isSym] using h3⟩
  · rintro ⟨b, rfl, hb⟩
    have hm : b ∈ symBytes := by simpa [isSym] using hb
    have := symBytes_lt b hm
    refine ⟨by omega, by omega, by simpa using hm⟩

theorem isSymbolRune_iff (r : Int) :
    isSymbolRune r = true ↔ ∃ b : Nat, r = b ∧ isSym b = true := by
  rw [← IndexRune_sym]
  simp [isSymbolRune, symBytes]

/-! ## The cursor primitives -/

theorem Good.log {l l1 : lexer} (hl : Good l) (hin : l1.input = l.input)
    (htr : l1.trace = l.trace) (hs : l.start ≤ l1.start) (h1 : l1.start ≤ l1.pos)
    (h2 : l1.pos ≤ (l1.input.length : Int)) (o : Op) : Good (l1.log o) := by
  obtain ⟨g1, g2, g3, g4, g5⟩ := hl
  simp only [Good, lexer.log, htr, hin] at *
  refine ⟨by omega, h1, h2, ?_, ?_⟩
  · intro e he
    rcases List.mem_append.mp he with he | he
    · have := g4 e he; omega
    · simp only [List.mem_singleton] at he
      subst he; simp only; omega
  · rw [List.pairwise_append]
    refine ⟨g5, by simp, ?_⟩
    intro a ha b hb
    simp only [List.mem_singleton] at hb
    subst hb
    have := g4 a ha
    simp only; omega

theorem good_init (name input : List Nat) : Good (lexer.init name input) := by
  simp [Good, lexer.init]

theorem drop_length_le (input : List Nat) (p : Nat) (b : Nat) (t : List Nat)
    (h : input.drop p = b :: t) : p + (b :: t).length = input.length := by
  have := congrArg List.length h
  simp only [List.length_drop, List.length_cons] at this
  simp only [List.length_cons]
  omega

theorem next_spec (l : lexer) (p : Nat) (hl : Good l) (hp : l.pos = (p : Int)) :
    ∃ (r : Int) (w : Nat),
      l.next = .ok (r, ({ l with width := (w : Int), pos := l.pos + (w : Int) }).log .next) ∧
      (p : Int) + w ≤ l.input.length ∧ RuneView (l.input.drop p) r w := by
  obtain ⟨g1, g2, g3, g4, g5⟩ := hl
  cases hd : l.input.drop p with
  | nil =>
    have hlen : l.input.length ≤ p := by simpa using hd
    refine ⟨eof, 0, ?_, by simpa [hp] using g3, by simp [RuneView]⟩
    have : (l.input.length : Int) ≤ l.pos := by omega
    simp [lexer.next, this]
  | cons b t =>
    have hlen := drop_length_le _ _ _ _ hd
    simp only [List.length_cons] at hlen
    have hlt : ¬ ((l.input.length : Int) ≤ l.pos) := by omega
    have hsl : slice l.input l.pos l.input.length = some (b :: t) := by
      simp only [slice, hp]
      rw [if_pos (by omega)]
      simp only [Int.toNat_ofNat, hd]
      congr 1
      apply List.take_of_length_le
      simp only [List.length_cons]; omega
    refine ⟨(DecodeRuneInString (b :: t)).1, (DecodeRuneInString (b :: t)).2, ?_, ?_, ?_⟩
    · simp [lexer.next, hlt, hsl]
    · by_cases hb : b < 128
      · rw [decode_ascii b t hb]; simp only [Nat.cast_one]; omega
      · have := (decode_nonascii b t (by omega)).2.2
        simp only [List.length_cons] at this
        omega
    · simp only [RuneView]
      by_cases hb : b < 128
      · left; simp [decode_ascii b t hb, hb]
      · right
        have := decode_nonascii b t (by omega)
        omega

theorem Good.next {l : lexer} (hl : Good l) (w : Nat)
    (h : l.pos + (w : Int) ≤ l.input.length) :
    Good (({ l with width := (w : Int), pos := l.pos + (w : Int) }).log .next) := by
  have h0 := hl
  obtain ⟨g1, g2, g3, g4, g5⟩ := h0
  refine Good.log hl ?_ ?_ ?_ ?_ ?_ _
  · rfl
  · rfl
  · exact le_refl _
  · simp only; omega
  · exact h

theorem RuneView.not_mem {rest : List Nat} {r : Int} {w : Nat} (h : RuneView rest r w)
    (P : Nat → Bool) (hP : ∀ b, P b = true → b < 128)
    (hn : ¬ ∃ b : Nat, r = b ∧ P b = true) : rest.takeWhile P = [] := by
  cases rest with
  | nil => rfl
  | cons b t =>
    simp only [RuneView] at h
    have hb : P b = false := by
      by_contra hb
      simp only [Bool.not_eq_false] at hb
      rcases h with ⟨_, h2, _⟩ | ⟨h1, _, _⟩
      · exact hn ⟨b, h2, hb⟩
      · have := hP b hb; omega
    simp [List.takeWhile, hb]

theorem RuneView.mem {rest : List Nat} {r : Int} {w : Nat} (h : RuneView rest r w)
    (P : Nat → Bool) (hP : ∀ b, P b = true → b < 128)
    (hn : ∃ b : Nat, r = b ∧ P b = true) :
    ∃ b t, rest = b :: t ∧ P b = true ∧ w = 1 := by
  obtain ⟨c, hc, hPc⟩ := hn
  cases rest with
  | nil => simp only [RuneView, eof] at h; omega
  | cons b t =>
    simp only [RuneView] at h
    rcases h with ⟨_, h2, h3⟩ | ⟨_, h2, _⟩
    · have : b = c := by omega
      exact ⟨b, t, rfl, this ▸ hPc, h3⟩
    · have := hP c hPc; omega

theorem consumeLoop_spec (valid : List Nat) (P : Nat → Bool)
    (hV : ∀ r : Int, IndexRune valid r ≥ 0 ↔ ∃ b : Nat, r = b ∧ P b = true)
    (hP : ∀ b, P b = true → b < 128) :
    ∀ (n : Nat) (l : lexer) (p : Nat), Good l → l.pos = (p : Int) →
      ((l.input.drop p).takeWhile P).length < n →
      ∃ l1, consumeLoop valid n l = .ok l1 ∧ l1.input = l.input ∧ l1.name = l.name ∧
        l1.start = l.start ∧ l1.items = l.items ∧
        l1.pos - l1.width = (p : Int) + ((l.input.drop p).takeWhile P).length ∧
        0 ≤ l1.width ∧ Good l1 := by
  intro n
  induction n with
  | zero => intro l p _ _ h; omega
  | succ k ih =>
    intro l p hl hp hk
    obtain ⟨r, w, hnext, hw, hview⟩ := next_spec l p hl hp
    have hg := Good.next hl w (by omega)
    simp only [consumeLoop, hnext]
    by_cases hr : IndexRune valid r ≥ 0
    · rw [if_pos hr]
      obtain ⟨b, t, hd, hPb, hw1⟩ := hview.mem P hP ((hV r).mp hr)
      subst hw1
      have hd1 : l.input.drop (p + 1) = t := by
        rw [← List.drop_drop, hd]; rfl
      have htw : ((l.input.drop p).takeWhile P).length =
          ((l.input.drop (p + 1)).takeWhile P).length + 1 := by
        rw [hd, hd1]; simp [List.takeWhile, hPb]
      obtain ⟨l1, e1, e2, e3, e4, e5, e6, e7, e8⟩ :=
        ih _ (p + 1) hg (by simp [lexer.log, hp]) (by
          simp only [lexer.log]; omega)
      refine ⟨l1, e1, ?_, ?_, ?_, ?_, ?_, e7, e8⟩
      · simpa [lexer.log] using e2
      · simpa [lexer.log] using e3
      · simpa [lexer.log] using e4
      · simpa [lexer.log] using e5
      · simp only [lexer.log] at e6
        rw [e6, htw]; push_cast; ring
    · rw [if_neg hr]
      have htw := hview.not_mem P hP (fun h => hr ((hV r).mpr h))
      refine ⟨_, rfl, ?_, ?_, ?_, ?_, ?_, ?_, hg⟩ <;> simp [lexer.log, htw, hp]

theorem takeWhile_length_le (P : Nat → Bool) (l : List Nat) :
    (l.takeWhile P).length ≤ l.length := by
  induction l with
  | nil => simp
  | cons b t ih =>
    simp only [List.takeWhile]
    split
    · simp only [List.length_cons]; omega
    · simp

theorem consumeMany_spec (valid : List Nat) (P : Nat → Bool)
    (hV : ∀ r : Int, IndexRune valid r ≥ 0 ↔ ∃ b : Nat, r = b ∧ P b = true)
    (hP : ∀ b, P b = true → b < 128) (l : lexer) (p : Nat) (hl : Good l)
    (hp : l.pos = (p : Int)) :
    ∃ l1, l.consumeMany valid = .ok l1 ∧ l1.input = l.input ∧ l1.name = l.name ∧
      l1.start = l.start ∧ l1.items = l.items ∧
      l1.pos = ((p + ((l.input.drop p).takeWhile P).length : Nat) : Int) ∧ Good l1 := by
  have hk : ((l.input.drop p).takeWhile P).length < l.input.length + 1 := by
    have := takeWhile_length_le P (l.input.drop p)
    simp only [List.length_drop] at this
    omega
  obtain ⟨l1, e1, e2, e3, e4, e5, e6, e7, e8⟩ := consumeLoop_spec valid P hV hP _ l p hl hp hk
  have h0 := hl
  obtain ⟨g1, g2, g3, g4, g5⟩ := h0
  have h1 := e8
  obtain ⟨f1, f2, f3, f4, f5⟩ := h1
  refine ⟨l1.backup, ?_, ?_, ?_, ?_, ?_, ?_, ?_⟩
  · simp [lexer.consumeMany, e1]
  · simpa [lexer.backup, lexer.log] using e2
  · simpa [lexer.backup, lexer.log] using e3
  · simpa [lexer.backup, lexer.log] using e4
  · simpa [lexer.backup, lexer.log] using e5
  · simp only [lexer.backup, lexer.log]; rw [e6]; push_cast; ring
  · refine Good.log e8 ?_ ?_ ?_ ?_ ?_ _
    · rfl
    · rfl
    · exact le_refl _
    · simp only; omega
    · simp only; omega

theorem consumeWS_spec (l : lexer) (p : Nat) (hl : Good l) (hp : l.pos = (p : Int)) :
    ∃ l1, l.consumeWS = .ok l1 ∧ l1.input = l.input ∧ l1.name = l.name ∧
      l1.items = l.items ∧
      l1.start = ((p + ((l.input.drop p).takeWhile isWS).length : Nat) : Int) ∧
      l1.pos = ((p + ((l.input.drop p).takeWhile isWS).length : Nat) : Int) ∧ Good l1 := by
  obtain ⟨l1, e1, e2, e3, e4, e5, e6, e7⟩ :=
    consumeMany_spec wsBytes isWS IndexRune_ws
      (fun b hb => wsBytes_lt b (by simpa [isWS] using hb)) l p hl hp
  have h1 := e7
  obtain ⟨f1, f2, f3, f4, f5⟩ := h1
  refine ⟨l1.ignore, ?_, ?_, ?_, ?_, ?_, ?_, ?_⟩
  · have : l.consumeMany (bytes " \t\r\n") = .ok l1 := e1
    simp [lexer.consumeWS, this]
  · simpa [lexer.ignore, lexer.log] using e2
  · simpa [lexer.ignore, lexer.log] using e3
  · simpa [lexer.ignore, lexer.log] using e5
  · simpa [lexer.ignore, lexer.log] using e6
  · simpa [lexer.ignore, lexer.log] using e6
  · refine Good.log e7 ?_ ?_ ?_ ?_ ?_ _
    · rfl
    · rfl
    · simp only; omega
    · exact le_refl _
    · simp only; omega

theorem RuneView.cons_facts {b : Nat} {t : List Nat} {r : Int} {w : Nat}
    (h : RuneView (b :: t) r w) :
    (r = 91 ↔ b = 91) ∧ (r = 93 ↔ b = 93) ∧ (r = 44 ↔ b = 44) ∧ r ≠ eof ∧
      (isSymbolRune r = true ↔ isSym b = true) ∧ 1 ≤ w ∧ (b < 128 → w = 1) := by
  simp only [RuneView] at h
  have hsym : isSymbolRune r = true ↔ isSym b = true := by
    rw [isSymbolRune_iff]
    constructor
    · rintro ⟨c, hc, hs⟩
      have hc128 : c < 128 := symBytes_lt c (by simpa [isSym] using hs)
      rcases h with ⟨_, h2, _⟩ | ⟨_, h2, _⟩
      · have : b = c := by omega
        exact this ▸ hs
      · omega
    · intro hs
      have hb128 : b < 128 := symBytes_lt b (by simpa [isSym] using hs)
      rcases h with ⟨_, h2, _⟩ | ⟨h1, _, _⟩
      · exact ⟨b, h2, hs⟩
      · omega
  refine ⟨?_, ?_, ?_, ?_, hsym, ?_, ?_⟩ <;> (try simp only [eof]) <;> omega

theorem emit_spec (l : lexer) (a b : Nat) (hl : Good l) (hs : l.start = (a : Int))
    (hp : l.pos = (b : Int)) (t : itemType) :
    ∃ l1, l.emit t = .ok l1 ∧ l1.input = l.input ∧ l1.name = l.name ∧
      l1.items = l.items ++ [⟨t, (l.input.drop a).take (b - a)⟩] ∧
      l1.start = (b : Int) ∧ l1.pos = (b : Int) ∧ Good l1 := by
  have h0 := hl
  obtain ⟨g1, g2, g3, g4, g5⟩ := h0
  have hsl : slice l.input l.start l.pos = some ((l.input.drop a).take (b - a)) := by
    simp only [slice]
    rw [if_pos ⟨g1, g2, g3⟩, hs, hp]
    have : ((b : Int) - (a : Int)).toNat = b - a := by omega
    simp [this]
  have he : l.emit t = .ok (({ l with
      items := l.items ++ [item.mk t ((l.input.drop a).take (b - a))],
      start := l.pos }).log .emit) := by
    simp only [lexer.emit, hsl]
  refine ⟨_, he, ?_, ?_, ?_, ?_, ?_, ?_⟩
  · simp [lexer.log]
  · simp [lexer.log]
  · simp [lexer.log]
  · simp [lexer.log, hp]
  · simp [lexer.log, hp]
  · refine Good.log hl ?_ ?_ ?_ ?_ ?_ _
    · rfl
    · rfl
    · simp only; omega
    · exact le_refl _
    · simp only; omega

theorem Good.errorf {l : lexer} (hl : Good l) (msg : List Nat) : Good (l.errorf msg).2 := by
  have h0 := hl
  obtain ⟨g1, g2, g3, g4, g5⟩ := h0
  refine Good.log hl ?_ ?_ ?_ ?_ ?_ _
  · rfl
  · rfl
  · exact le_refl _
  · exact g2
  · exact g3

theorem next_post (l : lexer) (p : Nat) (hl : Good l) (hp : l.pos = (p : Int)) :
    ∃ (r : Int) (w : Nat) (l1 : lexer), l.next = .ok (r, l1) ∧ l1.input = l.input ∧
      l1.name = l.name ∧ l1.items = l.items ∧ l1.start = l.start ∧
      l1.pos = ((p + w : Nat) : Int) ∧ l1.width = (w : Int) ∧ Good l1 ∧
      RuneView (l.input.drop p) r w := by
  obtain ⟨r, w, hnext, hw, hview⟩ := next_spec l p hl hp
  have hg := Good.next hl w (by omega)
  refine ⟨r, w, _, hnext, ?_, ?_, ?_, ?_, ?_, ?_, hg, hview⟩ <;> simp [lexer.log, hp]

theorem backup_post (l : lexer) (p w : Nat) (hl : Good l) (hp : l.pos = ((p + w : Nat) : Int))
    (hw : l.width = (w : Int)) (hs : l.start ≤ (p : Int)) :
    l.backup.input = l.input ∧ l.backup.name = l.name ∧ l.backup.items = l.items ∧
      l.backup.start = l.start ∧ l.backup.pos = (p : Int) ∧ Good l.backup := by
  have h0 := hl
  obtain ⟨g1, g2, g3, g4, g5⟩ := h0
  refine ⟨?_, ?_, ?_, ?_, ?_, ?_⟩
  · simp [lexer.backup, lexer.log]
  · simp [lexer.backup, lexer.log]
  · simp [lexer.backup, lexer.log]
  · simp [lexer.backup, lexer.log]
  · simp [lexer.backup, lexer.log, hp, hw]
  · refine Good.log hl ?_ ?_ ?_ ?_ ?_ _
    · rfl
    · rfl
    · exact le_refl _
    · simp only [hp, hw]; push_cast; omega
    · simp only [hp, hw]; push_cast; omega

theorem errorf_post (l : lexer) (hl : Good l) (msg : String) :
    ∃ l1, l.errorf (bytes msg) = (none, l1) ∧ l1.input = l.input ∧ l1.name = l.name ∧
      l1.items = l.items ++ [errItem msg] ∧ Good l1 ∧ l1.pos = l.pos :=
  ⟨_, rfl, rfl, rfl, rfl, Good.errorf hl _, rfl⟩

theorem take_one_at (input : List Nat) (q : Nat) (b : Nat) (t : List Nat)
    (h : input.drop q = b :: t) : (input.drop q).take (q + 1 - q) = [b] := by
  rw [h]; simp

/-! ## The state functions refine `specStep` -/

theorem lexText_spec (l : lexer) (p : Nat) (hl : Good l) (hs : l.start = (p : Int))
    (hp : l.pos = (p : Int)) :
    StepPost l p (specStep .lexText (l.input.drop p)) (lexText l) := by
  obtain ⟨r, w, l1, hnext, n1, n2, n3, n4, n5, n6, n7, hview⟩ := next_post l p hl hp
  cases hd : l.input.drop p with
  | nil =>
    rw [hd] at hview
    obtain ⟨hr, hw0⟩ := hview
    subst hr hw0
    obtain ⟨l2, e1, e2, e3, e4, e5, e6, e7⟩ :=
      emit_spec l1 p p n7 (by rw [n4, hs]) (by simpa using n5) .itemEOF
    refine ⟨l2, ?_, by rw [e2, n1], by rw [e3, n2], ?_, e7, ?_, ?_⟩
    · simp [lexText, hnext, eof, e1, specStep]
    · rw [e4, n3, n1, hd]; simp [specStep]
    · simp [specStep]
    · simp [specStep, e6, n5]
      try omega
  | cons b t =>
    rw [hd] at hview
    obtain ⟨f1, f2, f3, f4, f5, f6, f7⟩ := hview.cons_facts
    by_cases hb : b = 91
    · have hw1 : w = 1 := f7 (by omega)
      subst hw1
      obtain ⟨l2, e1, e2, e3, e4, e5, e6, e7⟩ :=
        emit_spec l1 p (p + 1) n7 (by rw [n4, hs]) n5 .itemLeftBracket
      refine ⟨l2, ?_, by rw [e2, n1], by rw [e3, n2], ?_, e7, ?_, ?_⟩
      · simp [lexText, hnext, f1.mpr hb, e1, specStep, hb]
      · rw [e4, n3, n1, take_one_at _ _ _ _ hd]; simp [specStep, hb]
      · simp [specStep, hb, e5, e6]
      · simp [specStep, hb, e5, e6, e6, n5]
        try omega
    · obtain ⟨l2, e1, e2, e3, e4, e5, e6⟩ := errorf_post l1 n7 "unexpected initial symbol"
      refine ⟨l2, ?_, by rw [e2, n1], by rw [e3, n2], ?_, e5, ?_, ?_⟩
      · simp [lexText, hnext, mt f1.mp hb, f4, e1, specStep, hb]
      · rw [e4, n3]; simp [specStep, hb]
      · simp [specStep, hb]
      · simp [specStep, hb, e6, n5]
        try omega

theorem isSymbolRune_eof : isSymbolRune (-1) = false := by decide

theorem drop_length_takeWhile (P : Nat → Bool) (l : List Nat) :
    l.drop (l.takeWhile P).length = l.dropWhile P := by
  induction l with
  | nil => rfl
  | cons b t ih =>
    by_cases h : P b = true
    · simp [List.takeWhile, List.dropWhile, h, ih]
    · simp [List.takeWhile, List.dropWhile, h]

theorem take_length_takeWhile (P : Nat → Bool) (l : List Nat) :
    l.take (l.takeWhile P).length = l.takeWhile P := by
  induction l with
  | nil => rfl
  | cons b t ih =>
    by_cases h : P b = true
    · simp [List.takeWhile, h, ih]
    · simp [List.takeWhile, h]

theorem drop_add_takeWhile (P : Nat → Bool) (input : List Nat) (p : Nat) :
    input.drop (p + ((input.drop p).takeWhile P).length) = (input.drop p).dropWhile P := by
  rw [← drop_length_takeWhile P (input.drop p), List.drop_drop, Nat.add_comm]

theorem lexInsideList_spec (l : lexer) (p : Nat) (hl : Good l) (hp : l.pos = (p : Int)) :
    StepPost l p (specStep .lexInsideList (l.input.drop p)) (lexInsideList l) := by
  obtain ⟨l1, c1, c2, c3, c4, c5, c6, c7⟩ := consumeWS_spec l p hl hp
  obtain ⟨r, w, l2, hnext, n1, n2, n3, n4, n5, n6, n7, hview⟩ := next_post l1 _ c7 c6
  rw [c2, drop_add_takeWhile] at hview
  have hdq := drop_add_takeWhile isWS l.input p
  cases hd : (l.input.drop p).dropWhile isWS with
  | nil =>
    rw [hd] at hview
    obtain ⟨hr, hw0⟩ := hview
    subst hr hw0
    obtain ⟨l3, e1, e2, e3, e4, e5, e6⟩ := errorf_post l2 n7 "unclosed list"
    refine ⟨l3, ?_, by rw [e2, n1, c2], by rw [e3, n2, c3], ?_, e5, ?_, ?_⟩
    · simp [lexInsideList, c1, hnext, isSymbolRune_eof, eof, e1, specStep, hd]
    · rw [e4, n3, c4]; simp [specStep, hd]
    · simp [specStep, hd]
    · simp [specStep, hd, e6, n5]
      try omega
  | cons b t =>
    rw [hd] at hview hdq
    obtain ⟨f1, f2, f3, f4, f5, f6, f7⟩ := hview.cons_facts
    by_cases hsym : isSym b = true
    · obtain ⟨b1, b2, b3, b4, b5, b6⟩ :=
        backup_post l2 _ w n7 n5 n6 (by rw [n4, c5])
      refine ⟨l2.backup, ?_, by rw [b1, n1, c2], by rw [b2, n2, c3], ?_, b6, ?_, ?_⟩
      · simp [lexInsideList, c1, hnext, f5.mpr hsym, specStep, hd, hsym]
      · rw [b3, n3, c4]; simp [specStep, hd, hsym]
      · simp [specStep, hd, hsym, b4, b5, n4, c5]
      · simp [specStep, hd, hsym, b4, b5, n4, c5, n5]
        try omega
    · have hsr : isSymbolRune r = false := by
        simpa using mt f5.mp hsym
      by_cases hb : b = 91
      · have hw1 : w = 1 := f7 (by omega)
        have hr := f1.mpr hb
        subst hw1 hb hr
        obtain ⟨l3, e1, e2, e3, e4, e5, e6, e7⟩ :=
          emit_spec l2 _ _ n7 (by rw [n4, c5]) n5 .itemLeftBracket
        refine ⟨l3, ?_, by rw [e2, n1, c2], by rw [e3, n2, c3], ?_, e7, ?_, ?_⟩
        · simp [lexInsideList, c1, hnext, hsr, e1, specStep, hd, hsym]
        · rw [e4, n3, c4, n1, c2, take_one_at _ _ _ _ hdq]; simp [specStep, hd, hsym]
        · simp [specStep, hd, hsym, e5, e6]; omega
        · simp [specStep, hd, hsym, e5, e6, e6, n5]
          try omega
      · by_cases hb2 : b = 93
        · have hw1 : w = 1 := f7 (by omega)
          have hr := f2.mpr hb2
          subst hw1 hb2 hr
          obtain ⟨l3, e1, e2, e3, e4, e5, e6, e7⟩ :=
            emit_spec l2 _ _ n7 (by rw [n4, c5]) n5 .itemRightBracket
          refine ⟨l3, ?_, by rw [e2, n1, c2], by rw [e3, n2, c3], ?_, e7, ?_, ?_⟩
          · simp [lexInsideList, c1, hnext, hsr, e1, specStep, hd, hsym]
          · rw [e4, n3, c4, n1, c2, take_one_at _ _ _ _ hdq]; simp [specStep, hd, hsym]
          · simp [specStep, hd, hsym, e5, e6]; omega
          · simp [specStep, hd, hsym, e5, e6, e6, n5]
            try omega
        · obtain ⟨l3, e1, e2, e3, e4, e5, e6⟩ := errorf_post l2 n7 "unexpected rune"
          refine ⟨l3, ?_, by rw [e2, n1, c2], by rw [e3, n2, c3], ?_, e5, ?_, ?_⟩
          · simp [lexInsideList, c1, hnext, hsr, mt f1.mp hb, mt f2.mp hb2, f4, e1, specStep,
              hd, hsym, hb, hb2]
          · rw [e4, n3, c4]; simp [specStep, hd, hsym, hb, hb2]
          · simp [specStep, hd, hsym, hb, hb2]
          · simp [specStep, hd, hsym, hb, hb2, e6, n5]
            try omega

theorem lexSymbol_eq (l : lexer) :
    lexSymbol l = (l.consumeMany symBytes >>= fun l0 =>
      (if l0.pos > l0.start then l0.emit .itemSymbol else pure l0) >>= lexSymbolTail) := by
  unfold lexSymbol lexSymbolTail symBytes
  show (_ >>= _) = (_ >>= _)
  congr 1
  funext l0
  split_ifs <;> rfl

theorem lexAfterList_spec (l : lexer) (p : Nat) (hl : Good l) (hp : l.pos = (p : Int)) :
    StepPost l p (specStep .lexAfterList (l.input.drop p)) (lexAfterList l) := by
  obtain ⟨l1, c1, c2, c3, c4, c5, c6, c7⟩ := consumeWS_spec l p hl hp
  obtain ⟨r, w, l2, hnext, n1, n2, n3, n4, n5, n6, n7, hview⟩ := next_post l1 _ c7 c6
  rw [c2, drop_add_takeWhile] at hview
  have hdq := drop_add_takeWhile isWS l.input p
  cases hd : (l.input.drop p).dropWhile isWS with
  | nil =>
    rw [hd] at hview
    obtain ⟨hr, hw0⟩ := hview
    subst hr hw0
    obtain ⟨l3, e1, e2, e3, e4, e5, e6, e7⟩ :=
      emit_spec l2 _ _ n7 (by rw [n4, c5]) n5 .itemEOF
    refine ⟨l3, ?_, by rw [e2, n1, c2], by rw [e3, n2, c3], ?_, e7, ?_, ?_⟩
    · simp [lexAfterList, c1, hnext, eof, e1, specStep, hd]
    · rw [e4, n3, c4]; simp [specStep, hd]
    · simp [specStep, hd]
    · simp [specStep, hd, e6, n5]
      try omega
  | cons b t =>
    rw [hd] at hview hdq
    obtain ⟨f1, f2, f3, f4, f5, f6, f7⟩ := hview.cons_facts
    by_cases hb : b = 44
    · have hw1 : w = 1 := f7 (by omega)
      have hr := f3.mpr hb
      subst hw1 hb hr
      obtain ⟨l3, e1, e2, e3, e4, e5, e6, e7⟩ :=
        emit_spec l2 _ _ n7 (by rw [n4, c5]) n5 .itemComma
      refine ⟨l3, ?_, by rw [e2, n1, c2], by rw [e3, n2, c3], ?_, e7, ?_, ?_⟩
      · simp [lexAfterList, c1, hnext, e1, specStep, hd]
      · rw [e4, n3, c4, n1, c2, take_one_at _ _ _ _ hdq]; simp [specStep, hd]
      · simp [specStep, hd, e5, e6]; omega
      · simp [specStep, hd, e5, e6, e6, n5]
        try omega
    · by_cases hb2 : b = 93
      · have hw1 : w = 1 := f7 (by omega)
        have hr := f2.mpr hb2
        subst hw1 hb2 hr
        obtain ⟨l3, e1, e2, e3, e4, e5, e6, e7⟩ :=
          emit_spec l2 _ _ n7 (by rw [n4, c5]) n5 .itemRightBracket
        refine ⟨l3, ?_, by rw [e2, n1, c2], by rw [e3, n2, c3], ?_, e7, ?_, ?_⟩
        · simp [lexAfterList, c1, hnext, e1, specStep, hd]
        · rw [e4, n3, c4, n1, c2, take_one_at _ _ _ _ hdq]; simp [specStep, hd]
        · simp [specStep, hd, e5, e6]; omega
        · simp [specStep, hd, e5, e6, e6, n5]
          try omega
      · obtain ⟨l3, e1, e2, e3, e4, e5, e6⟩ := errorf_post l2 n7 "unexpected rune"
        refine ⟨l3, ?_, by rw [e2, n1, c2], by rw [e3, n2, c3], ?_, e5, ?_, ?_⟩
        · simp [lexAfterList, c1, hnext, mt f3.mp hb, mt f2.mp hb2, f4, e1, specStep,
            hd, hb, hb2]
        · rw [e4, n3, c4]; simp [specStep, hd, hb, hb2]
        · simp [specStep, hd, hb, hb2]
        · simp [specStep, hd, hb, hb2, e6, n5]
          try omega

/-- The first half of `lexSymbol`: the run of symbol bytes and the `Symbol`
item guarded by `pos > start`. -/
theorem symbol_part (l : lexer) (p : Nat) (hl : Good l) (hs : l.start = (p : Int))
    (hp : l.pos = (p : Int)) :
    ∃ l1 l2, l.consumeMany symBytes = .ok l1 ∧
      (if l1.pos > l1.start then l1.emit .itemSymbol else pure l1) = .ok l2 ∧
      l2.input = l.input ∧ l2.name = l.name ∧
      l2.items = l.items ++
        (if (l.input.drop p).takeWhile isSym = [] then []
          else [⟨.itemSymbol, (l.input.drop p).takeWhile isSym⟩]) ∧
      l2.start = ((p + ((l.input.drop p).takeWhile isSym).length : Nat) : Int) ∧
      l2.pos = ((p + ((l.input.drop p).takeWhile isSym).length : Nat) : Int) ∧ Good l2 := by
  obtain ⟨l1, c1, c2, c3, c4, c5, c6, c7⟩ :=
    consumeMany_spec symBytes isSym IndexRune_sym
      (fun b hb => symBytes_lt b (by simpa [isSym] using hb)) l p hl hp
  by_cases hk : (l.input.drop p).takeWhile isSym = []
  · refine ⟨l1, l1, c1, ?_, c2, c3, ?_, ?_, c6, c7⟩
    · have : ¬ (l1.pos > l1.start) := by
        rw [c6, c4, hs, hk]; simp
      rw [if_neg this]; rfl
    · rw [c5, if_pos hk]; simp
    · rw [c4, hs, hk]; simp
  · have hpos : 0 < ((l.input.drop p).takeWhile isSym).length :=
      List.length_pos.mpr hk
    obtain ⟨l2, e1, e2, e3, e4, e5, e6, e7⟩ :=
      emit_spec l1 _ _ c7 (by rw [c4, hs]) c6 .itemSymbol
    refine ⟨l1, l2, c1, ?_, by rw [e2, c2], by rw [e3, c3], ?_, e5, e6, e7⟩
    · have : l1.pos > l1.start := by
        rw [c6, c4, hs]; push_cast; omega
      rw [if_pos this]; exact e1
    · rw [e4, c5, c2, if_neg hk]
      have : p + ((l.input.drop p).takeWhile isSym).length - p =
          ((l.input.drop p).takeWhile isSym).length := by omega
      rw [this, take_length_takeWhile]

theorem lexSymbol_spec (l : lexer) (p : Nat) (hl : Good l) (hs : l.start = (p : Int))
    (hp : l.pos = (p : Int)) :
    StepPost l p (specStep .lexSymbol (l.input.drop p)) (lexSymbol l) := by
  obtain ⟨l0, la, s1, s2, s3, s4, s5, s6, s7, s8⟩ := symbol_part l p hl hs hp
  rw [lexSymbol_eq, s1, Result.ok_bind, s2, Result.ok_bind]
  obtain ⟨l1, c1, c2, c3, c4, c5, c6, c7⟩ := consumeWS_spec la _ s8 s7
  obtain ⟨r, w, l2, hnext, n1, n2, n3, n4, n5, n6, n7, hview⟩ := next_post l1 _ c7 c6
  have hsd := drop_add_takeWhile isSym l.input p
  rw [s3, hsd] at c5 c6 n5 hview
  rw [c2, s3] at hview
  have hdq := drop_add_takeWhile isWS l.input (p + ((l.input.drop p).takeWhile isSym).length)
  rw [hsd] at hdq
  rw [hdq] at hview
  cases hd : ((l.input.drop p).dropWhile isSym).dropWhile isWS with
  | nil =>
    rw [hd] at hview
    obtain ⟨hr, hw0⟩ := hview
    subst hr hw0
    obtain ⟨l3, e1, e2, e3, e4, e5, e6⟩ := errorf_post l2 n7 "unexpected rune"
    refine ⟨l3, ?_, by rw [e2, n1, c2, s3], by rw [e3, n2, c3, s4], ?_, e5, ?_, ?_⟩
    · simp [lexSymbolTail, c1, hnext, eof, e1, specStep, hd]
    · rw [e4, n3, c4, s5]; simp [specStep, symbolItems, hd]
    · simp [specStep, symbolItems, hd]
    · simp [specStep, symbolItems, hd, e6, n5]
      try omega
  | cons b t =>
    rw [hd] at hview hdq
    obtain ⟨f1, f2, f3, f4, f5, f6, f7⟩ := hview.cons_facts
    by_cases hb : b = 44
    · have hw1 : w = 1 := f7 (by omega)
      have hr := f3.mpr hb
      subst hw1 hb hr
      obtain ⟨l3, e1, e2, e3, e4, e5, e6, e7⟩ :=
        emit_spec l2 _ _ n7 (by rw [n4, c5]) n5 .itemComma
      refine ⟨l3, ?_, by rw [e2, n1, c2, s3], by rw [e3, n2, c3, s4], ?_, e7, ?_, ?_⟩
      · simp [lexSymbolTail, c1, hnext, e1, specStep, hd]
      · rw [e4, n3, c4, s5, n1, c2, s3, take_one_at _ _ _ _ hdq]; simp [specStep, symbolItems, hd]
      · simp [specStep, symbolItems, hd, e5, e6]; omega
      · simp [specStep, symbolItems, hd, e5, e6, e6, n5]
        try omega
    · by_cases hb2 : b = 93
      · have hw1 : w = 1 := f7 (by omega)
        have hr := f2.mpr hb2
        subst hw1 hb2 hr
        obtain ⟨l3, e1, e2, e3, e4, e5, e6, e7⟩ :=
          emit_spec l2 _ _ n7 (by rw [n4, c5]) n5 .itemRightBracket
        refine ⟨l3, ?_, by rw [e2, n1, c2, s3], by rw [e3, n2, c3, s4], ?_, e7, ?_, ?_⟩
        · simp [lexSymbolTail, c1, hnext, e1, specStep, hd]
        · rw [e4, n3, c4, s5, n1, c2, s3, take_one_at _ _ _ _ hdq]; simp [specStep, symbolItems, hd]
        · simp [specStep, symbolItems, hd, e5, e6]; omega
        · simp [specStep, symbolItems, hd, e5, e6, e6, n5]
          try omega
      · obtain ⟨l3, e1, e2, e3, e4, e5, e6⟩ := errorf_post l2 n7 "unexpected rune"
        refine ⟨l3, ?_, by rw [e2, n1, c2, s3], by rw [e3, n2, c3, s4], ?_, e5, ?_, ?_⟩
        · simp [lexSymbolTail, c1, hnext, mt f3.mp hb, mt f2.mp hb2, f4, e1, specStep,
            hd, hb, hb2]
        · rw [e4, n3, c4, s5]; simp [specStep, symbolItems, hd, hb, hb2]
        · simp [specStep, symbolItems, hd, hb, hb2]
        · simp [specStep, symbolItems, hd, hb, hb2, e6, n5]
          try omega

/-! ## The run loop refines `specRun`, and terminates -/

theorem call_spec (s : stateFn) (l : lexer) (p : Nat) (hl : Good l)
    (hs : l.start = (p : Int)) (hp : l.pos = (p : Int)) :
    StepPost l p (specStep s (l.input.drop p)) (s.call l) := by
  cases s with
  | lexText => exact lexText_spec l p hl hs hp
  | lexSymbol => exact lexSymbol_spec l p hl hs hp
  | lexInsideList => exact lexInsideList_spec l p hl hp
  | lexAfterList => exact lexAfterList_spec l p hl hp

theorem runLoop_spec : ∀ (n : Nat) (s : stateFn) (l : lexer) (p : Nat), Good l →
    l.start = (p : Int) → l.pos = (p : Int) → ∀ toks,
    specRun n (some s) (l.input.drop p) = some toks →
    ∃ l1, runLoop n (some s) l = .ok l1 ∧ l1.items = l.items ++ toks ∧
      l1.input = l.input ∧ l1.name = l.name ∧ Good l1 := by
  intro n
  induction n with
  | zero => intro s l p _ _ _ toks h; simp [specRun] at h
  | succ k ih =>
    intro s l p hl hs hp toks h
    obtain ⟨l1, e1, e2, e3, e4, e5, e6, _⟩ := call_spec s l p hl hs hp
    simp only [specRun] at h
    simp only [runLoop, e1]
    cases hst : (specStep s (l.input.drop p)).1 with
    | none =>
      rw [hst] at h
      simp only [specRun, Option.some.injEq] at h
      refine ⟨l1, by simp [runLoop], ?_, e2, e3, e5⟩
      rw [e4, ← h]; simp
    | some s1 =>
      rw [hst] at h e6
      obtain ⟨q1, q2⟩ := e6 (by simp)
      have hdrop : (l.input.drop p).drop (specStep s (l.input.drop p)).2.1 =
          l1.input.drop (p + (specStep s (l.input.drop p)).2.1) := by
        rw [e2, List.drop_drop, Nat.add_comm]
      rw [hdrop] at h
      cases hm : specRun k (some s1) (l1.input.drop (p + (specStep s (l.input.drop p)).2.1)) with
      | none => rw [hm] at h; simp at h
      | some more =>
        rw [hm] at h
        simp only [Option.some.injEq] at h
        obtain ⟨l2, r1, r2, r3, r4, r5⟩ := ih s1 l1 _ e5 q1 q2 more hm
        refine ⟨l2, r1, ?_, by rw [r3, e2], by rw [r4, e3], r5⟩
        rw [r2, e4, ← h]; simp

theorem length_takeWhile_add_dropWhile (P : Nat → Bool) (l : List Nat) :
    (l.takeWhile P).length + (l.dropWhile P).length = l.length := by
  rw [← List.length_append, List.takeWhile_append_dropWhile]

theorem specStep_measure (s s1 : stateFn) (rest : List Nat)
    (h : (specStep s rest).1 = some s1) :
    measure s1 (rest.drop (specStep s rest).2.1) < measure s rest := by
  cases s with
  | lexText =>
    cases rest with
    | nil => simp [specStep] at h
    | cons b t =>
      by_cases hb : b = 91
      · simp only [specStep, hb, if_true, Option.some.injEq] at h ⊢
        subst h; simp [measure]
      · simp [specStep, hb] at h
  | lexInsideList =>
    have hlen := length_takeWhile_add_dropWhile isWS rest
    cases hd : rest.dropWhile isWS with
    | nil => simp [specStep, hd] at h
    | cons b t =>
      rw [hd] at hlen
      simp only [List.length_cons] at hlen
      simp only [specStep, hd] at h ⊢
      split_ifs at h ⊢ <;> simp only [Option.some.injEq] at h <;> subst h <;>
        simp only [measure, List.length_drop] <;> simp <;> omega
  | lexSymbol =>
    have hlen := length_takeWhile_add_dropWhile isSym rest
    have hlen2 := length_takeWhile_add_dropWhile isWS (rest.dropWhile isSym)
    cases hd : (rest.dropWhile isSym).dropWhile isWS with
    | nil => simp [specStep, hd] at h
    | cons b t =>
      rw [hd] at hlen2
      simp only [List.length_cons] at hlen2
      simp only [specStep, hd] at h ⊢
      split_ifs at h ⊢ <;> simp only [Option.some.injEq] at h <;> subst h <;>
        simp only [measure, List.length_drop] <;> simp <;> omega
  | lexAfterList =>
    have hlen := length_takeWhile_add_dropWhile isWS rest
    cases hd : rest.dropWhile isWS with
    | nil => simp [specStep, hd] at h
    | cons b t =>
      rw [hd] at hlen
      simp only [List.length_cons] at hlen
      simp only [specStep, hd] at h ⊢
      split_ifs at h ⊢ <;> simp only [Option.some.injEq] at h <;> subst h <;>
        simp only [measure, List.length_drop] <;> simp <;> omega

theorem specRun_total : ∀ (n : Nat) (s : stateFn) (rest : List Nat),
    measure s rest < n → ∃ toks, specRun n (some s) rest = some toks := by
  intro n
  induction n with
  | zero => intro s rest h; omega
  | succ k ih =>
    intro s rest h
    simp only [specRun]
    cases hst : (specStep s rest).1 with
    | none => exact ⟨(specStep s rest).2.2, by simp [specRun]⟩
    | some s1 =>
      have hm := specStep_measure s s1 rest hst
      obtain ⟨more, hmore⟩ := ih s1 (rest.drop (specStep s rest).2.1) (by omega)
      exact ⟨_, by rw [hmore]⟩

theorem specRun_mono : ∀ (n m : Nat) (st : Option stateFn) (rest : List Nat) (toks : List item),
    specRun n st rest = some toks → n ≤ m → specRun m st rest = some toks := by
  intro n
  induction n with
  | zero =>
    intro m st rest toks h _
    cases st with
    | none => cases m <;> simpa [specRun] using h
    | some s => simp [specRun] at h
  | succ k ih =>
    intro m st rest toks h hle
    cases st with
    | none => cases m <;> simpa [specRun] using h
    | some s =>
      obtain ⟨m1, rfl⟩ : ∃ m1, m = m1 + 1 := ⟨m - 1, by omega⟩
      simp only [specRun] at h ⊢
      cases hm : specRun k (specStep s rest).1 (rest.drop (specStep s rest).2.1) with
      | none => rw [hm] at h; simp at h
      | some more =>
        rw [hm] at h
        rw [ih m1 _ _ more hm (by omega)]
        exact h

theorem specRun_lex (input : List Nat) :
    specRun (2 * input.length + 2) (some .lexText) input = some (specLex input) := by
  obtain ⟨toks, h⟩ := specRun_total (2 * input.length + 2) .lexText input (by
    simp [measure])
  simp [specLex, h]

/-- Any budget that reaches the `nil` state gives the stream of `specLex`. -/
theorem specRun_eq_specLex (n : Nat) (input : List Nat) (toks : List item)
    (h : specRun n (some .lexText) input = some toks) : specLex input = toks := by
  have h1 := specRun_mono _ (max n (2 * input.length + 2)) _ _ _ h (le_max_left _ _)
  have h2 := specRun_mono _ (max n (2 * input.length + 2)) _ _ _ (specRun_lex input)
    (le_max_right _ _)
  rw [h1] at h2
  exact (Option.some.inj h2).symm

/-- The lexer refines its functional reading: `Lex` returns normally, with a
sound cursor history, and the items sent are `specLex input`. -/
theorem Lex_spec (name input : List Nat) :
    ∃ l, Lex name input = .ok l ∧ l.items = specLex input ∧ l.input = input ∧
      l.name = name ∧ Good l := by
  obtain ⟨l, h1, h2, h3, h4, h5⟩ :=
    runLoop_spec (2 * input.length + 2) .lexText (lexer.init name input) 0
      (good_init name input) rfl rfl (specLex input) (specRun_lex input)
  exact ⟨l, h1, by simpa [lexer.init] using h2, h3, h4, h5⟩

theorem LexItems_eq (name input : List Nat) : LexItems name input = .ok (specLex input) := by
  obtain ⟨l, h1, h2, _⟩ := Lex_spec name input
  simp [LexItems, h1, h2]

/-! ## The invariant of the run loop -/

theorem specStep_symbol_head (s : stateFn) (rest : List Nat)
    (h : (specStep s rest).1 = some .lexSymbol) :
    ∃ b t, rest.drop (specStep s rest).2.1 = b :: t ∧ isSym b = true := by
  cases s with
  | lexText =>
    cases rest with
    | nil => simp [specStep] at h
    | cons b t => simp only [specStep] at h; split_ifs at h; simp at h
  | lexInsideList =>
    cases hd : rest.dropWhile isWS with
    | nil => simp [specStep, hd] at h
    | cons b t =>
      simp only [specStep, hd] at h ⊢
      split_ifs at h ⊢ with h1
      · exact ⟨b, t, by simpa [drop_length_takeWhile] using hd, h1⟩
      all_goals simp at h
  | lexSymbol =>
    cases hd : (rest.dropWhile isSym).dropWhile isWS with
    | nil => simp [specStep, hd] at h
    | cons b t => simp only [specStep, hd] at h; split_ifs at h <;> simp at h
  | lexAfterList =>
    cases hd : rest.dropWhile isWS with
    | nil => simp [specStep, hd] at h
    | cons b t => simp only [specStep, hd] at h; split_ifs at h <;> simp at h

/-- A call of a state function from a token boundary returns normally, and
leaves the lexer at a token boundary of the state it returns. -/
theorem Boundary.call {input : List Nat} {s : stateFn} {l : lexer} (h : Boundary input s l) :
    ∃ s1 l1, s.call l = .ok (s1, l1) ∧ l1.input = input ∧ l1.name = l.name ∧ Good l1 ∧
      s1 = (specStep s (input.drop l.pos.toNat)).1 ∧
      l1.items = l.items ++ (specStep s (input.drop l.pos.toNat)).2.2 ∧
      (∀ s2, s1 = some s2 → Boundary input s2 l1 ∧
        l1.pos = l.pos + ((specStep s (input.drop l.pos.toNat)).2.1 : Nat)) ∧
      l.pos + ((specStep s (input.drop l.pos.toNat)).2.1 : Nat) ≤ l1.pos := by
  obtain ⟨h1, h2, h3, h4⟩ := h
  have hg := h2
  obtain ⟨g1, g2, g3, _, _⟩ := hg
  have hp : l.pos = ((l.pos.toNat : Nat) : Int) := by omega
  obtain ⟨l1, e1, e2, e3, e4, e5, e6, e7⟩ := call_spec s l l.pos.toNat h2 (by omega) hp
  rw [h1] at e1 e4 e6
  rw [h1] at e7
  refine ⟨_, l1, e1, by rw [e2, h1], e3, e5, rfl, e4, ?_, by push_cast at e7; omega⟩
  intro s2 hs2
  obtain ⟨q1, q2⟩ := e6 (by rw [hs2]; simp)
  refine ⟨⟨by rw [e2, h1], e5, by rw [q1, q2], ?_⟩, by rw [q2]; push_cast; omega⟩
  intro hsym
  subst hsym
  obtain ⟨b, t, hb, hbs⟩ := specStep_symbol_head s _ hs2
  refine ⟨b, t, ?_, hbs⟩
  rw [← hb, q2, List.drop_drop, Int.toNat_ofNat, Nat.add_comm]

theorem boundary_init (name input : List Nat) :
    Boundary input .lexText (lexer.init name input) :=
  ⟨rfl, good_init name input, rfl, by simp⟩

/-- Invariant of the run loop. -/
theorem Reachable.inv {name input : List Nat} {st : Option stateFn} {l : lexer}
    (h : Reachable name input st l) :
    l.input = input ∧ l.name = name ∧ Good l ∧ ∀ s, st = some s → Boundary input s l := by
  induction h with
  | init =>
    exact ⟨rfl, rfl, good_init name input, fun s hs => by
      cases hs; exact boundary_init name input⟩
  | step hr hc ih =>
    obtain ⟨i1, i2, i3, i4⟩ := ih
    obtain ⟨s1, l1, c1, c2, c3, c4, c5, c6, c7, _⟩ := (i4 _ rfl).call
    rw [hc] at c1
    simp only [Result.ok.injEq, Prod.mk.injEq] at c1
    obtain ⟨rfl, rfl⟩ := c1
    exact ⟨c2, by rw [c3, i2], c4, fun s hs => (c7 s hs).1⟩

theorem runLoop_mono : ∀ (n m : Nat) (st : Option stateFn) (l l1 : lexer),
    runLoop n st l = .ok l1 → n ≤ m → runLoop m st l = .ok l1 := by
  intro n
  induction n with
  | zero =>
    intro m st l l1 h _
    cases st with
    | none => cases m <;> simpa [runLoop] using h
    | some s => simp [runLoop] at h
  | succ k ih =>
    intro m st l l1 h hle
    cases st with
    | none => cases m <;> simpa [runLoop] using h
    | some s =>
      obtain ⟨m1, rfl⟩ : ∃ m1, m = m1 + 1 := ⟨m - 1, by omega⟩
      simp only [runLoop] at h ⊢
      cases hc : s.call l with
      | ok r =>
        rw [hc] at h
        simp only at h ⊢
        exact ih m1 _ _ _ h (by omega)
      | panic => rw [hc] at h; simp at h
      | fuel => rw [hc] at h; simp at h

/-- From a reachable pair, the loop continues exactly as the loop of `Lex`. -/
theorem Reachable.resume {name input : List Nat} {st : Option stateFn} {l : lexer}
    (h : Reachable name input st l) :
    ∃ n, ∀ m l1, runLoop m st l = .ok l1 →
      runLoop (n + m) (some .lexText) (lexer.init name input) = .ok l1 := by
  induction h with
  | init => exact ⟨0, fun m l1 h => by simpa using h⟩
  | step hr hc ih =>
    obtain ⟨n, hn⟩ := ih
    refine ⟨n + 1, fun m l1 hm => ?_⟩
    have := hn (m + 1) l1 (by simp only [runLoop, hc]; exact hm)
    rw [show n + 1 + m = n + (m + 1) by omega]
    exact this

/-- A lexer reached together with the `nil` state is the result of `Lex`. -/
theorem Reachable.final {name input : List Nat} {l : lexer}
    (h : Reachable name input none l) : Lex name input = .ok l := by
  obtain ⟨n, hn⟩ := h.resume
  have h1 := hn 0 l (by simp [runLoop])
  obtain ⟨lf, f1, _⟩ := Lex_spec name input
  have f2 : runLoop (2 * input.length + 2) (some .lexText) (lexer.init name input) = .ok lf := f1
  have a := runLoop_mono _ (max (n + 0) (2 * input.length + 2)) _ _ _ h1 (le_max_left _ _)
  have b := runLoop_mono _ (max (n + 0) (2 * input.length + 2)) _ _ _ f2 (le_max_right _ _)
  rw [a] at b
  simp only [Result.ok.injEq] at b
  rw [f1, b]

/-! ## The stream of particular inputs -/

theorem specLex_nil : specLex [] = [⟨.itemEOF, []⟩] := by decide

theorem specLex_cons (b : Nat) (t : List Nat) :
    (b = 91 → ∃ more, specLex (b :: t) = ⟨.itemLeftBracket, [91]⟩ :: more) ∧
      (b ≠ 91 → specLex (b :: t) = [errItem "unexpected initial symbol"]) := by
  have h := specRun_lex (b :: t)
  have hn : 2 * (b :: t).length + 2 = (2 * t.length + 3) + 1 := by
    simp only [List.length_cons]; omega
  rw [hn] at h
  simp only [specRun] at h
  constructor
  · intro hb
    subst hb
    simp only [specStep, if_true] at h
    cases hm : specRun (2 * t.length + 3) (some .lexInsideList) (List.drop 1 (91 :: t)) with
    | none => rw [hm] at h; simp at h
    | some more =>
      rw [hm] at h
      simp only [Option.some.injEq] at h
      exact ⟨more, by rw [← h]; rfl⟩
  · intro hb
    simp only [specStep, hb, if_false] at h
    simp only [specRun, Option.some.injEq] at h
    rw [← h]; rfl

/-- C2 (as stated in the specification) fails: on the input `"[ a"` the
stream is not `LeftBracket("["), Symbol("a"), Error("unclosed list")`. -/
theorem lex_open_symbol_not_unclosed_list :
    LexItems (bytes "lex right open list") (bytes "[ a") ≠
      .ok [⟨.itemLeftBracket, bytes "["⟩, ⟨.itemSymbol, bytes "a"⟩,
        ⟨.itemError, bytes "unclosed list"⟩] := by
  decide

/-- C2 (amended): lexing the unclosed input `"[ a"` produces exactly the stream
`LeftBracket("["), Symbol("a"), Error("unexpected rune")`: end-of-input after a
symbol is reported by the `default` branch of `lexSymbol`. -/
theorem lex_open_symbol_stream (name : List Nat) :
    LexItems name (bytes "[ a") =
      .ok [⟨.itemLeftBracket, bytes "["⟩, ⟨.itemSymbol, bytes "a"⟩,
        ⟨.itemError, bytes "unexpected rune"⟩] := by
  rw [LexItems_eq]
  decide

/-- C5: for every non-empty input whose first byte is not `[` (white space
included), `Lex` produces exactly the one-item stream
`Error("unexpected initial symbol")`. -/
theorem lex_no_opening_bracket (name : List Nat) (b : Nat) (t : List Nat) (h : b ≠ 91) :
    LexItems name (b :: t) = .ok [⟨.itemError, bytes "unexpected initial symbol"⟩] := by
  rw [LexItems_eq, (specLex_cons b t).2 h]
  rfl

/-- The input `"a ]"` of the test `TestBrokenListsFail` as an instance of C5. -/
theorem lex_no_opening_bracket_witness :
    (97 : Nat) ≠ 91 ∧ LexItems (bytes "lex unstarted list") (bytes "a ]") =
      .ok [⟨.itemError, bytes "unexpected initial symbol"⟩] :=
  ⟨by decide, lex_no_opening_bracket (bytes "lex unstarted list") 97 (bytes " ]") (by decide)⟩

/-- C6: the stream produced by `Lex` is the single item `EndOfInput` with empty
text if and only if the input is the empty string. -/
theorem lex_eof_only_iff_empty (name input : List Nat) :
    LexItems name input = .ok [⟨.itemEOF, []⟩] ↔ input = [] := by
  rw [LexItems_eq]
  constructor
  · intro h
    cases input with
    | nil => rfl
    | cons b t =>
      exfalso
      simp only [Result.ok.injEq] at h
      by_cases hb : b = 91
      · obtain ⟨more, hm⟩ := (specLex_cons b t).1 hb
        rw [hm] at h
        simp at h
      · rw [(specLex_cons b t).2 hb] at h
        simp [errItem] at h
  · intro h
    subst h
    rw [specLex_nil]

/-! ## The shape of every stream -/

theorem mem_takeWhile_imp (P : Nat → Bool) (l : List Nat) :
    ∀ b ∈ l.takeWhile P, P b = true := by
  induction l with
  | nil => simp
  | cons a t ih =>
    intro b hb
    by_cases ha : P a = true
    · simp only [List.takeWhile, ha, List.mem_cons] at hb
      rcases hb with rfl | hb
      · exact ha
      · exact ih b hb
    · simp [List.takeWhile, ha] at hb

/-- The items of one call: all of them but possibly the last are neither
`EndOfInput` nor `Error`, and the last one is so exactly when the `nil` state
is returned. -/
theorem specStep_shape (s : stateFn) (rest : List Nat) :
    ((specStep s rest).1 ≠ none → ∀ t ∈ (specStep s rest).2.2, t.isFinal = false) ∧
    ((specStep s rest).1 = none → ∃ init last, (specStep s rest).2.2 = init ++ [last] ∧
      last.isFinal = true ∧ ∀ t ∈ init, t.isFinal = false) := by
  cases s with
  | lexText =>
    cases rest with
    | nil => exact ⟨by simp [specStep], fun _ => ⟨[], _, rfl, by decide, by simp⟩⟩
    | cons b t =>
      by_cases hb : b = 91
      · simp [specStep, hb, item.isFinal]
      · exact ⟨by simp [specStep, hb], fun _ =>
          ⟨[], errItem "unexpected initial symbol", by simp [specStep, hb], by decide, by simp⟩⟩
  | lexInsideList =>
    cases hd : rest.dropWhile isWS with
    | nil =>
      exact ⟨by simp [specStep, hd], fun _ =>
        ⟨[], errItem "unclosed list", by simp [specStep, hd], by decide, by simp⟩⟩
    | cons b t =>
      simp only [specStep, hd]
      split_ifs
      · simp
      · simp [item.isFinal]
      · simp [item.isFinal]
      · exact ⟨by simp, fun _ => ⟨[], errItem "unexpected rune", by simp, by decide, by simp⟩⟩
  | lexSymbol =>
    have hsym : ∀ t ∈ symbolItems (rest.takeWhile isSym), t.isFinal = false := by
      intro t ht
      unfold symbolItems at ht
      split_ifs at ht
      · simp at ht
      · simp only [List.mem_singleton] at ht; subst ht; simp [item.isFinal]
    cases hd : (rest.dropWhile isSym).dropWhile isWS with
    | nil =>
      exact ⟨by simp [specStep, hd], fun _ =>
        ⟨_, errItem "unexpected rune", by simp only [specStep, hd], by decide, hsym⟩⟩
    | cons b t =>
      simp only [specStep, hd]
      split_ifs
      all_goals
        first
        | exact ⟨by simp, fun _ => ⟨_, errItem "unexpected rune", rfl, by decide, hsym⟩⟩
        | (refine ⟨fun _ t ht => ?_, by simp⟩
           simp only [List.mem_append, List.mem_singleton] at ht
           rcases ht with ht | ht
           · exact hsym t ht
           · subst ht; simp [item.isFinal])
  | lexAfterList =>
    cases hd : rest.dropWhile isWS with
    | nil =>
      exact ⟨by simp [specStep, hd], fun _ =>
        ⟨[], ⟨.itemEOF, []⟩, by simp [specStep, hd], by decide, by simp⟩⟩
    | cons b t =>
      simp only [specStep, hd]
      split_ifs
      · simp [item.isFinal]
      · simp [item.isFinal]
      · exact ⟨by simp, fun _ => ⟨[], errItem "unexpected rune", by simp, by decide, by simp⟩⟩

theorem specRun_shape : ∀ (n : Nat) (s : stateFn) (rest : List Nat) (toks : List item),
    specRun n (some s) rest = some toks →
    ∃ init last, toks = init ++ [last] ∧ last.isFinal = true ∧
      ∀ t ∈ init, t.isFinal = false := by
  intro n
  induction n with
  | zero => intro s rest toks h; simp [specRun] at h
  | succ k ih =>
    intro s rest toks h
    simp only [specRun] at h
    obtain ⟨sh1, sh2⟩ := specStep_shape s rest
    cases hst : (specStep s rest).1 with
    | none =>
      rw [hst] at h
      simp only [specRun, Option.some.injEq, List.append_nil] at h
      obtain ⟨init, last, e1, e2, e3⟩ := sh2 hst
      exact ⟨init, last, by rw [← h, e1], e2, e3⟩
    | some s1 =>
      rw [hst] at h
      cases hm : specRun k (some s1) (rest.drop (specStep s rest).2.1) with
      | none => rw [hm] at h; simp at h
      | some more =>
        rw [hm] at h
        simp only [Option.some.injEq] at h
        obtain ⟨init, last, e1, e2, e3⟩ := ih s1 _ more hm
        refine ⟨(specStep s rest).2.2 ++ init, last, by rw [← h, e1]; simp, e2, ?_⟩
        intro t ht
        rcases List.mem_append.mp ht with ht | ht
        · exact sh1 (by rw [hst]; simp) t ht
        · exact e3 t ht

/-- C3: for every input the stream produced by `Lex` is non-empty, its last
item is `EndOfInput` or `Error`, and no item before the last one is
`EndOfInput` or `Error`. -/
theorem lex_stream_one_final_item (name input : List Nat) :
    ∃ init last, LexItems name input = .ok (init ++ [last]) ∧
      (last.typ = .itemEOF ∨ last.typ = .itemError) ∧
      ∀ t ∈ init, t.typ ≠ .itemEOF ∧ t.typ ≠ .itemError := by
  obtain ⟨init, last, e1, e2, e3⟩ := specRun_shape _ _ _ _ (specRun_lex input)
  refine ⟨init, last, by rw [LexItems_eq, e1], by simpa [item.isFinal] using e2, ?_⟩
  intro t ht
  simpa [item.isFinal] using e3 t ht

theorem specRun_forall (P : item → Prop)
    (hP : ∀ s rest, ∀ t ∈ (specStep s rest).2.2, P t) :
    ∀ (n : Nat) (st : Option stateFn) (rest : List Nat) (toks : List item),
    specRun n st rest = some toks → ∀ t ∈ toks, P t := by
  intro n
  induction n with
  | zero =>
    intro st rest toks h
    cases st with
    | none => simp only [specRun, Option.some.injEq] at h; subst h; simp
    | some s => simp [specRun] at h
  | succ k ih =>
    intro st rest toks h
    cases st with
    | none => simp only [specRun, Option.some.injEq] at h; subst h; simp
    | some s =>
      simp only [specRun] at h
      cases hm : specRun k (specStep s rest).1 (rest.drop (specStep s rest).2.1) with
      | none => rw [hm] at h; simp at h
      | some more =>
        rw [hm] at h
        simp only [Option.some.injEq] at h
        subst h
        intro t ht
        rcases List.mem_append.mp ht with ht | ht
        · exact hP s rest t ht
        · exact ih _ _ more hm t ht

/-- The text carried by an item of each kind. -/
theorem specStep_text (s : stateFn) (rest : List Nat) :
    ∀ t ∈ (specStep s rest).2.2,
      (t.typ = .itemLeftBracket → t.val = [91]) ∧ (t.typ = .itemRightBracket → t.val = [93]) ∧
      (t.typ = .itemComma → t.val = [44]) ∧ (t.typ = .itemEOF → t.val = []) ∧
      (t.typ = .itemSymbol → t.val ≠ [] ∧ ∀ b ∈ t.val, isSym b = true) := by
  have hsym : ∀ t ∈ symbolItems (rest.takeWhile isSym),
      (t.typ = .itemLeftBracket → t.val = [91]) ∧ (t.typ = .itemRightBracket → t.val = [93]) ∧
      (t.typ = .itemComma → t.val = [44]) ∧ (t.typ = .itemEOF → t.val = []) ∧
      (t.typ = .itemSymbol → t.val ≠ [] ∧ ∀ b ∈ t.val, isSym b = true) := by
    intro t ht
    unfold symbolItems at ht
    split_ifs at ht with h0
    · simp at ht
    · simp only [List.mem_singleton] at ht
      subst ht
      simp only [false_implies, true_and, reduceCtorEq, forall_const]
      exact ⟨h0, mem_takeWhile_imp isSym rest⟩
  cases s with
  | lexText =>
    cases rest with
    | nil => simp [specStep]
    | cons b t =>
      by_cases hb : b = 91
      · simp [specStep, hb]
      · simp [specStep, hb, errItem]
  | lexInsideList =>
    cases hd : rest.dropWhile isWS with
    | nil => simp [specStep, hd, errItem]
    | cons b t =>
      simp only [specStep, hd]
      split_ifs <;> simp [errItem]
  | lexSymbol =>
    cases hd : (rest.dropWhile isSym).dropWhile isWS with
    | nil =>
      simp only [specStep, hd]
      intro t ht
      rcases List.mem_append.mp ht with ht | ht
      · exact hsym t ht
      · simp only [List.mem_singleton] at ht; subst ht; simp [errItem]
    | cons b t =>
      simp only [specStep, hd]
      split_ifs
      all_goals
        intro t ht
        rcases List.mem_append.mp ht with ht | ht
        · exact hsym t ht
        · simp only [List.mem_singleton] at ht; subst ht; simp [errItem]
  | lexAfterList =>
    cases hd : rest.dropWhile isWS with
    | nil => simp [specStep, hd]
    | cons b t =>
      simp only [specStep, hd]
      split_ifs <;> simp [errItem]

/-- C8: in the stream produced by `Lex`, a `LeftBracket` item has text `"["`, a
`RightBracket` item `"]"`, a `Comma` item `","`, an `EndOfInput` item the empty
text, and a `Symbol` item a non-empty text of ASCII letters and digits only. -/
theorem lex_item_text (name input : List Nat) :
    ∃ toks, LexItems name input = .ok toks ∧ ∀ t ∈ toks,
      (t.typ = .itemLeftBracket → t.val = bytes "[") ∧
      (t.typ = .itemRightBracket → t.val = bytes "]") ∧
      (t.typ = .itemComma → t.val = bytes ",") ∧
      (t.typ = .itemEOF → t.val = bytes "") ∧
      (t.typ = .itemSymbol → t.val ≠ [] ∧ ∀ b ∈ t.val,
        (48 ≤ b ∧ b ≤ 57) ∨ (97 ≤ b ∧ b ≤ 122) ∨ (65 ≤ b ∧ b ≤ 90)) := by
  refine ⟨specLex input, LexItems_eq name input, ?_⟩
  intro t ht
  obtain ⟨h1, h2, h3, h4, h5⟩ :=
    specRun_forall _ specStep_text _ _ _ _ (specRun_lex input) t ht
  refine ⟨h1, h2, h3, h4, fun hs => ⟨(h5 hs).1, fun b hb => ?_⟩⟩
  exact (isSym_iff b).mp ((h5 hs).2 b hb)

/-! ## Stray bytes -/

theorem isAllowed_of_isWS {b : Nat} (h : isWS b = true) : isAllowed b = true := by
  simp [isAllowed, h]

theorem isAllowed_of_isSym {b : Nat} (h : isSym b = true) : isAllowed b = true := by
  simp [isAllowed, h]

theorem take_split (l pre post : List Nat) (h : l = pre ++ post) (i : Nat) :
    l.take (pre.length + i) = pre ++ post.take i := by
  subst h
  exact List.take_append _

theorem take_ws_allowed (rest : List Nat) (b : Nat) (t : List Nat)
    (hd : rest.dropWhile isWS = b :: t) (hb : isAllowed b = true) :
    ∀ x ∈ rest.take ((rest.takeWhile isWS).length + 1), isAllowed x = true := by
  have hrest : rest = rest.takeWhile isWS ++ b :: t := by
    rw [← hd, List.takeWhile_append_dropWhile]
  intro x hx
  have hsub : rest.take ((rest.takeWhile isWS).length + 1) = rest.takeWhile isWS ++ [b] :=
    take_split rest _ _ hrest 1
  rw [hsub] at hx
  rcases List.mem_append.mp hx with hx | hx
  · exact isAllowed_of_isWS (mem_takeWhile_imp isWS rest x hx)
  · simp only [List.mem_singleton] at hx; subst hx; exact hb

theorem all_ws_of_dropWhile_nil (rest : List Nat) (hd : rest.dropWhile isWS = []) :
    ∀ x ∈ rest, isWS x = true := by
  have hrest : rest = rest.takeWhile isWS := by
    have := List.takeWhile_append_dropWhile isWS rest
    rw [hd, List.append_nil] at this
    exact this.symm
  intro x hx
  rw [hrest] at hx
  exact mem_takeWhile_imp isWS rest x hx

/-- The bytes consumed by a call that returns a state are all well-formed input
bytes. -/
theorem specStep_take_allowed (s s1 : stateFn) (rest : List Nat)
    (h : (specStep s rest).1 = some s1) :
    ∀ x ∈ rest.take (specStep s rest).2.1, isAllowed x = true := by
  cases s with
  | lexText =>
    cases rest with
    | nil => simp [specStep] at h
    | cons b t =>
      by_cases hb : b = 91
      · simp [specStep, hb, isAllowed]
      · simp [specStep, hb] at h
  | lexInsideList =>
    cases hd : rest.dropWhile isWS with
    | nil => simp [specStep, hd] at h
    | cons b t =>
      simp only [specStep, hd] at h ⊢
      split_ifs at h ⊢ with h1 h2 h3
      · intro x hx
        exact isAllowed_of_isWS (mem_takeWhile_imp isWS rest x (by
          rw [take_length_takeWhile] at hx; exact hx))
      · exact take_ws_allowed rest b t hd (by simp [isAllowed, h2])
      · exact take_ws_allowed rest b t hd (by simp [isAllowed, h3])
  | lexSymbol =>
    cases hd : (rest.dropWhile isSym).dropWhile isWS with
    | nil => simp [specStep, hd] at h
    | cons b t =>
      have hb : (b = 44 ∨ b = 93) → ∀ x ∈ rest.take ((rest.takeWhile isSym).length +
          ((rest.dropWhile isSym).takeWhile isWS).length + 1), isAllowed x = true := by
        intro hb x hx
        have hrest : rest = rest.takeWhile isSym ++ rest.dropWhile isSym :=
          (List.takeWhile_append_dropWhile isSym rest).symm
        have hsub : rest.take ((rest.takeWhile isSym).length +
            ((rest.dropWhile isSym).takeWhile isWS).length + 1) =
            rest.takeWhile isSym ++ (rest.dropWhile isSym).take
              (((rest.dropWhile isSym).takeWhile isWS).length + 1) := by
          rw [Nat.add_assoc]
          exact take_split rest _ _ hrest _
        rw [hsub] at hx
        rcases List.mem_append.mp hx with hx | hx
        · exact isAllowed_of_isSym (mem_takeWhile_imp isSym rest x hx)
        · exact take_ws_allowed _ b t hd (by
            rcases hb with hb | hb <;> simp [isAllowed, hb]) x hx
      simp only [specStep, hd] at h ⊢
      split_ifs at h ⊢ with h1 h2
      · exact hb (Or.inl h1)
      · exact hb (Or.inr h2)
  | lexAfterList =>
    cases hd : rest.dropWhile isWS with
    | nil => simp [specStep, hd] at h
    | cons b t =>
      simp only [specStep, hd] at h ⊢
      split_ifs at h ⊢ with h1 h2
      · exact take_ws_allowed rest b t hd (by simp [isAllowed, h1])
      · exact take_ws_allowed rest b t hd (by simp [isAllowed, h2])

/-- A call that sends `EndOfInput` has only white space left to read. -/
theorem specStep_eof_allowed (s : stateFn) (rest : List Nat)
    (h : ∃ t ∈ (specStep s rest).2.2, t.typ = .itemEOF) :
    ∀ x ∈ rest, isAllowed x = true := by
  obtain ⟨t, ht, hty⟩ := h
  have htext := specStep_text s rest t ht
  cases s with
  | lexText =>
    cases rest with
    | nil => simp
    | cons b r =>
      by_cases hb : b = 91
      · simp [specStep, hb] at ht; subst ht; simp at hty
      · simp [specStep, hb] at ht; subst ht; simp [errItem] at hty
  | lexInsideList =>
    cases hd : rest.dropWhile isWS with
    | nil => simp [specStep, hd] at ht; subst ht; simp [errItem] at hty
    | cons b r =>
      simp only [specStep, hd] at ht
      split_ifs at ht <;> simp at ht <;> subst ht <;> simp [errItem] at hty
  | lexSymbol =>
    have hsym : t ∉ symbolItems (rest.takeWhile isSym) := by
      intro hm
      unfold symbolItems at hm
      split_ifs at hm
      · simp at hm
      · simp only [List.mem_singleton] at hm; subst hm; simp at hty
    cases hd : (rest.dropWhile isSym).dropWhile isWS with
    | nil =>
      simp only [specStep, hd, List.mem_append, List.mem_singleton] at ht
      rcases ht with ht | ht
      · exact absurd ht hsym
      · subst ht; simp [errItem] at hty
    | cons b r =>
      simp only [specStep, hd] at ht
      split_ifs at ht <;> simp only [List.mem_append, List.mem_singleton] at ht <;>
        rcases ht with ht | ht <;> first
          | exact absurd ht hsym
          | (subst ht; simp [errItem] at hty)
  | lexAfterList =>
    cases hd : rest.dropWhile isWS with
    | nil =>
      intro x hx
      exact isAllowed_of_isWS (all_ws_of_dropWhile_nil rest hd x hx)
    | cons b r =>
      simp only [specStep, hd] at ht
      split_ifs at ht <;> simp at ht <;> subst ht <;> simp [errItem] at hty

theorem specRun_eof_allowed : ∀ (n : Nat) (s : stateFn) (rest : List Nat) (toks : List item),
    specRun n (some s) rest = some toks → (∃ t ∈ toks, t.typ = .itemEOF) →
    ∀ x ∈ rest, isAllowed x = true := by
  intro n
  induction n with
  | zero => intro s rest toks h; simp [specRun] at h
  | succ k ih =>
    intro s rest toks h heof
    simp only [specRun] at h
    cases hst : (specStep s rest).1 with
    | none =>
      rw [hst] at h
      simp only [specRun, Option.some.injEq, List.append_nil] at h
      rw [← h] at heof
      exact specStep_eof_allowed s rest heof
    | some s1 =>
      rw [hst] at h
      cases hm : specRun k (some s1) (rest.drop (specStep s rest).2.1) with
      | none => rw [hm] at h; simp at h
      | some more =>
        rw [hm] at h
        simp only [Option.some.injEq] at h
        obtain ⟨t, ht, hty⟩ := heof
        rw [← h] at ht
        have hmore : ∃ t ∈ more, t.typ = .itemEOF := by
          rcases List.mem_append.mp ht with ht | ht
          · have := (specStep_shape s rest).1 (by rw [hst]; simp) t ht
            simp [item.isFinal, hty] at this
          · exact ⟨t, ht, hty⟩
        have h1 := ih s1 _ more hm hmore
        have h2 := specStep_take_allowed s s1 rest hst
        intro x hx
        rw [← List.take_append_drop (specStep s rest).2.1 rest] at hx
        rcases List.mem_append.mp hx with hx | hx
        · exact h2 x hx
        · exact h1 x hx

/-- C7: for every input that contains a byte that is neither an ASCII letter or
digit, nor `[`, `]`, `,`, nor a space, tab, carriage return or newline, the
stream produced by `Lex` ends with an `Error` item. -/
theorem lex_stray_byte_error (name input : List Nat)
    (h : ∃ b ∈ input, ¬ ((48 ≤ b ∧ b ≤ 57) ∨ (97 ≤ b ∧ b ≤ 122) ∨ (65 ≤ b ∧ b ≤ 90)) ∧
      b ≠ 91 ∧ b ≠ 93 ∧ b ≠ 44 ∧ b ≠ 32 ∧ b ≠ 9 ∧ b ≠ 13 ∧ b ≠ 10) :
    ∃ init last, LexItems name input = .ok (init ++ [last]) ∧ last.typ = .itemError := by
  obtain ⟨init, last, e1, e2, e3⟩ := specRun_shape _ _ _ _ (specRun_lex input)
  refine ⟨init, last, by rw [LexItems_eq, e1], ?_⟩
  have hfin : last.typ = .itemEOF ∨ last.typ = .itemError := by
    simpa [item.isFinal] using e2
  rcases hfin with hfin | hfin
  · exfalso
    obtain ⟨b, hb, h1, h2, h3, h4, h5, h6, h7, h8⟩ := h
    have hall := specRun_eof_allowed _ _ _ _ (specRun_lex input)
      ⟨last, by rw [e1]; simp, hfin⟩ b hb
    simp only [isAllowed, Bool.or_eq_true, decide_eq_true_eq] at hall
    rcases hall with (((hs | hw) | h91) | h93) | h44
    · exact h1 ((isSym_iff b).mp hs)
    · have := (isWS_iff b).mp hw; omega
    · exact h2 h91
    · exact h3 h93
    · exact h4 h44
  · exact hfin

/-- The input `"[a;b]"` as an instance of C7: the stray byte is `;`. -/
theorem lex_stray_byte_error_witness :
    (∃ b ∈ bytes "[a;b]", ¬ ((48 ≤ b ∧ b ≤ 57) ∨ (97 ≤ b ∧ b ≤ 122) ∨ (65 ≤ b ∧ b ≤ 90)) ∧
      b ≠ 91 ∧ b ≠ 93 ∧ b ≠ 44 ∧ b ≠ 32 ∧ b ≠ 9 ∧ b ≠ 13 ∧ b ≠ 10) ∧
    ∃ init last, LexItems [] (bytes "[a;b]") = .ok (init ++ [last]) ∧
      last.typ = .itemError :=
  ⟨⟨59, by decide, by decide⟩, lex_stray_byte_error [] (bytes "[a;b]") ⟨59, by decide, by decide⟩⟩

/-! ## Cursor bounds, progress and termination -/

theorem specStep_advance (s s1 : stateFn) (rest : List Nat)
    (h : (specStep s rest).1 = some s1) : 1 ≤ (specStep s rest).2.1 ∨ s1 = .lexSymbol := by
  cases s with
  | lexText =>
    cases rest with
    | nil => simp [specStep] at h
    | cons b t => simp only [specStep] at h ⊢; split_ifs at h ⊢; simp_all
  | lexInsideList =>
    cases hd : rest.dropWhile isWS with
    | nil => simp [specStep, hd] at h
    | cons b t => simp only [specStep, hd] at h ⊢; split_ifs at h ⊢ <;> simp_all
  | lexSymbol =>
    cases hd : (rest.dropWhile isSym).dropWhile isWS with
    | nil => simp [specStep, hd] at h
    | cons b t => simp only [specStep, hd] at h ⊢; split_ifs at h ⊢ <;> simp_all
  | lexAfterList =>
    cases hd : rest.dropWhile isWS with
    | nil => simp [specStep, hd] at h
    | cons b t => simp only [specStep, hd] at h ⊢; split_ifs at h ⊢ <;> simp_all

theorem specStep_symbol_advance (b : Nat) (t : List Nat) (hb : isSym b = true) :
    1 ≤ (specStep .lexSymbol (b :: t)).2.1 := by
  have h1 : 1 ≤ ((b :: t).takeWhile isSym).length := by
    simp [List.takeWhile, hb]
  cases hd : ((b :: t).dropWhile isSym).dropWhile isWS with
  | nil => simp only [specStep, hd]; omega
  | cons c r => simp only [specStep, hd]; split_ifs <;> simp only <;> omega

/-- C9: every lexer state that the loop of `run` reaches from the initial state
of `Lex` (`start = pos = 0`) satisfies `0 ≤ start ≤ pos ≤ len(input)`; so did
the cursor after each primitive operation executed on the way (the history
`trace`), along which `start` never decreased; and the next call of a state
function returns normally, so the slice `input[start:pos]` taken by `emit` is
within bounds. -/
theorem cursor_within_bounds (name input : List Nat) (st : Option stateFn) (l : lexer)
    (h : Reachable name input st l) :
    (0 ≤ l.start ∧ l.start ≤ l.pos ∧ l.pos ≤ (input.length : Int)) ∧
    (∀ e ∈ l.trace, 0 ≤ e.start ∧ e.start ≤ e.pos ∧ e.pos ≤ (input.length : Int) ∧
      e.start ≤ l.start) ∧
    l.trace.Pairwise (fun a b => a.start ≤ b.start) ∧
    (∀ s, st = some s → ∃ s1 l1, s.call l = .ok (s1, l1)) := by
  obtain ⟨i1, i2, i3, i4⟩ := h.inv
  have hg := i3
  obtain ⟨g1, g2, g3, g4, g5⟩ := hg
  rw [i1] at g3 g4
  refine ⟨⟨g1, g2, g3⟩, g4, g5, ?_⟩
  intro s hs
  obtain ⟨s1, l1, c1, _⟩ := (i4 s hs).call
  exact ⟨s1, l1, c1⟩

/-- The lexer state after the first call on the input `"[a]"` as an instance of C9. -/
theorem cursor_within_bounds_witness :
    Reachable [] (bytes "[a]") (some .lexInsideList) (afterOpen (bytes "[a]")) ∧
    ((0 ≤ (afterOpen (bytes "[a]")).start ∧
        (afterOpen (bytes "[a]")).start ≤ (afterOpen (bytes "[a]")).pos ∧
        (afterOpen (bytes "[a]")).pos ≤ ((bytes "[a]").length : Int)) ∧
      (∀ e ∈ (afterOpen (bytes "[a]")).trace, 0 ≤ e.start ∧ e.start ≤ e.pos ∧
        e.pos ≤ ((bytes "[a]").length : Int) ∧ e.start ≤ (afterOpen (bytes "[a]")).start) ∧
      (afterOpen (bytes "[a]")).trace.Pairwise (fun a b => a.start ≤ b.start) ∧
      (∀ s, some stateFn.lexInsideList = some s →
        ∃ s1 l1, s.call (afterOpen (bytes "[a]")) = .ok (s1, l1))) :=
  ⟨Reachable.step Reachable.init (by decide),
    cursor_within_bounds [] (bytes "[a]") (some .lexInsideList) (afterOpen (bytes "[a]"))
      (Reachable.step Reachable.init (by decide))⟩

/-- C10: for every input the loop of `run` reaches the `nil` state within
`2 * len(input) + 2` calls of state functions; the cursor position never
exceeds `len(input)`; and every call either returns `nil` (the loop ends), or
has strictly advanced `pos`, or is followed by a call that has. -/
theorem run_loop_terminates (name input : List Nat) (s : stateFn) (l : lexer)
    (h : Reachable name input (some s) l) :
    (∃ lf, runLoop (2 * input.length + 2) (some .lexText) (lexer.init name input) = .ok lf) ∧
    l.pos ≤ (input.length : Int) ∧
    ∃ s1 l1, s.call l = .ok (s1, l1) ∧ l1.pos ≤ (input.length : Int) ∧
      (s1 = none ∨ l.pos < l1.pos ∨
        ∃ s2 s3 l3, s1 = some s2 ∧ s2.call l1 = .ok (s3, l3) ∧ l.pos < l3.pos) := by
  obtain ⟨lf, hlf, _⟩ := Lex_spec name input
  obtain ⟨i1, i2, i3, i4⟩ := h.inv
  have hb := i4 s rfl
  obtain ⟨s1, l1, c1, c2, c3, c4, c5, c6, c7, c8⟩ := hb.call
  have hg := i3
  obtain ⟨g1, g2, g3, _, _⟩ := hg
  have hg1 := c4
  obtain ⟨k1, k2, k3, _, _⟩ := hg1
  rw [i1] at g3
  rw [c2] at k3
  refine ⟨⟨lf, hlf⟩, g3, s1, l1, c1, k3, ?_⟩
  cases hs1 : s1 with
  | none => exact Or.inl rfl
  | some s2 =>
    right
    obtain ⟨b1, b2⟩ := c7 s2 hs1
    rcases specStep_advance s s2 _ (by rw [← c5, hs1]) with hadv | hsym
    · left; rw [b2]; omega
    · right
      subst hsym
      obtain ⟨s3, l3, d1, d2, d3, d4, d5, d6, d7, d8⟩ := b1.call
      obtain ⟨_, _, _, hhead⟩ := b1
      obtain ⟨b, t, hd, hbs⟩ := hhead rfl
      rw [hd] at d8
      have := specStep_symbol_advance b t hbs
      refine ⟨_, s3, l3, rfl, d1, ?_⟩
      have hle : l.pos ≤ l1.pos := by rw [b2]; omega
      omega

/-- The lexer state after the first call on the input `"[a]"` as an instance of C10. -/
theorem run_loop_terminates_witness :
    Reachable [] (bytes "[a]") (some .lexInsideList) (afterOpen (bytes "[a]")) ∧
    ((∃ lf, runLoop (2 * (bytes "[a]").length + 2) (some .lexText)
        (lexer.init [] (bytes "[a]")) = .ok lf) ∧
      (afterOpen (bytes "[a]")).pos ≤ ((bytes "[a]").length : Int) ∧
      ∃ s1 l1, stateFn.lexInsideList.call (afterOpen (bytes "[a]")) = .ok (s1, l1) ∧
        l1.pos ≤ ((bytes "[a]").length : Int) ∧
        (s1 = none ∨ (afterOpen (bytes "[a]")).pos < l1.pos ∨
          ∃ s2 s3 l3, s1 = some s2 ∧ s2.call l1 = .ok (s3, l3) ∧
            (afterOpen (bytes "[a]")).pos < l3.pos)) :=
  ⟨Reachable.step Reachable.init (by decide),
    run_loop_terminates [] (bytes "[a]") .lexInsideList (afterOpen (bytes "[a]"))
      (Reachable.step Reachable.init (by decide))⟩

/-- C4 (as stated in the specification) fails: on the input `"[[]"` the end of
the input is reached while two `LeftBracket` items and one `RightBracket` item
have been sent, and the stream ends with `EndOfInput`, not with an `Error`
item. -/
theorem lex_unbalanced_ends_with_eof :
    LexItems [] (bytes "[[]") =
      .ok ([⟨.itemLeftBracket, bytes "["⟩, ⟨.itemLeftBracket, bytes "["⟩,
        ⟨.itemRightBracket, bytes "]"⟩] ++ [⟨.itemEOF, bytes ""⟩]) ∧
    List.countP (fun t => decide (t.typ = .itemRightBracket))
        [(⟨.itemLeftBracket, bytes "["⟩ : item), ⟨.itemLeftBracket, bytes "["⟩,
          ⟨.itemRightBracket, bytes "]"⟩] <
      List.countP (fun t => decide (t.typ = .itemLeftBracket))
        [(⟨.itemLeftBracket, bytes "["⟩ : item), ⟨.itemLeftBracket, bytes "["⟩,
          ⟨.itemRightBracket, bytes "]"⟩] := by
  rw [LexItems_eq]
  decide

/-- C4 (amended): if the scanner reaches end-of-input in the state
`lexInsideList`, that is, where a value or a closing bracket is expected (right
after a `LeftBracket` or `Comma` item) and only white space is left, then the
stream is the items sent so far followed by `Error("unclosed list")`. -/
theorem lex_unclosed_list (name input : List Nat) (l : lexer)
    (h : Reachable name input (some .lexInsideList) l)
    (hws : ∀ b ∈ input.drop l.pos.toNat, b = 32 ∨ b = 9 ∨ b = 13 ∨ b = 10) :
    LexItems name input = .ok (l.items ++ [⟨.itemError, bytes "unclosed list"⟩]) := by
  obtain ⟨i1, i2, i3, i4⟩ := h.inv
  obtain ⟨s1, l1, c1, c2, c3, c4, c5, c6, c7, c8⟩ := (i4 _ rfl).call
  have hd : (input.drop l.pos.toNat).dropWhile isWS = [] := by
    rw [List.dropWhile_eq_nil_iff]
    intro b hb
    exact (isWS_iff b).mpr (hws b hb)
  have hs1 : s1 = none := by rw [c5]; simp [specStep, hd]
  have hitems : l1.items = l.items ++ [errItem "unclosed list"] := by
    rw [c6]; simp [specStep, hd]
  subst hs1
  have hfin := (Reachable.step h c1).final
  simp only [LexItems, hfin, hitems]
  rfl

/-- The input `"[ "` as an instance of C4 (amended). -/
theorem lex_unclosed_list_witness :
    Reachable [] (bytes "[ ") (some .lexInsideList) (afterOpen (bytes "[ ")) ∧
    (∀ b ∈ (bytes "[ ").drop (afterOpen (bytes "[ ")).pos.toNat,
      b = 32 ∨ b = 9 ∨ b = 13 ∨ b = 10) ∧
    LexItems [] (bytes "[ ") =
      .ok ((afterOpen (bytes "[ ")).items ++ [⟨.itemError, bytes "unclosed list"⟩]) :=
  ⟨Reachable.step Reachable.init (by decide), by decide,
    lex_unclosed_list [] (bytes "[ ") (afterOpen (bytes "[ "))
      (Reachable.step Reachable.init (by decide)) (by decide)⟩

/-! ## Well-formed inputs -/

theorem Follows.accepts {k : List item} (h : Follows k) : Accepts .lexAfterList k := by
  rcases h with ⟨k1, rfl, h1⟩ | ⟨k1, rfl, h1⟩
  · exact Accepts.comma h1
  · exact Accepts.close h1

mutual
theorem value_accepts_terminals : ∀ (v : Value) (k : List item), v.wellFormed = true →
    Follows k → Accepts .lexInsideList (v.terminals ++ k)
  | .symbol text, k, hwf, hk => by
    cases text with
    | nil => simp [Value.wellFormed] at hwf
    | cons c s =>
      have hall : ∀ b ∈ c :: s, isSym b = true := by
        simp only [Value.wellFormed, List.all_eq_true] at hwf
        simpa using hwf
      rcases hk with ⟨k1, rfl, h1⟩ | ⟨k1, rfl, h1⟩
      · exact Accepts.symComma hall h1
      · exact Accepts.symLeave hall h1
  | .list items, k, hwf, hk => by
    have h := items_accepts_terminals items k (by simpa [Value.wellFormed] using hwf) hk.accepts
    simp only [Value.terminals, List.cons_append, List.append_assoc, List.singleton_append]
    exact Accepts.enter h
theorem items_accepts_terminals : ∀ (items : Items) (k : List item), items.wellFormed = true →
    Accepts .lexAfterList k →
    Accepts .lexInsideList (items.terminals ++ ⟨.itemRightBracket, [93]⟩ :: k)
  | .nil, k, _, hk => by
    simp only [Items.terminals, List.nil_append]
    exact Accepts.leave hk
  | .cons v .nil, k, hwf, hk => by
    simp only [Items.terminals]
    simp only [Items.wellFormed, Bool.and_true] at hwf
    exact value_accepts_terminals v _ hwf (Or.inr ⟨k, rfl, hk⟩)
  | .cons v (.cons w r), k, hwf, hk => by
    simp only [Items.wellFormed, Bool.and_eq_true] at hwf
    have h := items_accepts_terminals (.cons w r) k (by
      simp only [Items.wellFormed, Bool.and_eq_true]; exact hwf.2) hk
    simp only [Items.terminals, List.append_assoc, List.cons_append]
    exact value_accepts_terminals v _ hwf.1 (Or.inl ⟨_, rfl, h⟩)
end

theorem takeWhile_append_stop (P : Nat → Bool) (w : List Nat) (c : Nat) (r : List Nat)
    (hw : ∀ b ∈ w, P b = true) (hc : P c = false) :
    (w ++ c :: r).takeWhile P = w ∧ (w ++ c :: r).dropWhile P = c :: r := by
  induction w with
  | nil => simp [List.takeWhile, List.dropWhile, hc]
  | cons a t ih =>
    have ha : P a = true := hw a (by simp)
    have ht := ih (fun b hb => hw b (by simp [hb]))
    simp [List.takeWhile, List.dropWhile, ha, ht.1, ht.2]

theorem drop_append_cons (w : List Nat) (c : Nat) (r : List Nat) :
    (w ++ c :: r).drop (w.length + 1) = r := by
  induction w with
  | nil => rfl
  | cons a t ih => simp

theorem isSym_not_isWS {b : Nat} (h : isSym b = true) : isWS b = false := by
  have h1 := (isSym_iff b).mp h
  cases hw : isWS b with
  | false => rfl
  | true => have := (isWS_iff b).mp hw; omega

theorem isWS_not_isSym {b : Nat} (h : isWS b = true) : isSym b = false := by
  cases hs : isSym b with
  | false => rfl
  | true => rw [isSym_not_isWS hs] at h; cases h

theorem specStep_inside_enter (w r : List Nat) (hw : ∀ b ∈ w, isWS b = true) :
    specStep .lexInsideList (w ++ 91 :: r) =
      (some .lexInsideList, w.length + 1, [⟨.itemLeftBracket, [91]⟩]) := by
  obtain ⟨h1, h2⟩ := takeWhile_append_stop isWS w 91 r hw (by decide)
  have h3 : isSym 91 = false := by decide
  simp [specStep, h1, h2, h3]

theorem specStep_inside_leave (w r : List Nat) (hw : ∀ b ∈ w, isWS b = true) :
    specStep .lexInsideList (w ++ 93 :: r) =
      (some .lexAfterList, w.length + 1, [⟨.itemRightBracket, [93]⟩]) := by
  obtain ⟨h1, h2⟩ := takeWhile_append_stop isWS w 93 r hw (by decide)
  have h3 : isSym 93 = false := by decide
  simp [specStep, h1, h2, h3]

theorem specStep_inside_symbol (w : List Nat) (c : Nat) (r : List Nat)
    (hw : ∀ b ∈ w, isWS b = true) (hc : isSym c = true) :
    specStep .lexInsideList (w ++ c :: r) = (some .lexSymbol, w.length, []) := by
  obtain ⟨h1, h2⟩ := takeWhile_append_stop isWS w c r hw (isSym_not_isWS hc)
  simp [specStep, h1, h2, hc]

theorem specStep_after_comma (w r : List Nat) (hw : ∀ b ∈ w, isWS b = true) :
    specStep .lexAfterList (w ++ 44 :: r) =
      (some .lexInsideList, w.length + 1, [⟨.itemComma, [44]⟩]) := by
  obtain ⟨h1, h2⟩ := takeWhile_append_stop isWS w 44 r hw (by decide)
  simp [specStep, h1, h2]

theorem specStep_after_close (w r : List Nat) (hw : ∀ b ∈ w, isWS b = true) :
    specStep .lexAfterList (w ++ 93 :: r) =
      (some .lexAfterList, w.length + 1, [⟨.itemRightBracket, [93]⟩]) := by
  obtain ⟨h1, h2⟩ := takeWhile_append_stop isWS w 93 r hw (by decide)
  simp [specStep, h1, h2]

/-- A white-space run followed by a separator does not start with a symbol byte. -/
theorem ws_sep_head (w : List Nat) (sep : Nat) (r : List Nat) (hw : ∀ b ∈ w, isWS b = true)
    (hsep : isSym sep = false) :
    ∃ d r1, w ++ sep :: r = d :: r1 ∧ isSym d = false := by
  cases w with
  | nil => exact ⟨sep, r, rfl, hsep⟩
  | cons a t => exact ⟨a, t ++ sep :: r, rfl, isWS_not_isSym (hw a (by simp))⟩

theorem specStep_symbol_comma (c : Nat) (s w r : List Nat)
    (hs : ∀ b ∈ c :: s, isSym b = true) (hw : ∀ b ∈ w, isWS b = true) :
    specStep .lexSymbol ((c :: s) ++ (w ++ 44 :: r)) =
      (some .lexInsideList, (c :: s).length + w.length + 1,
        [⟨.itemSymbol, c :: s⟩, ⟨.itemComma, [44]⟩]) := by
  obtain ⟨d, r1, hd, hds⟩ := ws_sep_head w 44 r hw (by decide)
  obtain ⟨h1, h2⟩ := takeWhile_append_stop isSym (c :: s) d r1 hs hds
  obtain ⟨h3, h4⟩ := takeWhile_append_stop isWS w 44 r hw (by decide)
  rw [hd]
  simp only [specStep, h1, h2]
  rw [← hd, h3, h4]
  simp [symbolItems]

theorem specStep_symbol_leave (c : Nat) (s w r : List Nat)
    (hs : ∀ b ∈ c :: s, isSym b = true) (hw : ∀ b ∈ w, isWS b = true) :
    specStep .lexSymbol ((c :: s) ++ (w ++ 93 :: r)) =
      (some .lexAfterList, (c :: s).length + w.length + 1,
        [⟨.itemSymbol, c :: s⟩, ⟨.itemRightBracket, [93]⟩]) := by
  obtain ⟨d, r1, hd, hds⟩ := ws_sep_head w 93 r hw (by decide)
  obtain ⟨h1, h2⟩ := takeWhile_append_stop isSym (c :: s) d r1 hs hds
  obtain ⟨h3, h4⟩ := takeWhile_append_stop isWS w 93 r hw (by decide)
  rw [hd]
  simp only [specStep, h1, h2]
  rw [← hd, h3, h4]
  simp [symbolItems]

theorem drop_symbol_sep (s w : List Nat) (sep : Nat) (r : List Nat) :
    (s ++ (w ++ sep :: r)).drop (s.length + w.length + 1) = r := by
  rw [Nat.add_assoc, ← List.drop_drop]
  simp [drop_append_cons]

theorem headD_ws (wss : List (List Nat)) (h : ∀ w ∈ wss, ∀ b ∈ w, isWS b = true) :
    ∀ b ∈ wss.headD [], isWS b = true := by
  cases wss with
  | nil => simp
  | cons w t => exact h w (by simp)

theorem tail_ws (wss : List (List Nat)) (h : ∀ w ∈ wss, ∀ b ∈ w, isWS b = true) :
    ∀ w ∈ wss.tail, ∀ b ∈ w, isWS b = true :=
  fun w hw => h w (List.mem_of_mem_tail hw)

/-- A sequence of terminals that the state machine accepts, spelled with any
white space between the terminals, is lexed to exactly these terminals followed
by `EndOfInput`. -/
theorem specRun_accepts {st : stateFn} {ts : List item} (h : Accepts st ts) :
    ∀ wss : List (List Nat), (∀ w ∈ wss, ∀ b ∈ w, isWS b = true) →
    ∃ n, specRun n (some st) (glueRest ts wss) = some (ts ++ [⟨.itemEOF, []⟩]) := by
  induction h with
  | done =>
    intro wss _
    exact ⟨1, by simp [specRun, specStep, glueRest]⟩
  | enter _ ih =>
    intro wss hws
    obtain ⟨n, hn⟩ := ih wss.tail (tail_ws wss hws)
    refine ⟨n + 1, ?_⟩
    simp only [specRun, glueRest, List.singleton_append,
      specStep_inside_enter _ _ (headD_ws wss hws), drop_append_cons, hn, List.cons_append,
      List.nil_append]
  | leave _ ih =>
    intro wss hws
    obtain ⟨n, hn⟩ := ih wss.tail (tail_ws wss hws)
    refine ⟨n + 1, ?_⟩
    simp only [specRun, glueRest, List.singleton_append,
      specStep_inside_leave _ _ (headD_ws wss hws), drop_append_cons, hn, List.cons_append,
      List.nil_append]
  | comma _ ih =>
    intro wss hws
    obtain ⟨n, hn⟩ := ih wss.tail (tail_ws wss hws)
    refine ⟨n + 1, ?_⟩
    simp only [specRun, glueRest, List.singleton_append,
      specStep_after_comma _ _ (headD_ws wss hws), drop_append_cons, hn, List.cons_append,
      List.nil_append]
  | close _ ih =>
    intro wss hws
    obtain ⟨n, hn⟩ := ih wss.tail (tail_ws wss hws)
    refine ⟨n + 1, ?_⟩
    simp only [specRun, glueRest, List.singleton_append,
      specStep_after_close _ _ (headD_ws wss hws), drop_append_cons, hn, List.cons_append,
      List.nil_append]
  | symComma hs _ ih =>
    intro wss hws
    obtain ⟨n, hn⟩ := ih wss.tail.tail (tail_ws _ (tail_ws wss hws))
    refine ⟨n + 2, ?_⟩
    have hc := hs _ (List.mem_cons_self _ _)
    simp only [specRun, glueRest, List.singleton_append, List.cons_append,
      specStep_inside_symbol _ _ _ (headD_ws wss hws) hc, List.drop_left]
    rw [← List.cons_append, specStep_symbol_comma _ _ _ _ hs (headD_ws _ (tail_ws wss hws)),
      drop_symbol_sep]
    simp [hn]
  | symLeave hs _ ih =>
    intro wss hws
    obtain ⟨n, hn⟩ := ih wss.tail.tail (tail_ws _ (tail_ws wss hws))
    refine ⟨n + 2, ?_⟩
    have hc := hs _ (List.mem_cons_self _ _)
    simp only [specRun, glueRest, List.singleton_append, List.cons_append,
      specStep_inside_symbol _ _ _ (headD_ws wss hws) hc, List.drop_left]
    rw [← List.cons_append, specStep_symbol_leave _ _ _ _ hs (headD_ws _ (tail_ws wss hws)),
      drop_symbol_sep]
    simp [hn]

/-- C1: for every input generated by the grammar `list := '[' items? ']'`,
`items := value (',' value)*`, `value := symbol | list`,
`symbol := [A-Za-z0-9]+`, with any run of space, tab, CR, LF between two
terminals and none before the first `[`, `Lex` produces exactly the terminals
of the input in order (`LeftBracket "["`, `RightBracket "]"`, `Comma ","`,
`Symbol` with the text of the symbol) followed by one `EndOfInput` item, and no
`Error` item. -/
theorem lex_grammar_list (name : List Nat) (items : Items) (wss : List (List Nat))
    (hwf : items.wellFormed = true)
    (hws : ∀ w ∈ wss, ∀ b ∈ w, b = 32 ∨ b = 9 ∨ b = 13 ∨ b = 10) :
    LexItems name (glue (Value.list items).terminals wss) =
      .ok ((Value.list items).terminals ++ [⟨.itemEOF, []⟩]) ∧
    ∀ t ∈ (Value.list items).terminals, t.typ ≠ .itemError ∧ t.typ ≠ .itemEOF := by
  have hws1 : ∀ w ∈ wss, ∀ b ∈ w, isWS b = true :=
    fun w hw b hb => (isWS_iff b).mpr (hws w hw b hb)
  have hacc : Accepts .lexInsideList (items.terminals ++ [⟨.itemRightBracket, [93]⟩]) :=
    items_accepts_terminals items [] hwf Accepts.done
  obtain ⟨n, hn⟩ := specRun_accepts hacc wss hws1
  have hrun : specRun (n + 1) (some .lexText) (glue (Value.list items).terminals wss) =
      some ((Value.list items).terminals ++ [⟨.itemEOF, []⟩]) := by
    simp only [Value.terminals, glue, List.singleton_append, specRun, specStep, if_true,
      List.drop_succ_cons, List.drop_zero, List.cons_append, List.nil_append, hn]
  have hlex := specRun_eq_specLex _ _ _ hrun
  refine ⟨by rw [LexItems_eq, hlex], ?_⟩
  obtain ⟨init, last, e1, _, e3⟩ := specRun_shape _ _ _ _ hrun
  have hinit : (Value.list items).terminals = init := (List.append_inj' e1 rfl).1
  intro t ht
  have := e3 t (hinit ▸ ht)
  simp only [item.isFinal, decide_eq_false_iff_not, not_or] at this
  exact ⟨this.2, this.1⟩

/-- The input `"[ [], a ]"` of the test `TestLexNestedList` as an instance of C1. -/
theorem lex_grammar_list_witness :
    (Items.cons (.list .nil) (.cons (.symbol (bytes "a")) .nil)).wellFormed = true ∧
    (∀ w ∈ [bytes " ", bytes "", bytes "", bytes " ", bytes " "], ∀ b ∈ w,
      b = 32 ∨ b = 9 ∨ b = 13 ∨ b = 10) ∧
    glue (Value.list (.cons (.list .nil) (.cons (.symbol (bytes "a")) .nil))).terminals
      [bytes " ", bytes "", bytes "", bytes " ", bytes " "] = bytes "[ [], a ]" ∧
    (LexItems (bytes "lex nested list")
      (glue (Value.list (.cons (.list .nil) (.cons (.symbol (bytes "a")) .nil))).terminals
        [bytes " ", bytes "", bytes "", bytes " ", bytes " "]) =
      .ok ((Value.list (.cons (.list .nil) (.cons (.symbol (bytes "a")) .nil))).terminals ++
        [⟨.itemEOF, []⟩]) ∧
      ∀ t ∈ (Value.list (.cons (.list .nil) (.cons (.symbol (bytes "a")) .nil))).terminals,
        t.typ ≠ .itemError ∧ t.typ ≠ .itemEOF) :=
  ⟨by decide, by decide, by decide,
    lex_grammar_list (bytes "lex nested list")
      (.cons (.list .nil) (.cons (.symbol (bytes "a")) .nil))
      [bytes " ", bytes "", bytes "", bytes " ", bytes " "] (by decide) (by decide)⟩

/-! ## Independence of the name -/

/-- C11: the token stream depends only on the input: for all names `n1`, `n2`
and every input, `Lex(n1, input)` and `Lex(n2, input)` produce the same
sequence of items (same kinds, same texts, same order); the stream is a
function of the input alone, so the name occurs in no item text. -/
theorem lex_name_independent (n1 n2 input : List Nat) :
    LexItems n1 input = LexItems n2 input ∧
      ∃ toks, ∀ name, LexItems name input = .ok toks :=
  ⟨by rw [LexItems_eq, LexItems_eq], specLex input, fun name => LexItems_eq name input⟩

/-! ## Unbalanced brackets, and symbol maximality -/

theorem accepts_closers (m : Nat) :
    Accepts .lexAfterList (List.replicate m ⟨.itemRightBracket, [93]⟩) := by
  induction m with
  | zero => exact Accepts.done
  | succ k ih => exact Accepts.close ih

theorem glueRest_closers (m : Nat) :
    glueRest (List.replicate m ⟨.itemRightBracket, [93]⟩) [] = List.replicate m 93 := by
  induction m with
  | zero => rfl
  | succ k ih => simp [List.replicate_succ, glueRest, ih]

/-- C18: bracket balance is not enforced: for every `n ≥ 1` the input made of
one `[` followed by `n` times `]` is lexed to `LeftBracket`, then `n`
`RightBracket` items, then `EndOfInput`, with no `Error` item. -/
theorem lex_extra_closers (name : List Nat) (n : Nat) (hn : 1 ≤ n) :
    LexItems name (91 :: List.replicate n 93) =
      .ok (⟨.itemLeftBracket, bytes "["⟩ ::
        (List.replicate n ⟨.itemRightBracket, bytes "]"⟩ ++ [⟨.itemEOF, bytes ""⟩])) := by
  obtain ⟨m, rfl⟩ : ∃ m, n = m + 1 := ⟨n - 1, by omega⟩
  have hacc : Accepts .lexInsideList (List.replicate (m + 1) ⟨.itemRightBracket, [93]⟩) :=
    Accepts.leave (accepts_closers m)
  obtain ⟨k, hk⟩ := specRun_accepts hacc [] (by simp)
  rw [glueRest_closers] at hk
  have hrun : specRun (k + 1) (some .lexText) (91 :: List.replicate (m + 1) 93) =
      some (⟨.itemLeftBracket, [91]⟩ ::
        (List.replicate (m + 1) ⟨.itemRightBracket, [93]⟩ ++ [⟨.itemEOF, []⟩])) := by
    simp only [specRun, specStep, if_true, List.drop_succ_cons, List.drop_zero, hk,
      List.singleton_append]
  rw [LexItems_eq, specRun_eq_specLex _ _ _ hrun]
  rfl

/-- The input `"[]]"`, with more closers than openers, as an instance of C18. -/
theorem lex_extra_closers_witness :
    1 ≤ 2 ∧ LexItems [] (91 :: List.replicate 2 93) =
      .ok (⟨.itemLeftBracket, bytes "["⟩ ::
        (List.replicate 2 ⟨.itemRightBracket, bytes "]"⟩ ++ [⟨.itemEOF, bytes ""⟩])) :=
  ⟨by decide, lex_extra_closers [] 2 (by decide)⟩

theorem takeWhile_all (P : Nat → Bool) (s : List Nat) (h : ∀ b ∈ s, P b = true) :
    s.takeWhile P = s ∧ s.dropWhile P = [] := by
  induction s with
  | nil => simp
  | cons a t ih =>
    have ha : P a = true := h a (by simp)
    have ht := ih (fun b hb => h b (by simp [hb]))
    simp [List.takeWhile, List.dropWhile, ha, ht.1, ht.2]

/-- C12 (symbol maximality): for every non-empty string `s` of ASCII letters
and digits and every string `rest` that is empty or begins with a byte outside
that alphabet, the state `lexSymbol` run with `start = pos` at the beginning of
`s ++ rest` sends `Symbol(s)`, the whole run, as its first item; on `s` alone
it sends `Symbol(s)` followed by an `Error` item and returns `nil`. -/
theorem lexSymbol_maximal (name before s rest : List Nat) (width : Int) (sent : List item)
    (hs : s ≠ [])
    (hsym : ∀ b ∈ s, (48 ≤ b ∧ b ≤ 57) ∨ (97 ≤ b ∧ b ≤ 122) ∨ (65 ≤ b ∧ b ≤ 90))
    (hrest : rest = [] ∨ ∃ c t, rest = c :: t ∧
      ¬ ((48 ≤ c ∧ c ≤ 57) ∨ (97 ≤ c ∧ c ≤ 122) ∨ (65 ≤ c ∧ c ≤ 90))) :
    ∃ st l1 more,
      lexSymbol ⟨name, before ++ (s ++ rest), before.length, before.length, width, sent, []⟩ =
        .ok (st, l1) ∧
      l1.items = sent ++ ⟨.itemSymbol, s⟩ :: more ∧
      (rest = [] → st = none ∧ more = [⟨.itemError, bytes "unexpected rune"⟩]) := by
  have hsym1 : ∀ b ∈ s, isSym b = true := fun b hb => (isSym_iff b).mpr (hsym b hb)
  have hgood : Good ⟨name, before ++ (s ++ rest), before.length, before.length, width, sent, []⟩ := by
    simp [Good]
    omega
  obtain ⟨l1, e1, _, _, e4, _⟩ := lexSymbol_spec _ before.length hgood rfl rfl
  simp only [List.drop_left] at e1 e4
  have htw : (s ++ rest).takeWhile isSym = s ∧
      (rest = [] → (s ++ rest).dropWhile isSym = []) := by
    rcases hrest with rfl | ⟨c, t, rfl, hc⟩
    · simpa using takeWhile_all isSym s hsym1
    · have hc1 : isSym c = false := by
        cases h : isSym c with
        | false => rfl
        | true => exact absurd ((isSym_iff c).mp h) hc
      exact ⟨(takeWhile_append_stop isSym s c t hsym1 hc1).1, by simp⟩
  have hitems : ∃ more, (specStep .lexSymbol (s ++ rest)).2.2 = ⟨.itemSymbol, s⟩ :: more ∧
      (rest = [] → (specStep .lexSymbol (s ++ rest)).1 = none ∧
        more = [⟨.itemError, bytes "unexpected rune"⟩]) := by
    cases hd : ((s ++ rest).dropWhile isSym).dropWhile isWS with
    | nil =>
      refine ⟨[errItem "unexpected rune"], ?_, fun _ => ?_⟩
      · simp [specStep, hd, htw.1, symbolItems, hs]
      · simp [specStep, hd, errItem]
    | cons b t =>
      have hne : rest ≠ [] := by
        intro h
        rw [htw.2 h] at hd
        simp at hd
      simp only [specStep, hd, htw.1, symbolItems, if_neg hs]
      split_ifs
      · exact ⟨_, rfl, fun h => absurd h hne⟩
      · exact ⟨_, rfl, fun h => absurd h hne⟩
      · exact ⟨_, rfl, fun h => absurd h hne⟩
  obtain ⟨more, hm1, hm2⟩ := hitems
  refine ⟨_, l1, more, e1, by rw [e4, hm1], fun h => ⟨(hm2 h).1, (hm2 h).2⟩⟩

/-- The input `"asdf"` of the test `TestLexSymbol` as an instance of C12. -/
theorem lexSymbol_maximal_witness :
    bytes "asdf" ≠ [] ∧
    (∀ b ∈ bytes "asdf", (48 ≤ b ∧ b ≤ 57) ∨ (97 ≤ b ∧ b ≤ 122) ∨ (65 ≤ b ∧ b ≤ 90)) ∧
    ∃ st l1 more,
      lexSymbol ⟨[], [] ++ (bytes "asdf" ++ []), 0, 0, 0, [], []⟩ = .ok (st, l1) ∧
      l1.items = [] ++ ⟨.itemSymbol, bytes "asdf"⟩ :: more ∧
      (([] : List Nat) = [] → st = none ∧ more = [⟨.itemError, bytes "unexpected rune"⟩]) :=
  ⟨by decide, by decide,
    lexSymbol_maximal [] [] (bytes "asdf") [] 0 [] (by decide) (by decide) (Or.inl rfl)⟩

/-! ## `peek` and `consumeMany` from any cursor -/

theorem IndexRune_eof (valid : List Nat) : IndexRune valid eof = -1 := by
  simp [IndexRune, eof, RuneError, ValidRune]

/-- What `next` does from any position inside the input, whatever `start`,
`width` and the history are. -/
theorem next_raw (l : lexer) (p : Nat) (hp : l.pos = (p : Int)) (hle : p ≤ l.input.length) :
    ∃ (r : Int) (w : Nat),
      l.next = .ok (r, ({ l with width := (w : Int), pos := l.pos + (w : Int) }).log .next) ∧
      p + w ≤ l.input.length ∧
      (p = l.input.length → r = eof ∧ w = 0) ∧
      (p < l.input.length → r = (DecodeRuneInString (l.input.drop p)).1 ∧
        w = (DecodeRuneInString (l.input.drop p)).2 ∧ 1 ≤ w) := by
  cases hd : l.input.drop p with
  | nil =>
    have hlen : l.input.length ≤ p := by simpa using hd
    refine ⟨eof, 0, ?_, by omega, fun _ => ⟨rfl, rfl⟩, fun h => by omega⟩
    have : (l.input.length : Int) ≤ l.pos := by omega
    simp [lexer.next, this]
  | cons b t =>
    have hlen := drop_length_le _ _ _ _ hd
    simp only [List.length_cons] at hlen
    have hlt : ¬ ((l.input.length : Int) ≤ l.pos) := by omega
    have hsl : slice l.input l.pos l.input.length = some (b :: t) := by
      simp only [slice, hp]
      rw [if_pos (by omega)]
      simp only [Int.toNat_ofNat, hd]
      congr 1
      apply List.take_of_length_le
      simp only [List.length_cons]; omega
    have hw : 1 ≤ (DecodeRuneInString (b :: t)).2 ∧
        (DecodeRuneInString (b :: t)).2 ≤ t.length + 1 := by
      by_cases hb : b < 128
      · rw [decode_ascii b t hb]; simp
      · have := (decode_nonascii b t (by omega)).2
        simpa using this
    refine ⟨(DecodeRuneInString (b :: t)).1, (DecodeRuneInString (b :: t)).2, ?_, by omega,
      fun h => by omega, fun _ => ⟨rfl, rfl, hw.1⟩⟩
    simp [lexer.next, hlt, hsl]

/-- C17: for every cursor state with `0 ≤ pos ≤ len(input)`, `peek` returns the
value that `next` returns in that state (the rune at `pos`, or the end marker
when `pos = len(input)`) and leaves `start` and `pos` unchanged. -/
theorem peek_like_next (l : lexer) (h0 : 0 ≤ l.pos) (h1 : l.pos ≤ (l.input.length : Int)) :
    ∃ r l1 l2, l.next = .ok (r, l1) ∧ l.peek = .ok (r, l2) ∧
      l2.start = l.start ∧ l2.pos = l.pos ∧ l2.input = l.input ∧ l2.items = l.items ∧
      (l.pos = (l.input.length : Int) → r = eof) ∧
      (l.pos < (l.input.length : Int) →
        r = (DecodeRuneInString (l.input.drop l.pos.toNat)).1) := by
  obtain ⟨r, w, hnext, _, he, hd⟩ := next_raw l l.pos.toNat (by omega) (by omega)
  have hl1 : ∃ l1, l.next = .ok (r, l1) ∧ l1.start = l.start ∧ l1.pos - l1.width = l.pos ∧
      l1.input = l.input ∧ l1.items = l.items :=
    ⟨_, hnext, by simp [lexer.log], by simp [lexer.log], by simp [lexer.log],
      by simp [lexer.log]⟩
  obtain ⟨l1, n1, n2, n3, n4, n5⟩ := hl1
  refine ⟨r, l1, l1.backup, n1, ?_, ?_, ?_, ?_, ?_, ?_, ?_⟩
  · simp only [lexer.peek, n1, Result.ok_bind, Result.pure_eq]
  · simpa [lexer.backup, lexer.log] using n2
  · simpa [lexer.backup, lexer.log] using n3
  · simpa [lexer.backup, lexer.log] using n4
  · simpa [lexer.backup, lexer.log] using n5
  · intro h; exact (he (by omega)).1
  · intro h; exact (hd (by omega)).1

/-- The fresh lexer on `"ab"` as an instance of C17. -/
theorem peek_like_next_witness :
    0 ≤ (lexer.init [] (bytes "ab")).pos ∧
    (lexer.init [] (bytes "ab")).pos ≤ ((lexer.init [] (bytes "ab")).input.length : Int) ∧
    ∃ r l1 l2, (lexer.init [] (bytes "ab")).next = .ok (r, l1) ∧
      (lexer.init [] (bytes "ab")).peek = .ok (r, l2) ∧
      l2.start = (lexer.init [] (bytes "ab")).start ∧
      l2.pos = (lexer.init [] (bytes "ab")).pos ∧
      l2.input = (lexer.init [] (bytes "ab")).input ∧
      l2.items = (lexer.init [] (bytes "ab")).items ∧
      ((lexer.init [] (bytes "ab")).pos = ((lexer.init [] (bytes "ab")).input.length : Int) →
        r = eof) ∧
      ((lexer.init [] (bytes "ab")).pos < ((lexer.init [] (bytes "ab")).input.length : Int) →
        r = (DecodeRuneInString
          ((lexer.init [] (bytes "ab")).input.drop (lexer.init [] (bytes "ab")).pos.toNat)).1) :=
  ⟨by decide, by decide, peek_like_next (lexer.init [] (bytes "ab")) (by decide) (by decide)⟩

theorem consumeLoop_raw (valid : List Nat) :
    ∀ (n : Nat) (l : lexer) (p : Nat), l.pos = (p : Int) → p ≤ l.input.length →
      l.input.length - p < n →
      ∃ (l1 : lexer) (q : Nat), consumeLoop valid n l = .ok l1 ∧ l1.input = l.input ∧
        l1.name = l.name ∧ l1.start = l.start ∧ l1.items = l.items ∧
        l1.pos - l1.width = (q : Int) ∧ p ≤ q ∧ q ≤ l.input.length ∧
        Consumed valid l.input p q ∧
        (q = l.input.length ∨
          IndexRune valid (DecodeRuneInString (l.input.drop q)).1 < 0) := by
  intro n
  induction n with
  | zero => intro l p _ _ h; omega
  | succ k ih =>
    intro l p hp hle hk
    obtain ⟨r, w, hnext, hw, he, hd⟩ := next_raw l p hp hle
    simp only [consumeLoop, hnext]
    by_cases hr : IndexRune valid r ≥ 0
    · rw [if_pos hr]
      have hlt : p < l.input.length := by
        by_contra hge
        have := (he (by omega)).1
        rw [this, IndexRune_eof] at hr
        omega
      obtain ⟨d1, d2, d3⟩ := hd hlt
      obtain ⟨l1, q, e1, e2, e3, e4, e5, e6, e7, e8, e9, e10⟩ :=
        ih (({ l with width := (w : Int), pos := l.pos + (w : Int) }).log .next) (p + w)
          (by simp [lexer.log, hp]) (by simpa [lexer.log] using hw)
          (by simp only [lexer.log]; omega)
      simp only [lexer.log] at e2 e3 e4 e5 e8 e9 e10
      refine ⟨l1, q, e1, e2, e3, e4, e5, e6, by omega, e8, ?_, e10⟩
      refine Consumed.read hlt (by rw [← d1]; exact hr) ?_
      rw [← d2]
      exact e9
    · rw [if_neg hr]
      refine ⟨_, p, rfl, ?_, ?_, ?_, ?_, ?_, le_refl _, hle, Consumed.stop p, ?_⟩
      · simp [lexer.log]
      · simp [lexer.log]
      · simp [lexer.log]
      · simp [lexer.log]
      · simp [lexer.log, hp]
      · by_cases hlt : p < l.input.length
        · right
          rw [← (hd hlt).1]
          omega
        · left; omega

/-- C14: for every cursor state with `0 ≤ pos ≤ len(input)` and every set
`valid`, `consumeMany(valid)` returns with `start` unchanged and a position
`p1` with `pos ≤ p1 ≤ len(input)`; every rune of `input[pos:p1]` belongs to
`valid`; and either `p1 = len(input)` or the rune at `p1` does not belong to
`valid`. -/
theorem consumeMany_run (l : lexer) (valid : List Nat) (h0 : 0 ≤ l.pos)
    (h1 : l.pos ≤ (l.input.length : Int)) :
    ∃ l1, l.consumeMany valid = .ok l1 ∧ l1.start = l.start ∧ l1.input = l.input ∧
      l1.items = l.items ∧ l.pos ≤ l1.pos ∧ l1.pos ≤ (l.input.length : Int) ∧
      Consumed valid l.input l.pos.toNat l1.pos.toNat ∧
      (l1.pos = (l.input.length : Int) ∨
        IndexRune valid (DecodeRuneInString (l.input.drop l1.pos.toNat)).1 < 0) := by
  obtain ⟨l1, q, e1, e2, e3, e4, e5, e6, e7, e8, e9, e10⟩ :=
    consumeLoop_raw valid (l.input.length + 1) l l.pos.toNat (by omega) (by omega) (by omega)
  have hpos : l1.backup.pos = (q : Int) := by simp [lexer.backup, lexer.log, e6]
  refine ⟨l1.backup, ?_, ?_, ?_, ?_, ?_, ?_, ?_, ?_⟩
  · simp [lexer.consumeMany, e1]
  · simpa [lexer.backup, lexer.log] using e4
  · simpa [lexer.backup, lexer.log] using e2
  · simpa [lexer.backup, lexer.log] using e5
  · rw [hpos]; omega
  · rw [hpos]; omega
  · rw [hpos]; simpa using e9
  · rw [hpos]
    rcases e10 with h | h
    · left; omega
    · right; simpa using h

/-- The fresh lexer on `"ab1,"` with the set `"ab"` as an instance of C14. -/
theorem consumeMany_run_witness :
    0 ≤ (lexer.init [] (bytes "ab1,")).pos ∧
    (lexer.init [] (bytes "ab1,")).pos ≤ ((lexer.init [] (bytes "ab1,")).input.length : Int) ∧
    ∃ l1, (lexer.init [] (bytes "ab1,")).consumeMany (bytes "ab") = .ok l1 ∧
      l1.start = (lexer.init [] (bytes "ab1,")).start ∧
      l1.input = (lexer.init [] (bytes "ab1,")).input ∧
      l1.items = (lexer.init [] (bytes "ab1,")).items ∧
      (lexer.init [] (bytes "ab1,")).pos ≤ l1.pos ∧
      l1.pos ≤ ((lexer.init [] (bytes "ab1,")).input.length : Int) ∧
      Consumed (bytes "ab") (lexer.init [] (bytes "ab1,")).input
        (lexer.init [] (bytes "ab1,")).pos.toNat l1.pos.toNat ∧
      (l1.pos = ((lexer.init [] (bytes "ab1,")).input.length : Int) ∨
        IndexRune (bytes "ab") (DecodeRuneInString
          ((lexer.init [] (bytes "ab1,")).input.drop l1.pos.toNat)).1 < 0) :=
  ⟨by decide, by decide,
    consumeMany_run (lexer.init [] (bytes "ab1,")) (bytes "ab") (by decide) (by decide)⟩

/-! ## Entering the state `lexSymbol` -/

/-- C15: in every run started by `Lex`, whenever the state `lexSymbol` is
entered the cursor has `start = pos` and the next byte is an ASCII letter or
digit; so `consumeMany` consumes at least one byte, the guard `pos > start`
holds, and the call sends a `Symbol` item with a non-empty text first. -/
theorem symbol_state_entry (name input : List Nat) (l : lexer)
    (h : Reachable name input (some .lexSymbol) l) :
    l.start = l.pos ∧
    (∃ b t, input.drop l.pos.toNat = b :: t ∧
      ((48 ≤ b ∧ b ≤ 57) ∨ (97 ≤ b ∧ b ≤ 122) ∨ (65 ≤ b ∧ b ≤ 90))) ∧
    (∃ l1, l.consumeMany
        (bytes "0123456789abcdefghijklmnopqrstuvwxyzABCDEFGHIJKLMNOPQRSTUVWXYZ") = .ok l1 ∧
      l.pos < l1.pos ∧ l1.pos > l1.start) ∧
    ∃ st l2 sym more, lexSymbol l = .ok (st, l2) ∧ sym ≠ [] ∧
      l2.items = l.items ++ ⟨.itemSymbol, sym⟩ :: more := by
  obtain ⟨i1, _, _, i4⟩ := h.inv
  obtain ⟨_, hg, hsp, hhead⟩ := i4 _ rfl
  obtain ⟨b, t, hd, hb⟩ := hhead rfl
  have hg1 := hg
  obtain ⟨g1, g2, g3, _, _⟩ := hg1
  have hp : l.pos = ((l.pos.toNat : Nat) : Int) := by omega
  have hdl : l.input.drop l.pos.toNat = b :: t := by rw [i1]; exact hd
  have htw : 1 ≤ ((b :: t).takeWhile isSym).length := by simp [List.takeWhile, hb]
  refine ⟨hsp, ⟨b, t, hd, (isSym_iff b).mp hb⟩, ?_, ?_⟩
  · obtain ⟨l1, c1, _, _, c4, _, c6, _⟩ :=
      consumeMany_spec symBytes isSym IndexRune_sym
        (fun b hb => symBytes_lt b (by simpa [isSym] using hb)) l l.pos.toNat hg hp
    rw [hdl] at c6
    refine ⟨l1, c1, ?_, ?_⟩
    · rw [c6]; push_cast; omega
    · rw [c6, c4, hsp]; push_cast; omega
  · obtain ⟨l2, e1, _, _, e4, _⟩ := lexSymbol_spec l l.pos.toNat hg (by omega) hp
    rw [hdl] at e1 e4
    have hne : (b :: t).takeWhile isSym ≠ [] := by
      intro h0; rw [h0] at htw; simp at htw
    have hout : ∃ more, (specStep .lexSymbol (b :: t)).2.2 =
        ⟨.itemSymbol, (b :: t).takeWhile isSym⟩ :: more := by
      cases hdd : ((b :: t).dropWhile isSym).dropWhile isWS with
      | nil => exact ⟨_, by simp only [specStep, hdd, symbolItems, if_neg hne]; rfl⟩
      | cons c r =>
        simp only [specStep, hdd, symbolItems, if_neg hne]
        split_ifs <;> exact ⟨_, rfl⟩
    obtain ⟨more, hm⟩ := hout
    exact ⟨_, l2, _, more, e1, hne, by rw [e4, hm]⟩

/-- The first entry into `lexSymbol` on the input `"[a]"` as an instance of C15. -/
theorem symbol_state_entry_witness :
    Reachable [] (bytes "[a]") (some .lexSymbol) (beforeSymbol (bytes "[a]")) ∧
    ((beforeSymbol (bytes "[a]")).start = (beforeSymbol (bytes "[a]")).pos ∧
    (∃ b t, (bytes "[a]").drop (beforeSymbol (bytes "[a]")).pos.toNat = b :: t ∧
      ((48 ≤ b ∧ b ≤ 57) ∨ (97 ≤ b ∧ b ≤ 122) ∨ (65 ≤ b ∧ b ≤ 90))) ∧
    (∃ l1, (beforeSymbol (bytes "[a]")).consumeMany
        (bytes "0123456789abcdefghijklmnopqrstuvwxyzABCDEFGHIJKLMNOPQRSTUVWXYZ") = .ok l1 ∧
      (beforeSymbol (bytes "[a]")).pos < l1.pos ∧ l1.pos > l1.start) ∧
    ∃ st l2 sym more, lexSymbol (beforeSymbol (bytes "[a]")) = .ok (st, l2) ∧ sym ≠ [] ∧
      l2.items = (beforeSymbol (bytes "[a]")).items ++ ⟨.itemSymbol, sym⟩ :: more) :=
  ⟨Reachable.step
      (Reachable.step Reachable.init (by decide) :
        Reachable [] (bytes "[a]") (some .lexInsideList) (afterOpen (bytes "[a]")))
      (by decide),
    symbol_state_entry [] (bytes "[a]") (beforeSymbol (bytes "[a]"))
      (Reachable.step
        (Reachable.step Reachable.init (by decide) :
          Reachable [] (bytes "[a]") (some .lexInsideList) (afterOpen (bytes "[a]")))
        (by decide))⟩

/-! ## Where `unclosed list` is sent -/

theorem specStep_before_inside (s : stateFn) (rest : List Nat)
    (h : (specStep s rest).1 = some .lexInsideList) :
    ∃ init t, (specStep s rest).2.2 = init ++ [t] ∧
      (t.typ = .itemLeftBracket ∨ t.typ = .itemComma) := by
  cases s with
  | lexText =>
    cases rest with
    | nil => simp [specStep] at h
    | cons b r =>
      by_cases hb : b = 91
      · exact ⟨[], ⟨.itemLeftBracket, [91]⟩, by simp [specStep, hb], Or.inl rfl⟩
      · simp [specStep, hb] at h
  | lexInsideList =>
    cases hd : rest.dropWhile isWS with
    | nil => simp [specStep, hd] at h
    | cons b r =>
      simp only [specStep, hd] at h ⊢
      split_ifs at h ⊢
      · simp at h
      · exact ⟨[], _, rfl, Or.inl rfl⟩
      · simp at h
  | lexSymbol =>
    cases hd : (rest.dropWhile isSym).dropWhile isWS with
    | nil => simp [specStep, hd] at h
    | cons b r =>
      simp only [specStep, hd] at h ⊢
      split_ifs at h ⊢
      · exact ⟨_, _, rfl, Or.inr rfl⟩
      · simp at h
  | lexAfterList =>
    cases hd : rest.dropWhile isWS with
    | nil => simp [specStep, hd] at h
    | cons b r =>
      simp only [specStep, hd] at h ⊢
      split_ifs at h ⊢
      · exact ⟨[], _, rfl, Or.inr rfl⟩
      · simp at h

theorem errItem_ne_unclosed :
    errItem "unexpected rune" ≠ errItem "unclosed list" ∧
    errItem "unexpected initial symbol" ≠ errItem "unclosed list" := by
  decide

/-- Only `lexInsideList` sends `Error("unclosed list")`, and then it sends
nothing else. -/
theorem specStep_unclosed (s : stateFn) (rest : List Nat) (init : List item)
    (h : (specStep s rest).2.2 = init ++ [errItem "unclosed list"]) :
    s = .lexInsideList ∧ init = [] := by
  have key : ∀ (xs : List item) (y : item), xs ++ [y] = init ++ [errItem "unclosed list"] →
      y = errItem "unclosed list" ∧ init = xs := by
    intro xs y hxy
    obtain ⟨h1, h2⟩ := List.append_inj' hxy rfl
    exact ⟨by simpa using h2, h1.symm⟩
  have key1 : ∀ (y : item), [y] = init ++ [errItem "unclosed list"] →
      y = errItem "unclosed list" ∧ init = [] := fun y hy => key [] y (by simpa using hy)
  cases s with
  | lexText =>
    exfalso
    cases rest with
    | nil =>
      have := (key1 _ (by simpa [specStep] using h)).1
      simp [errItem] at this
    | cons b r =>
      by_cases hb : b = 91
      · have := (key1 _ (by simpa [specStep, hb] using h)).1
        simp [errItem] at this
      · exact errItem_ne_unclosed.2 (key1 _ (by simpa [specStep, hb] using h)).1
  | lexInsideList =>
    refine ⟨rfl, ?_⟩
    cases hd : rest.dropWhile isWS with
    | nil => simpa [specStep, hd] using h
    | cons b r =>
      simp only [specStep, hd] at h
      split_ifs at h
      · have := congrArg List.length h
        simp at this
      · exact (key1 _ h).2
      · exact (key1 _ h).2
      · exact (key1 _ h).2
  | lexSymbol =>
    exfalso
    cases hd : (rest.dropWhile isSym).dropWhile isWS with
    | nil =>
      simp only [specStep, hd] at h
      exact errItem_ne_unclosed.1 (key _ _ h).1
    | cons b r =>
      simp only [specStep, hd] at h
      split_ifs at h
      · have := (key _ _ h).1
        simp [errItem] at this
      · have := (key _ _ h).1
        simp [errItem] at this
      · exact errItem_ne_unclosed.1 (key _ _ h).1
  | lexAfterList =>
    exfalso
    cases hd : rest.dropWhile isWS with
    | nil =>
      have := (key1 _ (by simpa [specStep, hd] using h)).1
      simp [errItem] at this
    | cons b r =>
      simp only [specStep, hd] at h
      split_ifs at h
      · have := (key1 _ h).1
        simp [errItem] at this
      · have := (key1 _ h).1
        simp [errItem] at this
      · exact errItem_ne_unclosed.1 (key1 _ h).1

theorem specRun_unclosed : ∀ (n : Nat) (s : stateFn) (rest : List Nat)
    (toks sent : List item), specRun n (some s) rest = some toks →
    (s = .lexInsideList → ∃ p0 t, sent = p0 ++ [t] ∧
      (t.typ = .itemLeftBracket ∨ t.typ = .itemComma)) →
    ∀ init, sent ++ toks = init ++ [errItem "unclosed list"] →
    ∃ init1 t, init = init1 ++ [t] ∧ (t.typ = .itemLeftBracket ∨ t.typ = .itemComma) := by
  intro n
  induction n with
  | zero => intro s rest toks sent h; simp [specRun] at h
  | succ k ih =>
    intro s rest toks sent h hsent init hinit
    simp only [specRun] at h
    cases hst : (specStep s rest).1 with
    | none =>
      rw [hst] at h
      simp only [specRun, Option.some.injEq, List.append_nil] at h
      obtain ⟨oi, last, e1, _, _⟩ := (specStep_shape s rest).2 hst
      rw [← h, e1, ← List.append_assoc] at hinit
      obtain ⟨h1, h2⟩ := List.append_inj' hinit rfl
      have hlast : last = errItem "unclosed list" := by simpa using h2
      rw [hlast] at e1
      obtain ⟨hs, hoi⟩ := specStep_unclosed s rest oi e1
      obtain ⟨p0, t, hp0, ht⟩ := hsent hs
      exact ⟨p0, t, by rw [← h1, hoi, List.append_nil, hp0], ht⟩
    | some s1 =>
      rw [hst] at h
      cases hm : specRun k (some s1) (rest.drop (specStep s rest).2.1) with
      | none => rw [hm] at h; simp at h
      | some more =>
        rw [hm] at h
        simp only [Option.some.injEq] at h
        refine ih s1 _ more (sent ++ (specStep s rest).2.2) hm ?_ init ?_
        · intro hs1
          subst hs1
          obtain ⟨i, t, hi, ht⟩ := specStep_before_inside s rest hst
          exact ⟨sent ++ i, t, by rw [hi, List.append_assoc], ht⟩
        · rw [List.append_assoc, h]; exact hinit

/-- C19: for every input, if the stream produced by `Lex` ends with
`Error("unclosed list")`, the item right before that `Error` is a `LeftBracket`
or a `Comma`. -/
theorem lex_unclosed_after_opener (name input : List Nat) (init : List item)
    (h : LexItems name input = .ok (init ++ [⟨.itemError, bytes "unclosed list"⟩])) :
    ∃ init1 t, init = init1 ++ [t] ∧ (t.typ = .itemLeftBracket ∨ t.typ = .itemComma) := by
  rw [LexItems_eq] at h
  simp only [Result.ok.injEq] at h
  refine specRun_unclosed _ .lexText input (specLex input) [] (specRun_lex input)
    (by simp) init ?_
  rw [List.nil_append, h]
  rfl

/-- The input `"[a,"` as an instance of C19: the `Error` follows a `Comma`. -/
theorem lex_unclosed_after_opener_witness :
    LexItems [] (bytes "[a,") =
      .ok ([⟨.itemLeftBracket, bytes "["⟩, ⟨.itemSymbol, bytes "a"⟩,
        ⟨.itemComma, bytes ","⟩] ++ [⟨.itemError, bytes "unclosed list"⟩]) ∧
    ∃ init1 t, [(⟨.itemLeftBracket, bytes "["⟩ : item), ⟨.itemSymbol, bytes "a"⟩,
        ⟨.itemComma, bytes ","⟩] = init1 ++ [t] ∧
      (t.typ = .itemLeftBracket ∨ t.typ = .itemComma) :=
  ⟨by rw [LexItems_eq]; decide,
    lex_unclosed_after_opener [] (bytes "[a,") _ (by rw [LexItems_eq]; decide)⟩

/-! ## The texts of the items spell the input -/

theorem texts_append (xs ys : List item) : texts (xs ++ ys) = texts xs ++ texts ys := by
  induction xs with
  | nil => rfl
  | cons t ts ih => simp [texts, ih]

theorem stripWS_append (xs ys : List Nat) : stripWS (xs ++ ys) = stripWS xs ++ stripWS ys := by
  simp [stripWS]

theorem stripWS_ws (xs : List Nat) (h : ∀ b ∈ xs, isWS b = true) : stripWS xs = [] := by
  simp only [stripWS, List.filter_eq_nil_iff]
  intro b hb
  simp [h b hb]

theorem stripWS_sym (xs : List Nat) (h : ∀ b ∈ xs, isSym b = true) : stripWS xs = xs := by
  simp only [stripWS, List.filter_eq_self]
  intro b hb
  simp [isSym_not_isWS (h b hb)]

theorem stripWS_one (b : Nat) (h : isWS b = false) : stripWS [b] = [b] := by
  simp [stripWS, h]

theorem dropWhile_head (P : Nat → Bool) (l : List Nat) (b : Nat) (r : List Nat)
    (h : l.dropWhile P = b :: r) : P b = false := by
  induction l with
  | nil => simp at h
  | cons a t ih =>
    by_cases ha : P a = true
    · simp only [List.dropWhile, ha] at h; exact ih h
    · simp only [List.dropWhile, ha] at h
      simp only [List.cons.injEq] at h
      rw [← h.1]; simpa using ha

/-- White space, then one more byte: what is left after removing the white
space is that byte. -/
theorem stripWS_take_sep (rest : List Nat) (b : Nat) (r : List Nat)
    (hd : rest.dropWhile isWS = b :: r) :
    stripWS (rest.take ((rest.takeWhile isWS).length + 1)) = [b] := by
  have hrest : rest = rest.takeWhile isWS ++ b :: r := by
    rw [← hd, List.takeWhile_append_dropWhile]
  have hsub : rest.take ((rest.takeWhile isWS).length + 1) = rest.takeWhile isWS ++ [b] :=
    take_split rest _ _ hrest 1
  rw [hsub, stripWS_append, stripWS_ws _ (mem_takeWhile_imp isWS rest),
    stripWS_one b (dropWhile_head isWS rest b r hd)]
  rfl

theorem texts_symbolItems (sym : List Nat) : texts (symbolItems sym) = sym := by
  unfold symbolItems
  split_ifs with h
  · simp [texts, h]
  · simp [texts]

/-- A symbol run, white space, then one more byte: what is left after removing
the white space is the run and that byte. -/
theorem stripWS_take_symbol_sep (rest : List Nat) (b : Nat) (r : List Nat)
    (hd : (rest.dropWhile isSym).dropWhile isWS = b :: r) :
    stripWS (rest.take ((rest.takeWhile isSym).length +
      ((rest.dropWhile isSym).takeWhile isWS).length + 1)) = rest.takeWhile isSym ++ [b] := by
  have hrest : rest = rest.takeWhile isSym ++ rest.dropWhile isSym :=
    (List.takeWhile_append_dropWhile isSym rest).symm
  have hsub : rest.take ((rest.takeWhile isSym).length +
      ((rest.dropWhile isSym).takeWhile isWS).length + 1) =
      rest.takeWhile isSym ++ (rest.dropWhile isSym).take
        (((rest.dropWhile isSym).takeWhile isWS).length + 1) := by
    rw [Nat.add_assoc]
    exact take_split rest _ _ hrest _
  rw [hsub, stripWS_append, stripWS_sym _ (mem_takeWhile_imp isSym rest),
    stripWS_take_sep _ b r hd]

/-- The texts sent by a call that returns a state are the bytes it consumed,
white space removed. -/
theorem specStep_texts (s s1 : stateFn) (rest : List Nat)
    (h : (specStep s rest).1 = some s1) :
    texts (specStep s rest).2.2 = stripWS (rest.take (specStep s rest).2.1) := by
  cases s with
  | lexText =>
    cases rest with
    | nil => simp [specStep] at h
    | cons b t =>
      by_cases hb : b = 91
      · subst hb
        simp only [specStep, if_true, texts, List.append_nil, List.take_succ_cons,
          List.take_zero]
        exact (stripWS_one 91 (by decide)).symm
      · simp [specStep, hb] at h
  | lexInsideList =>
    cases hd : rest.dropWhile isWS with
    | nil => simp [specStep, hd] at h
    | cons b t =>
      have hsep := stripWS_take_sep rest b t hd
      simp only [specStep, hd] at h ⊢
      split_ifs at h ⊢ with h1 h2 h3
      · rw [take_length_takeWhile, stripWS_ws _ (mem_takeWhile_imp isWS rest)]
        rfl
      · rw [hsep, h2]; rfl
      · rw [hsep, h3]; rfl
  | lexSymbol =>
    cases hd : (rest.dropWhile isSym).dropWhile isWS with
    | nil => simp [specStep, hd] at h
    | cons b t =>
      have hsep := stripWS_take_symbol_sep rest b t hd
      simp only [specStep, hd] at h ⊢
      split_ifs at h ⊢ with h1 h2
      · rw [hsep, h1, texts_append, texts_symbolItems]; rfl
      · rw [hsep, h2, texts_append, texts_symbolItems]; rfl
  | lexAfterList =>
    cases hd : rest.dropWhile isWS with
    | nil => simp [specStep, hd] at h
    | cons b t =>
      have hsep := stripWS_take_sep rest b t hd
      simp only [specStep, hd] at h ⊢
      split_ifs at h ⊢ with h1 h2
      · rw [hsep, h1]; rfl
      · rw [hsep, h2]; rfl

/-- A call that sends `EndOfInput` sends nothing else, and only white space
was left. -/
theorem specStep_texts_eof (s : stateFn) (rest : List Nat)
    (hn : (specStep s rest).1 = none)
    (h : ∃ t ∈ (specStep s rest).2.2, t.typ = .itemEOF) :
    texts (specStep s rest).2.2 = stripWS rest := by
  obtain ⟨t, ht, hty⟩ := h
  cases s with
  | lexText =>
    cases rest with
    | nil => rfl
    | cons b r =>
      by_cases hb : b = 91
      · simp [specStep, hb] at hn
      · simp [specStep, hb] at ht; subst ht; simp [errItem] at hty
  | lexInsideList =>
    cases hd : rest.dropWhile isWS with
    | nil => simp [specStep, hd] at ht; subst ht; simp [errItem] at hty
    | cons b r =>
      simp only [specStep, hd] at ht
      split_ifs at ht <;> simp at ht <;> subst ht <;> simp [errItem] at hty
  | lexSymbol =>
    have hsym : t ∉ symbolItems (rest.takeWhile isSym) := by
      intro hm
      unfold symbolItems at hm
      split_ifs at hm
      · simp at hm
      · simp only [List.mem_singleton] at hm; subst hm; simp at hty
    cases hd : (rest.dropWhile isSym).dropWhile isWS with
    | nil =>
      simp only [specStep, hd, List.mem_append, List.mem_singleton] at ht
      rcases ht with ht | ht
      · exact absurd ht hsym
      · subst ht; simp [errItem] at hty
    | cons b r =>
      simp only [specStep, hd] at ht
      split_ifs at ht <;> simp only [List.mem_append, List.mem_singleton] at ht <;>
        rcases ht with ht | ht <;> first
          | exact absurd ht hsym
          | (subst ht; simp [errItem] at hty)
  | lexAfterList =>
    cases hd : rest.dropWhile isWS with
    | nil =>
      rw [stripWS_ws rest (all_ws_of_dropWhile_nil rest hd)]
      simp [specStep, hd, texts]
    | cons b r =>
      simp only [specStep, hd] at ht
      split_ifs at ht <;> simp at ht <;> subst ht <;> simp [errItem] at hty

theorem specRun_texts : ∀ (n : Nat) (s : stateFn) (rest : List Nat) (toks : List item),
    specRun n (some s) rest = some toks → (∃ t ∈ toks, t.typ = .itemEOF) →
    texts toks = stripWS rest := by
  intro n
  induction n with
  | zero => intro s rest toks h; simp [specRun] at h
  | succ k ih =>
    intro s rest toks h heof
    simp only [specRun] at h
    cases hst : (specStep s rest).1 with
    | none =>
      rw [hst] at h
      simp only [specRun, Option.some.injEq, List.append_nil] at h
      rw [← h] at heof ⊢
      exact specStep_texts_eof s rest hst heof
    | some s1 =>
      rw [hst] at h
      cases hm : specRun k (some s1) (rest.drop (specStep s rest).2.1) with
      | none => rw [hm] at h; simp at h
      | some more =>
        rw [hm] at h
        simp only [Option.some.injEq] at h
        obtain ⟨t, ht, hty⟩ := heof
        rw [← h] at ht
        have hmore : ∃ t ∈ more, t.typ = .itemEOF := by
          rcases List.mem_append.mp ht with ht | ht
          · have := (specStep_shape s rest).1 (by rw [hst]; simp) t ht
            simp [item.isFinal, hty] at this
          · exact ⟨t, ht, hty⟩
        rw [← h, texts_append, ih s1 _ more hm hmore, specStep_texts s s1 rest hst,
          ← stripWS_append, List.take_append_drop]

/-- C13: for every input whose stream ends with `EndOfInput`, the
concatenation of the texts of all items sent, in order, is the input with
every space, tab, carriage return and newline removed. -/
theorem lex_texts_strip_whitespace (name input : List Nat) (init : List item) (last : item)
    (h : LexItems name input = .ok (init ++ [last])) (hl : last.typ = .itemEOF) :
    texts (init ++ [last]) =
      input.filter (fun b => decide (b ≠ 32 ∧ b ≠ 9 ∧ b ≠ 13 ∧ b ≠ 10)) := by
  rw [LexItems_eq] at h
  simp only [Result.ok.injEq] at h
  have hrun := specRun_lex input
  rw [h] at hrun
  rw [specRun_texts _ _ _ _ hrun ⟨last, by simp, hl⟩]
  unfold stripWS
  congr 1
  funext b
  cases hw : isWS b with
  | true => have := (isWS_iff b).mp hw; simp; omega
  | false =>
    have : ¬ (b = 32 ∨ b = 9 ∨ b = 13 ∨ b = 10) := fun h1 => by
      rw [(isWS_iff b).mpr h1] at hw; cases hw
    simp; omega

/-- The input `"[ a,b, c ]"` of the test `TestLexTriplet` as an instance of C13. -/
theorem lex_texts_strip_whitespace_witness :
    LexItems [] (bytes "[ a,b, c ]") =
      .ok ([⟨.itemLeftBracket, bytes "["⟩, ⟨.itemSymbol, bytes "a"⟩, ⟨.itemComma, bytes ","⟩,
        ⟨.itemSymbol, bytes "b"⟩, ⟨.itemComma, bytes ","⟩, ⟨.itemSymbol, bytes "c"⟩,
        ⟨.itemRightBracket, bytes "]"⟩] ++ [⟨.itemEOF, bytes ""⟩]) ∧
    (⟨.itemEOF, bytes ""⟩ : item).typ = .itemEOF ∧
    texts ([⟨.itemLeftBracket, bytes "["⟩, ⟨.itemSymbol, bytes "a"⟩, ⟨.itemComma, bytes ","⟩,
        ⟨.itemSymbol, bytes "b"⟩, ⟨.itemComma, bytes ","⟩, ⟨.itemSymbol, bytes "c"⟩,
        ⟨.itemRightBracket, bytes "]"⟩] ++ [⟨.itemEOF, bytes ""⟩]) =
      (bytes "[ a,b, c ]").filter (fun b => decide (b ≠ 32 ∧ b ≠ 9 ∧ b ≠ 13 ∧ b ≠ 10)) :=
  ⟨by rw [LexItems_eq]; decide, rfl,
    lex_texts_strip_whitespace [] (bytes "[ a,b, c ]") _ _ (by rw [LexItems_eq]; decide) rfl⟩

/-! ## The discipline of `backup` -/

theorem BackupsFollowNext.nil : BackupsFollowNext [] := by
  intro before e after h
  simp at h

theorem BackupsFollowNext.snoc {tr : List Event} {e : Event} (h : BackupsFollowNext tr)
    (he : e.op = .backup → ∃ (earlier : List Event) (n : Event), tr = earlier ++ [n] ∧
      n.op = .next ∧ e.pos = n.pos - n.width ∧ e.start = n.start ∧ e.width = n.width) :
    BackupsFollowNext (tr ++ [e]) := by
  intro before x after hx hop
  rcases List.eq_nil_or_concat after with rfl | ⟨a1, y, rfl⟩
  · have h1 : tr ++ [e] = before ++ [x] := hx
    obtain ⟨h2, h3⟩ := List.append_inj' h1 rfl
    simp only [List.cons.injEq, and_true] at h3
    subst h3
    rw [← h2]
    exact he hop
  · have h1 : tr ++ [e] = (before ++ x :: a1) ++ [y] := by
      rw [hx]; simp
    obtain ⟨h2, _⟩ := List.append_inj' h1 rfl
    exact h before x a1 h2 hop

theorem backups_log {l l1 : lexer} (h : BackupsFollowNext l.trace)
    (htr : l1.trace = l.trace) (o : Op) (ho : o ≠ .backup) :
    BackupsFollowNext (l1.log o).trace := by
  simp only [lexer.log, htr]
  exact h.snoc (fun hop => absurd hop ho)

theorem next_trace {l l1 : lexer} {r : Int} (hn : l.next = .ok (r, l1))
    (h : BackupsFollowNext l.trace) : BackupsFollowNext l1.trace ∧ LastNext l1 := by
  unfold lexer.next at hn
  split_ifs at hn with h1
  · simp only [Result.ok.injEq, Prod.mk.injEq] at hn
    obtain ⟨_, rfl⟩ := hn
    refine ⟨?_, ⟨l.trace, by simp [lexer.log]⟩⟩
    refine backups_log h ?_ _ (by decide)
    rfl
  · cases hs : slice l.input l.pos l.input.length with
    | none => rw [hs] at hn; simp at hn
    | some rest =>
      rw [hs] at hn
      simp only [Result.ok.injEq, Prod.mk.injEq] at hn
      obtain ⟨_, rfl⟩ := hn
      refine ⟨?_, ⟨l.trace, by simp [lexer.log]⟩⟩
      refine backups_log h ?_ _ (by decide)
      rfl

theorem backup_trace {l : lexer} (h : BackupsFollowNext l.trace) (hl : LastNext l) :
    BackupsFollowNext l.backup.trace := by
  obtain ⟨earlier, he⟩ := hl
  simp only [lexer.backup, lexer.log]
  exact h.snoc (fun _ => ⟨earlier, _, he, rfl, rfl, rfl, rfl⟩)

theorem ignore_trace {l : lexer} (h : BackupsFollowNext l.trace) :
    BackupsFollowNext l.ignore.trace := by
  refine backups_log h ?_ _ (by decide)
  rfl

theorem emit_trace {l l1 : lexer} {t : itemType} (he : l.emit t = .ok l1)
    (h : BackupsFollowNext l.trace) : BackupsFollowNext l1.trace := by
  unfold lexer.emit at he
  cases hs : slice l.input l.start l.pos with
  | none => rw [hs] at he; simp at he
  | some v =>
    rw [hs] at he
    simp only [Result.ok.injEq] at he
    subst he
    refine backups_log h ?_ _ (by decide)
    rfl

theorem errorf_trace {l : lexer} (msg : List Nat) (h : BackupsFollowNext l.trace) :
    BackupsFollowNext (l.errorf msg).2.trace := by
  refine backups_log h ?_ _ (by decide)
  rfl

theorem consumeLoop_trace (valid : List Nat) : ∀ (n : Nat) (l l1 : lexer),
    consumeLoop valid n l = .ok l1 → BackupsFollowNext l.trace →
    BackupsFollowNext l1.trace ∧ LastNext l1 := by
  intro n
  induction n with
  | zero => intro l l1 h; simp [consumeLoop] at h
  | succ k ih =>
    intro l l1 h ht
    simp only [consumeLoop] at h
    cases hn : l.next with
    | ok x =>
      obtain ⟨r, l2⟩ := x
      rw [hn] at h
      obtain ⟨t2, n2⟩ := next_trace hn ht
      simp only at h
      split_ifs at h
      · exact ih l2 l1 h t2
      · simp only [Result.ok.injEq] at h
        subst h
        exact ⟨t2, n2⟩
    | panic => rw [hn] at h; simp at h
    | fuel => rw [hn] at h; simp at h

theorem bind_eq_ok {α β : Type} {x : Result α} {f : α → Result β} {b : β}
    (h : (x >>= f) = .ok b) : ∃ a, x = .ok a ∧ f a = .ok b := by
  cases x with
  | ok a => exact ⟨a, rfl, h⟩
  | panic => cases h
  | fuel => cases h

theorem consumeMany_trace {l l1 : lexer} {valid : List Nat}
    (hc : l.consumeMany valid = .ok l1) (h : BackupsFollowNext l.trace) :
    BackupsFollowNext l1.trace := by
  unfold lexer.consumeMany at hc
  obtain ⟨l2, h1, h2⟩ := bind_eq_ok hc
  simp only [Result.pure_eq, Result.ok.injEq] at h2
  subst h2
  obtain ⟨t2, n2⟩ := consumeLoop_trace valid _ l l2 h1 h
  exact backup_trace t2 n2

theorem consumeWS_trace {l l1 : lexer} (hc : l.consumeWS = .ok l1)
    (h : BackupsFollowNext l.trace) : BackupsFollowNext l1.trace := by
  unfold lexer.consumeWS at hc
  obtain ⟨l2, h1, h2⟩ := bind_eq_ok hc
  simp only [Result.pure_eq, Result.ok.injEq] at h2
  subst h2
  exact ignore_trace (consumeMany_trace h1 h)

theorem lexText_trace {l l1 : lexer} {s1 : Option stateFn} (hc : lexText l = .ok (s1, l1))
    (h : BackupsFollowNext l.trace) : BackupsFollowNext l1.trace := by
  unfold lexText at hc
  obtain ⟨⟨r, l2⟩, hn, hc⟩ := bind_eq_ok hc
  have t2 := (next_trace hn h).1
  simp only at hc
  split_ifs at hc
  · obtain ⟨l3, he, hc⟩ := bind_eq_ok hc
    simp only [Result.pure_eq, Result.ok.injEq, Prod.mk.injEq] at hc
    obtain ⟨_, rfl⟩ := hc
    exact emit_trace he t2
  · obtain ⟨l3, he, hc⟩ := bind_eq_ok hc
    simp only [Result.pure_eq, Result.ok.injEq, Prod.mk.injEq] at hc
    obtain ⟨_, rfl⟩ := hc
    exact emit_trace he t2
  · simp only [Result.pure_eq, Result.ok.injEq] at hc
    rw [← show (l2.errorf (bytes "unexpected initial symbol")).2 = l1 by rw [hc]]
    exact errorf_trace _ t2

theorem lexInsideList_trace {l l1 : lexer} {s1 : Option stateFn}
    (hc : lexInsideList l = .ok (s1, l1)) (h : BackupsFollowNext l.trace) :
    BackupsFollowNext l1.trace := by
  unfold lexInsideList at hc
  obtain ⟨l0, hw, hc⟩ := bind_eq_ok hc
  have t0 := consumeWS_trace hw h
  obtain ⟨⟨r, l2⟩, hn, hc⟩ := bind_eq_ok hc
  obtain ⟨t2, n2⟩ := next_trace hn t0
  simp only at hc
  split_ifs at hc
  · simp only [Result.pure_eq, Result.ok.injEq, Prod.mk.injEq] at hc
    obtain ⟨_, rfl⟩ := hc
    exact backup_trace t2 n2
  · obtain ⟨l3, he, hc⟩ := bind_eq_ok hc
    simp only [Result.pure_eq, Result.ok.injEq, Prod.mk.injEq] at hc
    obtain ⟨_, rfl⟩ := hc
    exact emit_trace he t2
  · obtain ⟨l3, he, hc⟩ := bind_eq_ok hc
    simp only [Result.pure_eq, Result.ok.injEq, Prod.mk.injEq] at hc
    obtain ⟨_, rfl⟩ := hc
    exact emit_trace he t2
  · simp only [Result.pure_eq, Result.ok.injEq] at hc
    rw [← show (l2.errorf (bytes "unclosed list")).2 = l1 by rw [hc]]
    exact errorf_trace _ t2
  · simp only [Result.pure_eq, Result.ok.injEq] at hc
    rw [← show (l2.errorf (bytes "unexpected rune")).2 = l1 by rw [hc]]
    exact errorf_trace _ t2

theorem lexAfterList_trace {l l1 : lexer} {s1 : Option stateFn}
    (hc : lexAfterList l = .ok (s1, l1)) (h : BackupsFollowNext l.trace) :
    BackupsFollowNext l1.trace := by
  unfold lexAfterList at hc
  obtain ⟨l0, hw, hc⟩ := bind_eq_ok hc
  have t0 := consumeWS_trace hw h
  obtain ⟨⟨r, l2⟩, hn, hc⟩ := bind_eq_ok hc
  have t2 := (next_trace hn t0).1
  simp only at hc
  split_ifs at hc
  · obtain ⟨l3, he, hc⟩ := bind_eq_ok hc
    simp only [Result.pure_eq, Result.ok.injEq, Prod.mk.injEq] at hc
    obtain ⟨_, rfl⟩ := hc
    exact emit_trace he t2
  · obtain ⟨l3, he, hc⟩ := bind_eq_ok hc
    simp only [Result.pure_eq, Result.ok.injEq, Prod.mk.injEq] at hc
    obtain ⟨_, rfl⟩ := hc
    exact emit_trace he t2
  · obtain ⟨l3, he, hc⟩ := bind_eq_ok hc
    simp only [Result.pure_eq, Result.ok.injEq, Prod.mk.injEq] at hc
    obtain ⟨_, rfl⟩ := hc
    exact emit_trace he t2
  · simp only [Result.pure_eq, Result.ok.injEq] at hc
    rw [← show (l2.errorf (bytes "unexpected rune")).2 = l1 by rw [hc]]
    exact errorf_trace _ t2

theorem lexSymbolTail_trace {l l1 : lexer} {s1 : Option stateFn}
    (hc : lexSymbolTail l = .ok (s1, l1)) (h : BackupsFollowNext l.trace) :
    BackupsFollowNext l1.trace := by
  unfold lexSymbolTail at hc
  obtain ⟨l0, hw, hc⟩ := bind_eq_ok hc
  have t0 := consumeWS_trace hw h
  obtain ⟨⟨r, l2⟩, hn, hc⟩ := bind_eq_ok hc
  have t2 := (next_trace hn t0).1
  simp only at hc
  split_ifs at hc
  · obtain ⟨l3, he, hc⟩ := bind_eq_ok hc
    simp only [Result.pure_eq, Result.ok.injEq, Prod.mk.injEq] at hc
    obtain ⟨_, rfl⟩ := hc
    exact emit_trace he t2
  · obtain ⟨l3, he, hc⟩ := bind_eq_ok hc
    simp only [Result.pure_eq, Result.ok.injEq, Prod.mk.injEq] at hc
    obtain ⟨_, rfl⟩ := hc
    exact emit_trace he t2
  · simp only [Result.pure_eq, Result.ok.injEq] at hc
    rw [← show (l2.errorf (bytes "unexpected rune")).2 = l1 by rw [hc]]
    exact errorf_trace _ t2

theorem lexSymbol_trace {l l1 : lexer} {s1 : Option stateFn}
    (hc : lexSymbol l = .ok (s1, l1)) (h : BackupsFollowNext l.trace) :
    BackupsFollowNext l1.trace := by
  rw [lexSymbol_eq] at hc
  obtain ⟨l0, hm, hc⟩ := bind_eq_ok hc
  have t0 := consumeMany_trace hm h
  obtain ⟨l2, he, hc⟩ := bind_eq_ok hc
  have t2 : BackupsFollowNext l2.trace := by
    split_ifs at he
    · exact emit_trace he t0
    · simp only [Result.pure_eq, Result.ok.injEq] at he
      subst he
      exact t0
  exact lexSymbolTail_trace hc t2

theorem call_trace {s : stateFn} {l l1 : lexer} {s1 : Option stateFn}
    (hc : s.call l = .ok (s1, l1)) (h : BackupsFollowNext l.trace) :
    BackupsFollowNext l1.trace := by
  cases s with
  | lexText => exact lexText_trace hc h
  | lexSymbol => exact lexSymbol_trace hc h
  | lexInsideList => exact lexInsideList_trace hc h
  | lexAfterList => exact lexAfterList_trace hc h

theorem Reachable.trace {name input : List Nat} {st : Option stateFn} {l : lexer}
    (h : Reachable name input st l) : BackupsFollowNext l.trace := by
  induction h with
  | init => exact BackupsFollowNext.nil
  | step _ hc ih => exact call_trace hc ih

/-- C16: in every run started by `Lex`, `backup` is never called twice without
a `next` in between: in the history of primitive operations every `backup`
comes right after a `next`, and it moves `pos` back by exactly the width that
this `next` recorded, leaving `start` and `width` as they were. -/
theorem backup_follows_next (name input : List Nat) (st : Option stateFn) (l : lexer)
    (h : Reachable name input st l) :
    ∀ (before : List Event) (e : Event) (after : List Event),
      l.trace = before ++ e :: after → e.op = .backup →
      ∃ (earlier : List Event) (n : Event), before = earlier ++ [n] ∧ n.op = .next ∧
        e.pos = n.pos - n.width ∧ e.start = n.start ∧ e.width = n.width :=
  h.trace

/-- The first entry into `lexSymbol` on the input `"[a]"`, with two `backup`
operations in its history, as an instance of C16. -/
theorem backup_follows_next_witness :
    Reachable [] (bytes "[a]") (some .lexSymbol) (beforeSymbol (bytes "[a]")) ∧
    ∀ (before : List Event) (e : Event) (after : List Event),
      (beforeSymbol (bytes "[a]")).trace = before ++ e :: after → e.op = .backup →
      ∃ (earlier : List Event) (n : Event), before = earlier ++ [n] ∧ n.op = .next ∧
        e.pos = n.pos - n.width ∧ e.start = n.start ∧ e.width = n.width :=
  ⟨Reachable.step
      (Reachable.step Reachable.init (by decide) :
        Reachable [] (bytes "[a]") (some .lexInsideList) (afterOpen (bytes "[a]")))
      (by decide),
    backup_follows_next [] (bytes "[a]") (some .lexSymbol) (beforeSymbol (bytes "[a]"))
      (Reachable.step
        (Reachable.step Reachable.init (by decide) :
          Reachable [] (bytes "[a]") (some .lexInsideList) (afterOpen (bytes "[a]")))
        (by decide))⟩

/-! ## The symbol alphabet of `isSymbolRune` and of `lexSymbol` -/

theorem takeWhile_append_all (P : Nat → Bool) (s rest : List Nat) (h : ∀ b ∈ s, P b = true) :
    (s ++ rest).takeWhile P = s ++ rest.takeWhile P := by
  induction s with
  | nil => rfl
  | cons a t ih =>
    have ha : P a = true := h a (by simp)
    simp [List.takeWhile, ha, ih (fun b hb => h b (by simp [hb]))]

theorem takeWhile_append_dropWhile (P : Nat → Bool) (l : List Nat) :
    l = l.takeWhile P ++ l.dropWhile P := by
  simp

/-- The items one call of `lexSymbol` sends, in the functional reading: the
`Symbol` of the leading run of alphabet bytes, if the run is not empty, and
then one item that is not a `Symbol`. -/
theorem specStep_symbol_items (rest : List Nat) :
    ∃ last, (specStep .lexSymbol rest).2.2 = symbolItems (rest.takeWhile isSym) ++ [last] ∧
      last.typ ≠ .itemSymbol := by
  cases hd : (rest.dropWhile isSym).dropWhile isWS with
  | nil => exact ⟨errItem "unexpected rune", by simp [specStep, hd], by simp [errItem]⟩
  | cons b t =>
    simp only [specStep, hd]
    split_ifs
    · exact ⟨_, rfl, by simp⟩
    · exact ⟨_, rfl, by simp⟩
    · exact ⟨_, rfl, by simp [errItem]⟩

/-- The rune decoded at the head of a string is in the alphabet of
`isSymbolRune` exactly when the first byte is one of the alphabet bytes. -/
theorem isSymbolRune_decode (b : Nat) (t : List Nat) :
    isSymbolRune (DecodeRuneInString (b :: t)).1 = isSym b := by
  by_cases hb : b < 128
  · rw [decode_ascii b t hb]
    cases h : isSym b with
    | true => exact (isSymbolRune_iff _).mpr ⟨b, rfl, h⟩
    | false =>
      cases h1 : isSymbolRune (b : Int) with
      | false => rfl
      | true =>
        obtain ⟨c, hc, hc1⟩ := (isSymbolRune_iff _).mp h1
        have : b = c := by exact_mod_cast hc
        subst this
        rw [h] at hc1
        exact absurd hc1 (by simp)
  · have hd := (decode_nonascii b t (by omega)).1
    have h0 : isSym b = false := by
      cases h : isSym b with
      | false => rfl
      | true =>
        have := symBytes_lt b (by simpa [isSym] using h)
        omega
    rw [h0]
    cases h1 : isSymbolRune (DecodeRuneInString (b :: t)).1 with
    | false => rfl
    | true =>
      obtain ⟨c, hc, hc1⟩ := (isSymbolRune_iff _).mp h1
      have := symBytes_lt c (by simpa [isSym] using hc1)
      omega

theorem isSymbolRune_natCast (n : Nat) : isSymbolRune (n : Int) = isSym n := by
  cases h : isSym n with
  | true => exact (isSymbolRune_iff _).mpr ⟨n, rfl, h⟩
  | false =>
    cases h1 : isSymbolRune (n : Int) with
    | false => rfl
    | true =>
      obtain ⟨c, hc, hc1⟩ := (isSymbolRune_iff _).mp h1
      have : n = c := by exact_mod_cast hc
      subst this
      rw [h] at hc1
      exact absurd hc1 (by simp)

/-- There are 62 runes below 128 for which `isSymbolRune` is true. -/
theorem isSymbolRune_count :
    ((List.range 128).filter (fun n : Nat => isSymbolRune (n : Int))).length = 62 := by
  have h : (fun n : Nat => isSymbolRune (n : Int)) = isSym := funext isSymbolRune_natCast
  rw [h]
  decide

/-- C20: for every rune `r` (the end marker `-1` included) `isSymbolRune(r)` is
true if and only if `r` is one of the ASCII characters `0-9`, `a-z`, `A-Z`, and
there are 62 such runes; and these are exactly the runes `lexSymbol` consumes
into a `Symbol`: when `lexSymbol` runs with `start = pos` at the beginning of
`s ++ rest`, where `s` is any string of letters and digits and `r` is the rune
that `next` reads at the beginning of `rest`, it sends at most one `Symbol`
item, followed by one item of another kind; the text of the `Symbol` is `s`
followed by a leading part `more` of `rest`, and `more` is not empty, that is,
`r` has been consumed into the `Symbol`, if and only if `isSymbolRune(r)` is
true. -/
theorem isSymbolRune_iff_alnum (r : Int) :
    (isSymbolRune r = true ↔
      (48 ≤ r ∧ r ≤ 57) ∨ (97 ≤ r ∧ r ≤ 122) ∨ (65 ≤ r ∧ r ≤ 90)) ∧
    ((List.range 128).filter (fun n : Nat => isSymbolRune (n : Int))).length = 62 ∧
    ∀ (name before s rest : List Nat) (width : Int) (sent : List item),
      (∀ b ∈ s, (48 ≤ b ∧ b ≤ 57) ∨ (97 ≤ b ∧ b ≤ 122) ∨ (65 ≤ b ∧ b ≤ 90)) →
      (∃ l0, lexer.next ⟨name, before ++ (s ++ rest), before.length,
          before.length + s.length, width, sent, []⟩ = .ok (r, l0)) →
      ∃ st l1 more tail last,
        lexSymbol ⟨name, before ++ (s ++ rest), before.length, before.length, width, sent, []⟩ =
          .ok (st, l1) ∧
        rest = more ++ tail ∧
        l1.items = sent ++ (if s ++ more = [] then [] else [⟨.itemSymbol, s ++ more⟩]) ++ [last] ∧
        last.typ ≠ .itemSymbol ∧
        (isSymbolRune r = true ↔ more ≠ []) := by
  refine ⟨?_, isSymbolRune_count, ?_⟩
  · rw [isSymbolRune_iff]
    constructor
    · rintro ⟨b, rfl, hb⟩
      have := (isSym_iff b).mp hb
      omega
    · intro h
      refine ⟨r.toNat, by omega, (isSym_iff _).mpr ?_⟩
      omega
  · intro name before s rest width sent hsym ⟨l0, hnext⟩
    have hsym1 : ∀ b ∈ s, isSym b = true := fun b hb => (isSym_iff b).mpr (hsym b hb)
    have hgood :
        Good ⟨name, before ++ (s ++ rest), before.length, before.length, width, sent, []⟩ := by
      simp [Good]
      omega
    obtain ⟨l1, e1, _, _, e4, _⟩ := lexSymbol_spec _ before.length hgood rfl rfl
    simp only [List.drop_left] at e1 e4
    obtain ⟨last, hl1, hl2⟩ := specStep_symbol_items (s ++ rest)
    rw [takeWhile_append_all isSym s rest hsym1] at hl1
    have hr : isSymbolRune r = true ↔ rest.takeWhile isSym ≠ [] := by
      obtain ⟨r1, w, hn, _, hend, hin⟩ :=
        next_raw ⟨name, before ++ (s ++ rest), before.length,
          before.length + s.length, width, sent, []⟩ (before.length + s.length)
          (by simp) (by simp)
      rw [hn] at hnext
      have hrr : r1 = r := by
        have := congrArg (fun x => match x with | .ok (a, _) => a | _ => 0) hnext
        simpa using this
      subst hrr
      cases rest with
      | nil =>
        have := (hend (by simp)).1
        rw [this]
        simp [eof, isSymbolRune_eof]
      | cons b t =>
        have hd := (hin (by simp)).1
        have hdrop : (before ++ (s ++ b :: t)).drop (before.length + s.length) = b :: t := by
          rw [← List.append_assoc, ← List.length_append, List.drop_left]
        simp only [hdrop] at hd
        rw [hd, isSymbolRune_decode]
        cases hb : isSym b <;> simp [List.takeWhile, hb]
    refine ⟨_, l1, rest.takeWhile isSym, rest.dropWhile isSym, last, e1,
      takeWhile_append_dropWhile isSym rest, ?_, hl2, hr⟩
    rw [e4, hl1]
    simp [symbolItems]

/-- The input `"aZ]"` as an instance of C20: after the symbol byte `a` the
rune `Z` is read, and `lexSymbol` consumes it into the `Symbol`. -/
theorem isSymbolRune_iff_alnum_witness :
    (∀ b ∈ bytes "a", (48 ≤ b ∧ b ≤ 57) ∨ (97 ≤ b ∧ b ≤ 122) ∨ (65 ≤ b ∧ b ≤ 90)) ∧
    (∃ l0, lexer.next ⟨[], [] ++ (bytes "a" ++ bytes "Z]"), ([] : List Nat).length,
        ([] : List Nat).length + (bytes "a").length, 0, [], []⟩ = .ok (90, l0)) ∧
    ∃ st l1 more tail last,
      lexSymbol ⟨[], [] ++ (bytes "a" ++ bytes "Z]"), ([] : List Nat).length,
          ([] : List Nat).length, 0, [], []⟩ = .ok (st, l1) ∧
      bytes "Z]" = more ++ tail ∧
      l1.items = [] ++ (if bytes "a" ++ more = [] then [] else [⟨.itemSymbol, bytes "a" ++ more⟩])
        ++ [last] ∧
      last.typ ≠ .itemSymbol ∧
      (isSymbolRune 90 = true ↔ more ≠ []) :=
  ⟨by decide, ⟨_, rfl⟩,
    (isSymbolRune_iff_alnum 90).2.2 [] [] (bytes "a") (bytes "Z]") 0 [] (by decide)
      ⟨_, rfl⟩⟩

end Lexer
